import Mathlib

/-!
A shallow embedding of `parser.go` of the package `fullname_parser`.

Go strings are modelled as lists of Unicode code points (`List Char`); the
input is taken to be valid UTF-8.  Go slices are modelled as lists.  Every
index expression `xs[i]` and slice expression `xs[lo:]`, `xs[:hi]` of the source
goes through a checked operation that yields `none` where the index or bound
lies outside the length of the slice, so a run of the model that yields
`some` performs no out-of-range access and reads no stale cell of a backing
array.
-/

namespace FullnameParser

/-! Go runtime and standard library -/

/-- The Go expression `xs[i]` for an index of type `int`. -/
def goIndex {α : Type} (xs : List α) (i : Int) : Option α :=
  if i < 0 then none else xs[i.toNat]?

/-- The Go statement `xs[i] = v`. -/
def goSet {α : Type} (xs : List α) (i : Int) (v : α) : Option (List α) :=
  if i < 0 then none else if i.toNat < xs.length then some (xs.set i.toNat v) else none

/-- The Go expression `xs[:hi]`. -/
def goSliceTo {α : Type} (xs : List α) (hi : Int) : Option (List α) :=
  if hi < 0 then none else if hi.toNat ≤ xs.length then some (xs.take hi.toNat) else none

/-- The Go expression `xs[lo:]`. -/
def goSliceFrom {α : Type} (xs : List α) (lo : Int) : Option (List α) :=
  if lo < 0 then none else if lo.toNat ≤ xs.length then some (xs.drop lo.toNat) else none

/-- The Go function `strings.Join`. -/
def stringsJoin (elems : List (List Char)) (sep : List Char) : List Char :=
  sep.intercalate elems

/-- The Go function `strings.HasSuffix`. -/
def hasSuffix (s suffix : List Char) : Bool :=
  suffix.reverse.isPrefixOf s.reverse

/-- The Go function `strings.TrimSuffix`. -/
def trimSuffix (s suffix : List Char) : List Char :=
  if hasSuffix s suffix then s.take (s.length - suffix.length) else s

/-- The Go function `unicode.IsSpace`. -/
def unicodeIsSpace (c : Char) : Bool :=
  let n := c.toNat
  n = 0x09 || n = 0x0A || n = 0x0B || n = 0x0C || n = 0x0D || n = 0x20 || n = 0x85 || n = 0xA0 ||
  n = 0x1680 || (0x2000 ≤ n && n ≤ 0x200A) || n = 0x2028 || n = 0x2029 || n = 0x202F ||
  n = 0x205F || n = 0x3000

/-- The Go function `strings.TrimSpace`. -/
def trimSpace (s : List Char) : List Char :=
  ((s.dropWhile unicodeIsSpace).reverse.dropWhile unicodeIsSpace).reverse

/-- The Go function `unicode.ToLower` on one rune.  The ASCII letters and the two
runes outside ASCII whose lower case is an ASCII letter (U+0130 and U+212A) are
mapped as Go maps them.  The other runes are left as they are: Go maps each of
them to a rune outside ASCII, so with either value the rune differs from every
character of the suffix and title lexicons, which are ASCII. -/
def toLowerRune (c : Char) : Char :=
  if 'A'.toNat ≤ c.toNat ∧ c.toNat ≤ 'Z'.toNat then Char.ofNat (c.toNat + 32)
  else if c.toNat = 0x130 then 'i'
  else if c.toNat = 0x212A then 'k'
  else c

/-- The Go function `strings.ToLower`. -/
def toLower (s : List Char) : List Char := s.map toLowerRune

/-- The Go function `strings.Split` with a one-character separator. -/
def stringsSplit (sep : Char) : List Char → List (List Char)
  | [] => [[]]
  | c :: cs =>
    if c = sep then [] :: stringsSplit sep cs
    else
      match stringsSplit sep cs with
      | [] => [[c]]
      | p :: ps => (c :: p) :: ps

/-- The scan of `strings.Replace(s, old, "", -1)`: `skip` counts the characters
of an occurrence of `old` that are still to be dropped. -/
def removeAllAux (old : List Char) : Nat → List Char → List Char
  | _, [] => []
  | skip + 1, _ :: cs => removeAllAux old skip cs
  | 0, c :: cs =>
    if old.isPrefixOf (c :: cs) then removeAllAux old (old.length - 1) cs
    else c :: removeAllAux old 0 cs

/-- The Go call `strings.Replace(s, old, "", -1)`: every non-overlapping
occurrence of `old`, from the left, is removed; an empty `old` changes nothing. -/
def stringsRemoveAll (s old : List Char) : List Char :=
  if old = [] then s else removeAllAux old 0 s

/-! The two regular expressions -/

/-- The class `\s` of Go regular expressions. -/
def isReSpace (c : Char) : Bool :=
  let n := c.toNat
  n = 0x09 || n = 0x0A || n = 0x0C || n = 0x0D || n = 0x20

/-- The class `[\s\p{Zs}]` of `splitNameRE`. -/
def isSplitSpace (c : Char) : Bool :=
  let n := c.toNat
  isReSpace c || n = 0xA0 || n = 0x1680 || (0x2000 ≤ n && n ≤ 0x200A) || n = 0x202F ||
  n = 0x205F || n = 0x3000

/-- The opening class `[\'\"\(\[]` of `nickNameRE`. -/
def isOpener (c : Char) : Bool :=
  c = Char.ofNat 39 || c = Char.ofNat 34 || c = '(' || c = '['

/-- The closing class `[\'\"\)\]]` of `nickNameRE`. -/
def isCloser (c : Char) : Bool :=
  c = Char.ofNat 39 || c = Char.ofNat 34 || c = ')' || c = ']'

/-- The class `[^\[\]\)\)\'\"]` of the capture group of `nickNameRE`. -/
def isNickChar (c : Char) : Bool :=
  !(c = '[' || c = ']' || c = ')' || c = Char.ofNat 39 || c = Char.ofNat 34)

/-- The part `[\'\"\(\[]([^\[\]\)\)\'\"]+)[\'\"\)\]]` of `nickNameRE` matched at
the start of `s`: the capture group and the length of the match.  Every closing
delimiter is outside the class of the group, so the greedy group takes the
longest run of the class and no shorter run can be followed by a closer. -/
def matchNickCore : List Char → Option (List Char × Nat)
  | [] => none
  | o :: rest =>
    if isOpener o then
      let inner := rest.takeWhile isNickChar
      match rest.dropWhile isNickChar with
      | [] => none
      | c :: _ =>
        if inner ≠ [] ∧ isCloser c then some (inner, inner.length + 2) else none
    else none

/-- The regular expression `nickNameRE` matched at the start of `s`: `\s?` first
tries to take a whitespace character and falls back to taking none. -/
def matchNickAt (s : List Char) : Option (List Char × Nat) :=
  match s with
  | [] => none
  | w :: rest =>
    if isReSpace w then
      match matchNickCore rest with
      | some (g, n) => some (g, n + 1)
      | none => matchNickCore s
    else matchNickCore s

/-- The scan of `nickNameRE.FindAllStringSubmatch(s, -1)`: the leftmost match,
then the leftmost match after its end, and so on; each entry is the pair of the
whole match `v[0]` and the capture group `v[1]`.  `skip` counts the characters of
the last match that are still to be passed. -/
def findAllNickAux : Nat → List Char → List (List Char × List Char)
  | _, [] => []
  | skip + 1, _ :: cs => findAllNickAux skip cs
  | 0, c :: cs =>
    match matchNickAt (c :: cs) with
    | some (g, n) => ((c :: cs).take n, g) :: findAllNickAux (n - 1) cs
    | none => findAllNickAux 0 cs

/-- The Go call `nickNameRE.FindAllStringSubmatch(s, -1)`. -/
def findAllNick (s : List Char) : List (List Char × List Char) :=
  findAllNickAux 0 s

/-- The scan of `splitNameRE.ReplaceAllLiteralString(s, " ")`: `inRun` holds
inside a run of two or more characters of the class, whose single space has
been written already. -/
def collapseAux : Bool → List Char → List Char
  | _, [] => []
  | true, c :: cs => if isSplitSpace c then collapseAux true cs else c :: collapseAux false cs
  | false, c :: cs =>
    if isSplitSpace c then
      match cs with
      | [] => [c]
      | d :: _ => if isSplitSpace d then ' ' :: collapseAux true cs else c :: collapseAux false cs
    else c :: collapseAux false cs

/-- The Go call `splitNameRE.ReplaceAllLiteralString(s, " ")`. -/
def collapseSpaces (s : List Char) : List Char := collapseAux false s

/-! The lexicons -/

/-- The variable `suffixList`. -/
def suffixList : List (List Char) :=
  ["esq", "esquire", "jr", "jnr", "sr", "snr", "2", "ii", "iii", "iv",
    "v", "clu", "chfc", "cfp", "md", "phd", "j.d.", "ll.m.", "m.d.", "d.o.", "d.c.",
    "p.c.", "ph.d."].map String.toList

/-- The variable `prefixList`. -/
def prefixList : List (List Char) :=
  ["a", "ab", "antune", "ap", "abu", "al", "alm", "alt", "bab", "bäck",
    "bar", "bath", "bat", "beau", "beck", "ben", "berg", "bet", "bin", "bint", "birch",
    "björk", "björn", "bjur", "da", "dahl", "dal", "de", "degli", "dele", "del",
    "della", "der", "di", "dos", "du", "e", "ek", "el", "escob", "esch", "fleisch",
    "fitz", "fors", "gott", "griff", "haj", "haug", "holm", "ibn", "kauf", "kil",
    "koop", "kvarn", "la", "le", "lind", "lönn", "lund", "mac", "mhic", "mic", "mir",
    "na", "naka", "neder", "nic", "ni", "nin", "nord", "norr", "ny", "o", "ua",
    String.mk ['u', 'i', Char.ofNat 92, Char.ofNat 39],
    "öfver", "ost", "över", "öz", "papa", "pour", "quarn", "skog", "skoog", "sten",
    "stor", "ström", "söder", "ter", "ter", "tre", "türk", "van", "väst", "väster",
    "vest", "von"].map String.toList

/-- The variable `titleList`. -/
def titleList : List (List Char) :=
  ["mr", "mrs", "ms", "miss", "dr", "herr", "monsieur", "hr", "frau",
    "a v m", "admiraal", "admiral", "air cdre", "air commodore", "air marshal",
    "air vice marshal", "alderman", "alhaji", "ambassador", "baron", "barones",
    "brig", "brig gen", "brig general", "brigadier", "brigadier general",
    "brother", "canon", "capt", "captain", "cardinal", "cdr", "chief", "cik", "cmdr",
    "coach", "col", "colonel", "commandant", "commander", "commissioner",
    "commodore", "comte", "comtessa", "congressman", "conseiller", "consul",
    "conte", "contessa", "corporal", "councillor", "count", "countess",
    "crown prince", "crown princess", "dame", "datin", "dato", "datuk",
    "datuk seri", "deacon", "deaconess", "dean", "dhr", "dipl ing", "doctor",
    "dott", "dott sa", "dr ing", "dra", "drs", "embajador", "embajadora", "en",
    "encik", "eng", "eur ing", "exma sra", "exmo sr", "f o", "father",
    "first lieutient", "first officer", "flt lieut", "flying officer", "fr",
    "frau", "fraulein", "fru", "gen", "generaal", "general", "governor", "graaf",
    "gravin", "group captain", "grp capt", "h e dr", "h h", "h m", "h r h", "hajah",
    "haji", "hajim", "her highness", "her majesty", "herr", "high chief",
    "his highness", "his holiness", "his majesty", "hon", "hr", "hra", "ing", "ir",
    "jonkheer", "judge", "justice", "khun ying", "kolonel", "lady", "lcda", "lic",
    "lieut", "lieut cdr", "lieut col", "lieut gen", "lord", "m", "m l", "m r",
    "madame", "mademoiselle", "maj gen", "major", "master", "mevrouw", "miss",
    "mlle", "mme", "monsieur", "monsignor", "mstr", "nti", "pastor",
    "president", "prince", "princess", "princesse", "prinses", "prof",
    "prof sir", "professor", "puan", "puan sri", "rabbi", "rear admiral", "rev",
    "rev canon", "rev dr", "rev mother", "reverend", "rva", "senator", "sergeant",
    "sheikh", "sheikha", "sig", "sig na", "sig ra", "sir", "sister", "sqn ldr", "sr",
    "sr d", "sra", "srta", "sultan", "tan sri", "tan sri dato", "tengku", "teuku",
    "than puying", "the hon dr", "the hon justice", "the hon miss", "the hon mr",
    "the hon mrs", "the hon ms", "the hon sir", "the very rev", "toh puan", "tun",
    "vice admiral", "viscount", "viscountess", "wg cdr"].map String.toList

/-- The variable `conjunctionList`. -/
def conjunctionList : List (List Char) :=
  ["&", "and", "et", "e", "of", "the", "und", "y"].map String.toList

/-! The parser state and its passes -/

/-- The struct `ParsedName`. -/
structure ParsedName where
  Title : List Char := []
  First : List Char := []
  Middle : List Char := []
  Last : List Char := []
  Nick : List Char := []
  Suffix : List Char := []
  nameParts : List (List Char) := []
  nameCommas : List Bool := []
  rawName : List Char := []
deriving DecidableEq, Repr

/-- The method `findNicknames`: the nicknames found and the state with the
matched spans removed from `rawName`. -/
def findNicknames (p : ParsedName) : List (List Char) × ParsedName :=
  let found := findAllNick p.rawName
  let partsFound := found.map (fun v => v.2)
  let tempString := found.foldl (fun t v => stringsRemoveAll t v.1) p.rawName
  (partsFound, { p with rawName := tempString })

/-- The body of the loop of `splitName` for one element `v` of the split. -/
def splitToken (v : List Char) : List Char × Bool :=
  if hasSuffix v [','] then (trimSuffix v [','], true) else (trimSpace v, false)

/-- The method `splitName`. -/
def splitName (p : ParsedName) : ParsedName :=
  let fullname := collapseSpaces p.rawName
  let nameParts := stringsSplit ' ' (trimSpace fullname)
  { p with nameParts := nameParts.map (fun v => (splitToken v).1),
           nameCommas := nameParts.map (fun v => (splitToken v).2) }

/-- The value `partToCheck` of `findParts`. -/
def partToCheck (namePart : List Char) : List Char :=
  trimSuffix (toLower namePart) ['.']

/-- The first loop of `findParts`: a token is appended once for every entry of
`list` that equals its normalised form. -/
def collectParts (list : List (List Char)) : List (List Char) → List (List Char)
  | [] => []
  | namePart :: rest =>
    if namePart = [] then collectParts list rest
    else
      (list.filter (fun suf => suf = partToCheck namePart)).map (fun _ => namePart)
        ++ collectParts list rest

/-- The search for `foundIndex` in `findParts`: the first index of a token equal
to `partFound`, or `-1`. -/
def findIndexOf (partFound : List Char) : List (List Char) → Int
  | [] => -1
  | namePart :: rest =>
    if partFound = namePart then 0
    else
      let r := findIndexOf partFound rest
      if r < 0 then -1 else r + 1

/-- The body of the second loop of `findParts` for one `partFound`. -/
def removePart (p : ParsedName) (partFound : List Char) : Option ParsedName :=
  let foundIndex := findIndexOf partFound p.nameParts
  if foundIndex > -1 then do
    let a ← goSliceTo p.nameParts foundIndex
    let b ← goSliceFrom p.nameParts (foundIndex + 1)
    let flag ← goIndex p.nameCommas foundIndex
    if flag = true ∧ foundIndex ≠ (p.nameCommas.length : Int) - 1 then do
      let c ← goSliceTo p.nameCommas (foundIndex + 1)
      let d ← goSliceFrom p.nameCommas (foundIndex + 1 + 1)
      pure { p with nameParts := a ++ b, nameCommas := c ++ d }
    else do
      let c ← goSliceTo p.nameCommas foundIndex
      let d ← goSliceFrom p.nameCommas (foundIndex + 1)
      pure { p with nameParts := a ++ b, nameCommas := c ++ d }
  else some p

/-- The second loop of `findParts`. -/
def removeParts : List (List Char) → ParsedName → Option ParsedName
  | [], p => some p
  | partFound :: rest, p => (removePart p partFound).bind (removeParts rest)

/-- The method `findParts`. -/
def findParts (list : List (List Char)) (p : ParsedName) :
    Option (List (List Char) × ParsedName) :=
  let partsFound := collectParts list p.nameParts
  (removeParts partsFound p).map (fun q => (partsFound, q))

/-- The method `findSuffixes`. -/
def findSuffixes (p : ParsedName) : Option (List (List Char) × ParsedName) :=
  findParts suffixList p

/-- The method `findTitles`. -/
def findTitles (p : ParsedName) : Option (List (List Char) × ParsedName) :=
  findParts titleList p

/-- The loop over `prefixList` in `joinPrefixes`, at the index `i`. -/
def joinPrefixesInner (i : Int) : List (List Char) → ParsedName → Option ParsedName
  | [], p => some p
  | pref :: rest, p => do
    let cur ← goIndex p.nameParts i
    if pref = cur then do
      let nxt ← goIndex p.nameParts (i + 1)
      let parts ← goSet p.nameParts i (cur ++ [' '] ++ nxt)
      let a ← goSliceTo parts (i + 1)
      let b ← goSliceFrom parts (i + 2)
      let c ← goSliceTo p.nameCommas i
      let d ← goSliceFrom p.nameCommas (i + 1)
      joinPrefixesInner i rest { p with nameParts := a ++ b, nameCommas := c ++ d }
    else joinPrefixesInner i rest p

/-- The loop `for i := len(nameParts) - 2; i >= 0; i--` of `joinPrefixes`:
`joinPrefixesLoop k` runs the body for `i = k - 1, ..., 0`. -/
def joinPrefixesLoop : Nat → ParsedName → Option ParsedName
  | 0, p => some p
  | k + 1, p => (joinPrefixesInner (k : Int) prefixList p).bind (joinPrefixesLoop k)

/-- The method `joinPrefixes`. -/
def joinPrefixes (p : ParsedName) : Option ParsedName :=
  if p.nameParts.length > 1 then joinPrefixesLoop (p.nameParts.length - 1) p else some p

/-- The loop over `conjunctionList` in `joinConjunctions`; the index `i` is
part of the state, since the body decrements it. -/
def joinConjunctionsInner : List (List Char) → Int → ParsedName → Option (Int × ParsedName)
  | [], i, p => some (i, p)
  | conj :: rest, i, p => do
    let mid ← goIndex p.nameParts (i + 1)
    if conj = mid then do
      let cur ← goIndex p.nameParts i
      let nxt ← goIndex p.nameParts (i + 2)
      let parts ← goSet p.nameParts i (cur ++ [' '] ++ mid ++ [' '] ++ nxt)
      let a ← goSliceTo parts (i + 1)
      let b ← goSliceFrom parts (i + 3)
      let c ← goSliceTo p.nameCommas i
      let d ← goSliceFrom p.nameCommas (i + 2)
      joinConjunctionsInner rest (i - 1) { p with nameParts := a ++ b, nameCommas := c ++ d }
    else joinConjunctionsInner rest i p

/-- The loop `for i := len(nameParts) - 3; i >= 0; i--` of `joinConjunctions`.
The index decreases by at least one in every round, so `fuel` rounds with
`i < fuel` at the start reach `i < 0`; running out of fuel before that yields
`none`. -/
def joinConjunctionsLoop : Nat → Int → ParsedName → Option ParsedName
  | 0, i, p => if i ≥ 0 then none else some p
  | fuel + 1, i, p =>
    if i ≥ 0 then
      (joinConjunctionsInner conjunctionList i p).bind
        (fun r => joinConjunctionsLoop fuel (r.1 - 1) r.2)
    else some p

/-- The method `joinConjunctions`. -/
def joinConjunctions (p : ParsedName) : Option ParsedName :=
  if p.nameParts.length > 2 then
    joinConjunctionsLoop p.nameParts.length ((p.nameParts.length : Int) - 3) p
  else some p

/-- The count `commasCount` of `findExtraSuffixes`. -/
def commasCount (nameCommas : List Bool) : Nat :=
  (nameCommas.filter (fun v => v)).length

/-- The loop `for i := len(nameParts) - 1; i >= 2; i--` of `findExtraSuffixes`:
`extraSuffixesLoop k` runs the body for `i = k + 1, ..., 2`. -/
def extraSuffixesLoop : Nat → List (List Char) × ParsedName →
    Option (List (List Char) × ParsedName)
  | 0, r => some r
  | k + 1, (extraSuffixes, p) => do
    let i : Int := (k : Int) + 2
    let flag ← goIndex p.nameCommas i
    if flag = true then do
      let part ← goIndex p.nameParts i
      let a ← goSliceTo p.nameParts i
      let b ← goSliceFrom p.nameParts (i + 1)
      let c ← goSliceTo p.nameCommas i
      let d ← goSliceFrom p.nameCommas (i + 1)
      extraSuffixesLoop k (extraSuffixes ++ [part], { p with nameParts := a ++ b, nameCommas := c ++ d })
    else extraSuffixesLoop k (extraSuffixes, p)

/-- The method `findExtraSuffixes`. -/
def findExtraSuffixes (p : ParsedName) : Option (List (List Char) × ParsedName) :=
  if commasCount p.nameCommas > 1 then extraSuffixesLoop (p.nameParts.length - 2) ([], p)
  else some ([], p)

/-- The loop of `findLastname` that sets `commaIndex`, started at `i`. -/
def lastCommaIndex : Int → Int → List Bool → Int
  | commaIndex, _, [] => commaIndex
  | commaIndex, i, v :: rest => lastCommaIndex (if v = true then i else commaIndex) (i + 1) rest

/-- The method `findLastname`. -/
def findLastname (p : ParsedName) : Option (List Char × ParsedName) := do
  let commaIndex := lastCommaIndex (-1) 0 p.nameCommas
  let commaIndex := if commaIndex = -1 then (p.nameParts.length : Int) - 1 else commaIndex
  let lastname ← goIndex p.nameParts commaIndex
  let a ← goSliceTo p.nameParts commaIndex
  let b ← goSliceFrom p.nameParts (commaIndex + 1)
  let c ← goSliceTo p.nameCommas 0
  pure (lastname, { p with nameParts := a ++ b, nameCommas := c })

/-- The method `findFirstname`. -/
def findFirstname (p : ParsedName) : Option (List Char × ParsedName) := do
  let firstname ← goIndex p.nameParts 0
  let rest ← goSliceFrom p.nameParts 1
  pure (firstname, { p with nameParts := rest })

/-- The method `findMiddlename`. -/
def findMiddlename (p : ParsedName) : Option (List Char × ParsedName) := do
  let middlename := stringsJoin p.nameParts [' ']
  let rest ← goSliceTo p.nameParts 0
  pure (middlename, { p with nameParts := rest })

/-! `Parse`, pass by pass -/

/-- The nickname pass of `Parse`. -/
def passNick (p : ParsedName) : Option ParsedName :=
  let r := findNicknames p
  some { r.2 with Nick := stringsJoin r.1 [','] }

/-- The tokenization pass of `Parse`. -/
def passSplit (p : ParsedName) : Option ParsedName := some (splitName p)

/-- The suffix pass of `Parse`. -/
def passSuffix (p : ParsedName) : Option ParsedName :=
  if p.nameParts.length > 1 then
    (findSuffixes p).map (fun r => { r.2 with Suffix := stringsJoin r.1 [',', ' '] })
  else some p

/-- The title pass of `Parse`. -/
def passTitle (p : ParsedName) : Option ParsedName :=
  if p.nameParts.length > 1 then
    (findTitles p).map (fun r => { r.2 with Title := stringsJoin r.1 [',', ' '] })
  else some p

/-- The prefix-joining pass of `Parse`. -/
def passPrefix (p : ParsedName) : Option ParsedName :=
  if p.nameParts.length > 1 then joinPrefixes p else some p

/-- The conjunction-joining pass of `Parse`. -/
def passConj (p : ParsedName) : Option ParsedName :=
  if p.nameParts.length > 1 then joinConjunctions p else some p

/-- The extra-suffix pass of `Parse`. -/
def passExtra (p : ParsedName) : Option ParsedName :=
  if p.nameParts.length > 1 then
    (findExtraSuffixes p).map (fun r =>
      if r.1.length > 0 then
        if r.2.Suffix ≠ [] then
          { r.2 with Suffix := r.2.Suffix ++ [',', ' '] ++ stringsJoin r.1 [',', ' '] }
        else { r.2 with Suffix := stringsJoin r.1 [',', ' '] }
      else r.2)
  else some p

/-- The last-name pass of `Parse`. -/
def passLast (p : ParsedName) : Option ParsedName :=
  if p.nameParts.length > 0 then (findLastname p).map (fun r => { r.2 with Last := r.1 })
  else some p

/-- The first-name pass of `Parse`. -/
def passFirst (p : ParsedName) : Option ParsedName :=
  if p.nameParts.length > 0 then (findFirstname p).map (fun r => { r.2 with First := r.1 })
  else some p

/-- The middle-name pass of `Parse`. -/
def passMiddle (p : ParsedName) : Option ParsedName :=
  if p.nameParts.length > 0 then (findMiddlename p).map (fun r => { r.2 with Middle := r.1 })
  else some p

/-- The passes of `Parse`, in the order of the source. -/
def passes : List (ParsedName → Option ParsedName) :=
  [passNick, passSplit, passSuffix, passTitle, passPrefix, passConj, passExtra,
   passLast, passFirst, passMiddle]

/-- Runs a list of passes in sequence, stopping at the first failure. -/
def runPasses : List (ParsedName → Option ParsedName) → ParsedName → Option ParsedName
  | [], p => some p
  | f :: fs, p => (f p).bind (runPasses fs)

/-- The method `Parse`. -/
def Parse (p : ParsedName) : Option ParsedName := runPasses passes p

/-- The function `ParseFullname`. -/
def ParseFullname (fullname : List Char) : Option ParsedName :=
  Parse { rawName := fullname }

/-- The state of `ParseFullname fullname` after its first `n` passes. -/
def stateAfter (n : Nat) (fullname : List Char) : Option ParsedName :=
  runPasses (passes.take n) { rawName := fullname }

/-! Predicates of the statements -/

/-- The working sequences have the same length. -/
def Synced (p : ParsedName) : Prop := p.nameParts.length = p.nameCommas.length

/-- A character that is no whitespace (neither of `unicode.IsSpace` nor of the
class `[\s\p{Zs}]`), no comma and none of the characters `'`, `"`, `(`, `)`,
`[`, `]`. -/
def isPlainChar (c : Char) : Bool :=
  !(unicodeIsSpace c || isSplitSpace c || c = ',' || isOpener c || isCloser c)

/-- A plain token: non-empty, made of plain characters, with a normalised form
in neither `suffixList` nor `titleList`, and equal to no entry of `prefixList`
or `conjunctionList`. -/
def PlainToken (t : List Char) : Prop :=
  t ≠ [] ∧ (∀ c ∈ t, isPlainChar c = true) ∧ partToCheck t ∉ suffixList ∧
    partToCheck t ∉ titleList ∧ t ∉ prefixList ∧ t ∉ conjunctionList

/-- A token as it is written in the input: followed by a comma where its flag
is set. -/
def withComma (x : List Char × Bool) : List Char :=
  if x.2 = true then x.1 ++ [','] else x.1

/-- A token as written in the input: non-empty, free of whitespace and of
opening delimiters. -/
def RawToken (v : List Char) : Prop :=
  v ≠ [] ∧ ∀ c ∈ v, unicodeIsSpace c = false ∧ isSplitSpace c = false ∧ isOpener c = false

/-- The text holds a span made of an opening delimiter, a non-empty run of
characters and a closing delimiter, whichever the two delimiters are. -/
def HasNickSpan (s : List Char) : Prop :=
  ∃ pre o mid c post, s = pre ++ o :: (mid ++ c :: post) ∧ isOpener o = true ∧ mid ≠ [] ∧
    isCloser c = true

/-- The closing delimiter `c` pairs with the opening delimiter `o`: `'` with `'`,
`"` with `"`, `(` with `)`, `[` with `]`. -/
def delimitersPair (o c : Char) : Bool :=
  (o = Char.ofNat 39 && c = Char.ofNat 39) || (o = Char.ofNat 34 && c = Char.ofNat 34) ||
  (o = '(' && c = ')') || (o = '[' && c = ']')

/-- The text holds a span made of an opening delimiter, a non-empty run of
characters and the closing delimiter that pairs with it. -/
def HasPairedSpan (s : List Char) : Prop :=
  ∃ pre o mid c post, s = pre ++ o :: (mid ++ c :: post) ∧ mid ≠ [] ∧
    delimitersPair o c = true

/-- The state `p` with its field `Nick` set to `n`. -/
def withNick (n : List Char) (p : ParsedName) : ParsedName := { p with Nick := n }

/-- The text holds no two adjacent characters of the class `[\s\p{Zs}]`, that
is, no match of `splitNameRE`. -/
def noSpaceRun : List Char → Bool
  | [] => true
  | [_] => true
  | c :: d :: r => !(isSplitSpace c && isSplitSpace d) && noSpaceRun (d :: r)

/-- The token matches the lexicon `list`: it is non-empty and its lower-cased
form with one trailing period stripped is an entry of `list`. -/
def matchesList (list : List (List Char)) (t : List Char) : Bool :=
  decide (t ≠ []) && decide (partToCheck t ∈ list)

/-- One step of prefix joining, read from the right: a token that is an entry of
`prefixList` is joined, with one space, to the token that follows it. -/
def mergeStep (t : List Char) (acc : List (List Char)) : List (List Char) :=
  if t ∈ prefixList then
    match acc with
    | [] => [t]
    | r :: rs => (t ++ [' '] ++ r) :: rs
  else t :: acc

/-- Prefix joining as the specification words it: the tokens are walked from
the second-to-last down to the first, and each particle is merged with the
token that follows it. -/
def mergePrefixes (parts : List (List Char)) : List (List Char) :=
  parts.foldr mergeStep []

/-- The token sequence `b` regroups the token sequence `a`: it comes from `a` by
joining adjacent tokens with one space, any number of times. -/
inductive Regroup : List (List Char) → List (List Char) → Prop
  | refl (l : List (List Char)) : Regroup l l
  | merge (l A B : List (List Char)) (x y : List Char) :
      Regroup l (A ++ x :: y :: B) → Regroup l (A ++ (x ++ [' '] ++ y) :: B)

/-- The value is the single-space join of one or more of the tokens `toks`. -/
def TokenJoin (toks : List (List Char)) (v : List Char) : Prop :=
  ∃ sub, sub ≠ [] ∧ (∀ x ∈ sub, x ∈ toks) ∧ v = stringsJoin sub [' ']

/-- The field is a `", "`-join of entries, each the single-space join of one or
more of the tokens `toks`. -/
def EntriesOfTokens (toks : List (List Char)) (v : List Char) : Prop :=
  ∃ es, (∀ e ∈ es, TokenJoin toks e) ∧ v = stringsJoin es [',', ' ']

/-- No value of the state is invented: the working tokens and the fields
`First` and `Last` (empty when absent) are single-space joins of tokens of
`toks`, `Middle` is a single-space join of such values, and `Title` and
`Suffix` are `", "`-joins of such values. -/
def TokensInv (toks : List (List Char)) (p : ParsedName) : Prop :=
  (∀ x ∈ p.nameParts, TokenJoin toks x) ∧ EntriesOfTokens toks p.Title ∧
    EntriesOfTokens toks p.Suffix ∧ (p.First = [] ∨ TokenJoin toks p.First) ∧
    (p.Last = [] ∨ TokenJoin toks p.Last) ∧
    (∃ vals, (∀ v ∈ vals, TokenJoin toks v) ∧ p.Middle = stringsJoin vals [' '])

/-- The (token, flag) pairs that `findParts` leaves, in the words of the
amended claim C15: a token that matches the list is dropped, and a surviving
token keeps its place with the flag `carry || f`, where `f` is its own flag and
`carry` says whether a token of the unbroken run of dropped tokens just before
it carried a flag. -/
def keepPairs (list : List (List Char)) :
    Bool → List (List Char × Bool) → List (List Char × Bool)
  | _, [] => []
  | carry, (t, f) :: rest =>
    if matchesList list t then keepPairs list (carry || f) rest
    else (t, carry || f) :: keepPairs list false rest

/-- No surviving token with flag `false` comes directly after an unbroken run of
matching tokens one of which carries a flag (`carry`: such a run is open). -/
def flagsStay (list : List (List Char)) : Bool → List (List Char × Bool) → Bool
  | _, [] => true
  | carry, (t, f) :: rest =>
    if matchesList list t then flagsStay list (carry || f) rest
    else (!carry || f) && flagsStay list false rest

/-! Checked slice operations inside their bounds -/

theorem goIndex_eq {α : Type} (xs : List α) (i : Int) (n : Nat) (h : i = (n : Int)) :
    goIndex xs i = xs[n]? := by
  subst h; simp [goIndex]

theorem goSet_eq {α : Type} (xs : List α) (i : Int) (n : Nat) (v : α) (h : i = (n : Int))
    (hn : n < xs.length) : goSet xs i v = some (xs.set n v) := by
  subst h; simp [goSet, hn]

theorem goSliceTo_eq {α : Type} (xs : List α) (i : Int) (n : Nat) (h : i = (n : Int))
    (hn : n ≤ xs.length) : goSliceTo xs i = some (xs.take n) := by
  subst h; simp [goSliceTo, hn]

theorem goSliceFrom_eq {α : Type} (xs : List α) (i : Int) (n : Nat) (h : i = (n : Int))
    (hn : n ≤ xs.length) : goSliceFrom xs i = some (xs.drop n) := by
  subst h; simp [goSliceFrom, hn]

theorem findIndexOf_range (x : List Char) (parts : List (List Char)) :
    findIndexOf x parts = -1 ∨ (0 ≤ findIndexOf x parts ∧ findIndexOf x parts < parts.length) := by
  induction parts with
  | nil => left; rfl
  | cons a rest ih =>
    unfold findIndexOf
    by_cases h : x = a
    · right; simp [h]
    · simp only [h, if_false]
      rcases ih with ih | ih
      · left; simp [ih]
      · right
        have : ¬ findIndexOf x rest < 0 := by omega
        simp only [this, if_false, List.length_cons]
        push_cast
        omega

theorem findIndexOf_neg_of_not_mem (x : List Char) (parts : List (List Char)) (h : x ∉ parts) :
    findIndexOf x parts = -1 := by
  induction parts with
  | nil => rfl
  | cons a rest ih =>
    have h1 : x ≠ a := fun e => h (by simp [e])
    have h2 : x ∉ rest := fun e => h (by simp [e])
    simp [findIndexOf, h1, ih h2]

theorem removePart_some (p : ParsedName) (x : List Char) (hs : Synced p) :
    ∃ ps cs, removePart p x = some { p with nameParts := ps, nameCommas := cs } ∧
      ps.length = cs.length ∧ ps.length ≤ p.nameParts.length := by
  unfold Synced at hs
  unfold removePart
  rcases findIndexOf_range x p.nameParts with h | ⟨h0, h1⟩
  · refine ⟨p.nameParts, p.nameCommas, ?_, hs, le_refl _⟩
    simp [h]
  · generalize findIndexOf x p.nameParts = fi at h0 h1
    obtain ⟨n, rfl⟩ := Int.eq_ofNat_of_zero_le h0
    have hn : n < p.nameParts.length := by omega
    have hn2 : n < p.nameCommas.length := by omega
    have hgt : ((n : Int) > -1) := by omega
    simp only [hgt, if_true]
    rw [goSliceTo_eq p.nameParts _ n rfl (by omega),
      goSliceFrom_eq p.nameParts _ (n + 1) (by omega) (by omega),
      goIndex_eq p.nameCommas _ n rfl, List.getElem?_eq_getElem hn2]
    simp only [Option.some_bind, Option.bind_eq_bind]
    split
    · rename_i hc
      rw [goSliceTo_eq p.nameCommas _ (n + 1) (by omega) (by omega),
        goSliceFrom_eq p.nameCommas _ (n + 2) (by omega) (by omega)]
      refine ⟨_, _, rfl, ?_, ?_⟩
      · simp; omega
      · simp; omega
    · rw [goSliceTo_eq p.nameCommas _ n rfl (by omega),
        goSliceFrom_eq p.nameCommas _ (n + 1) (by omega) (by omega)]
      refine ⟨_, _, rfl, ?_, ?_⟩
      · simp; omega
      · simp; omega

theorem removeParts_some (xs : List (List Char)) (p : ParsedName) (hs : Synced p) :
    ∃ ps cs, removeParts xs p = some { p with nameParts := ps, nameCommas := cs } ∧
      ps.length = cs.length ∧ ps.length ≤ p.nameParts.length := by
  induction xs generalizing p with
  | nil => exact ⟨p.nameParts, p.nameCommas, rfl, hs, le_refl _⟩
  | cons x rest ih =>
    obtain ⟨ps, cs, h1, h2, h3⟩ := removePart_some p x hs
    obtain ⟨ps2, cs2, h4, h5, h6⟩ := ih { p with nameParts := ps, nameCommas := cs } h2
    refine ⟨ps2, cs2, ?_, h5, le_trans h6 h3⟩
    simp only [removeParts, h1, Option.some_bind, h4]

theorem findParts_some (list : List (List Char)) (p : ParsedName) (hs : Synced p) :
    ∃ ps cs, findParts list p =
        some (collectParts list p.nameParts, { p with nameParts := ps, nameCommas := cs }) ∧
      ps.length = cs.length ∧ ps.length ≤ p.nameParts.length := by
  obtain ⟨ps, cs, h1, h2, h3⟩ := removeParts_some (collectParts list p.nameParts) p hs
  exact ⟨ps, cs, by simp [findParts, h1], h2, h3⟩

theorem mem_of_mem_collectParts (list : List (List Char)) (parts : List (List Char))
    (x : List Char) (h : x ∈ collectParts list parts) : x ∈ parts := by
  induction parts with
  | nil => simp [collectParts] at h
  | cons a rest ih =>
    unfold collectParts at h
    split at h
    · exact List.mem_cons_of_mem _ (ih h)
    · rcases List.mem_append.1 h with h | h
      · simp only [List.mem_map] at h
        obtain ⟨_, _, rfl⟩ := h
        exact List.mem_cons_self _ _
      · exact List.mem_cons_of_mem _ (ih h)

theorem collectParts_nil_of_no_match (list : List (List Char)) (parts : List (List Char))
    (h : ∀ t ∈ parts, partToCheck t ∉ list) : collectParts list parts = [] := by
  induction parts with
  | nil => rfl
  | cons a rest ih =>
    have h1 : list.filter (fun suf => suf = partToCheck a) = [] := by
      rw [List.filter_eq_nil_iff]
      intro s hs
      have := h a (List.mem_cons_self _ _)
      simp only [decide_eq_true_eq]
      rintro rfl
      exact this hs
    have h2 := ih (fun t ht => h t (List.mem_cons_of_mem _ ht))
    unfold collectParts
    split <;> simp [h1, h2]

theorem findParts_no_match (list : List (List Char)) (p : ParsedName)
    (h : ∀ t ∈ p.nameParts, partToCheck t ∉ list) : findParts list p = some ([], p) := by
  simp [findParts, collectParts_nil_of_no_match list p.nameParts h, removeParts]

theorem joinPrefixesInner_id (prefs : List (List Char)) (k : Nat) (p : ParsedName)
    (t : List Char) (ht : p.nameParts[k]? = some t) (hn : t ∉ prefs) :
    joinPrefixesInner (k : Int) prefs p = some p := by
  induction prefs with
  | nil => rfl
  | cons a rest ih =>
    have h1 : a ≠ t := fun e => hn (by simp [e])
    have h2 : t ∉ rest := fun e => hn (by simp [e])
    unfold joinPrefixesInner
    rw [goIndex_eq p.nameParts _ k rfl, ht]
    simp only [Option.some_bind, Option.bind_eq_bind, h1, if_false]
    exact ih h2

theorem joinPrefixesInner_some (prefs : List (List Char)) (hp : ∀ x ∈ prefs, ' ' ∉ x)
    (k : Nat) (p : ParsedName) (hs : Synced p) (hk : k + 1 < p.nameParts.length) :
    ∃ ps cs, joinPrefixesInner (k : Int) prefs p =
        some { p with nameParts := ps, nameCommas := cs } ∧
      ps.length = cs.length ∧ p.nameParts.length ≤ ps.length + 1 ∧
      ps.length ≤ p.nameParts.length := by
  unfold Synced at hs
  induction prefs with
  | nil => exact ⟨p.nameParts, p.nameCommas, rfl, hs, by omega, le_refl _⟩
  | cons a rest ih =>
    have hk0 : k < p.nameParts.length := by omega
    unfold joinPrefixesInner
    rw [goIndex_eq p.nameParts _ k rfl, List.getElem?_eq_getElem hk0]
    simp only [Option.some_bind, Option.bind_eq_bind]
    by_cases h : a = p.nameParts[k]
    · simp only [h, if_true]
      rw [goIndex_eq p.nameParts _ (k + 1) (by omega), List.getElem?_eq_getElem hk]
      simp only [Option.some_bind]
      rw [goSet_eq p.nameParts _ k _ rfl hk0]
      simp only [Option.some_bind]
      rw [goSliceTo_eq _ _ (k + 1) (by omega) (by simp; omega),
        goSliceFrom_eq _ _ (k + 2) (by omega) (by simp; omega),
        goSliceTo_eq p.nameCommas _ k rfl (by omega),
        goSliceFrom_eq p.nameCommas _ (k + 1) (by omega) (by omega)]
      simp only [Option.some_bind]
      have hm : p.nameParts[k] ++ [' '] ++ p.nameParts[k + 1] ∉ rest := by
        intro hm
        have := hp _ (List.mem_cons_of_mem _ hm)
        simp at this
      rw [joinPrefixesInner_id rest k _ (p.nameParts[k] ++ [' '] ++ p.nameParts[k + 1])
        (by simp [List.getElem?_append_left, List.getElem?_take, hk0]) hm]
      refine ⟨_, _, rfl, ?_, ?_, ?_⟩
      · simp; omega
      · simp; omega
      · simp; omega
    · simp only [h, if_false]
      exact ih (fun x hx => hp x (List.mem_cons_of_mem _ hx))

theorem prefixList_no_space : ∀ x ∈ prefixList, ' ' ∉ x := by decide

theorem conjunctionList_no_space : ∀ x ∈ conjunctionList, ' ' ∉ x := by decide

theorem joinPrefixesLoop_some (k : Nat) (p : ParsedName) (hs : Synced p)
    (hk : k < p.nameParts.length) :
    ∃ ps cs, joinPrefixesLoop k p = some { p with nameParts := ps, nameCommas := cs } ∧
      ps.length = cs.length ∧ 0 < ps.length ∧ ps.length ≤ p.nameParts.length := by
  induction k generalizing p with
  | zero => exact ⟨p.nameParts, p.nameCommas, rfl, hs, hk, le_refl _⟩
  | succ k ih =>
    obtain ⟨ps, cs, h1, h2, h3, h3b⟩ := joinPrefixesInner_some prefixList prefixList_no_space k p hs hk
    obtain ⟨ps2, cs2, h4, h5, h6, h7⟩ :=
      ih { p with nameParts := ps, nameCommas := cs } h2 (by simp; omega)
    refine ⟨ps2, cs2, ?_, h5, h6, le_trans h7 h3b⟩
    simp only [joinPrefixesLoop, h1, Option.some_bind, h4]

theorem joinPrefixesLoop_id (k : Nat) (p : ParsedName) (hk : k ≤ p.nameParts.length)
    (hn : ∀ t ∈ p.nameParts, t ∉ prefixList) : joinPrefixesLoop k p = some p := by
  induction k with
  | zero => rfl
  | succ k ih =>
    have hk0 : k < p.nameParts.length := by omega
    have := joinPrefixesInner_id prefixList k p p.nameParts[k]
      (List.getElem?_eq_getElem hk0) (hn _ (List.getElem_mem _))
    simp only [joinPrefixesLoop, this, Option.some_bind]
    exact ih (by omega)

theorem joinPrefixes_some (p : ParsedName) (hs : Synced p) :
    ∃ ps cs, joinPrefixes p = some { p with nameParts := ps, nameCommas := cs } ∧
      ps.length = cs.length ∧ (0 < p.nameParts.length → 0 < ps.length) ∧
      ps.length ≤ p.nameParts.length := by
  unfold joinPrefixes
  split
  · obtain ⟨ps, cs, h1, h2, h3, h4⟩ := joinPrefixesLoop_some (p.nameParts.length - 1) p hs (by omega)
    exact ⟨ps, cs, h1, h2, fun _ => h3, h4⟩
  · exact ⟨p.nameParts, p.nameCommas, rfl, hs, id, le_refl _⟩

theorem joinPrefixes_id (p : ParsedName) (hn : ∀ t ∈ p.nameParts, t ∉ prefixList) :
    joinPrefixes p = some p := by
  unfold joinPrefixes
  split
  · exact joinPrefixesLoop_id _ p (by omega) hn
  · rfl

theorem joinConjunctionsInner_id (conjs : List (List Char)) (i : Int) (n : Nat)
    (hi : i + 1 = (n : Int)) (p : ParsedName) (t : List Char)
    (ht : p.nameParts[n]? = some t) (hn : t ∉ conjs) :
    joinConjunctionsInner conjs i p = some (i, p) := by
  induction conjs with
  | nil => rfl
  | cons a rest ih =>
    have h1 : a ≠ t := fun e => hn (by simp [e])
    have h2 : t ∉ rest := fun e => hn (by simp [e])
    unfold joinConjunctionsInner
    rw [goIndex_eq p.nameParts _ n hi, ht]
    simp only [Option.some_bind, Option.bind_eq_bind, h1, if_false]
    exact ih h2

theorem joinConjunctionsInner_some (conjs : List (List Char)) (hp : ∀ x ∈ conjs, ' ' ∉ x)
    (k : Nat) (p : ParsedName) (hs : Synced p) (hk : k + 3 ≤ p.nameParts.length) :
    ∃ j ps cs, joinConjunctionsInner conjs (k : Int) p =
        some (j, { p with nameParts := ps, nameCommas := cs }) ∧
      ps.length = cs.length ∧ j ≤ (k : Int) ∧ j + 2 ≤ (ps.length : Int) ∧
      ps.length ≤ p.nameParts.length ∧ 0 < ps.length := by
  unfold Synced at hs
  induction conjs with
  | nil => exact ⟨k, p.nameParts, p.nameCommas, rfl, hs, le_refl _, by omega, le_refl _, by omega⟩
  | cons a rest ih =>
    have hk0 : k < p.nameParts.length := by omega
    have hk1 : k + 1 < p.nameParts.length := by omega
    have hk2 : k + 2 < p.nameParts.length := by omega
    unfold joinConjunctionsInner
    rw [goIndex_eq p.nameParts _ (k + 1) (by omega), List.getElem?_eq_getElem hk1]
    simp only [Option.some_bind, Option.bind_eq_bind]
    by_cases h : a = p.nameParts[k + 1]
    · simp only [h, if_true]
      rw [goIndex_eq p.nameParts _ k rfl, List.getElem?_eq_getElem hk0]
      simp only [Option.some_bind]
      rw [goIndex_eq p.nameParts _ (k + 2) (by omega), List.getElem?_eq_getElem hk2]
      simp only [Option.some_bind]
      rw [goSet_eq p.nameParts _ k _ rfl hk0]
      simp only [Option.some_bind]
      rw [goSliceTo_eq _ _ (k + 1) (by omega) (by simp; omega),
        goSliceFrom_eq _ _ (k + 3) (by omega) (by simp; omega),
        goSliceTo_eq p.nameCommas _ k rfl (by omega),
        goSliceFrom_eq p.nameCommas _ (k + 2) (by omega) (by omega)]
      simp only [Option.some_bind]
      have hm : p.nameParts[k] ++ [' '] ++ p.nameParts[k + 1] ++ [' '] ++ p.nameParts[k + 2]
          ∉ rest := by
        intro hm
        have := hp _ (List.mem_cons_of_mem _ hm)
        simp at this
      rw [joinConjunctionsInner_id rest _ k (by omega) _
        (p.nameParts[k] ++ [' '] ++ p.nameParts[k + 1] ++ [' '] ++ p.nameParts[k + 2])
        (by simp [List.getElem?_append_left, List.getElem?_take, hk0]) hm]
      refine ⟨_, _, _, rfl, ?_, ?_, ?_, ?_, ?_⟩
      · simp; omega
      · omega
      · simp; omega
      · simp; omega
      · simp; omega
    · simp only [h, if_false]
      exact ih (fun x hx => hp x (List.mem_cons_of_mem _ hx))

theorem joinConjunctionsLoop_some (fuel : Nat) (i : Int) (p : ParsedName) (hs : Synced p)
    (hf : i < (fuel : Int)) (hi : 0 ≤ i → i + 3 ≤ (p.nameParts.length : Int)) :
    ∃ ps cs, joinConjunctionsLoop fuel i p =
        some { p with nameParts := ps, nameCommas := cs } ∧
      ps.length = cs.length ∧ (0 < p.nameParts.length → 0 < ps.length) ∧
      ps.length ≤ p.nameParts.length := by
  induction fuel generalizing i p with
  | zero =>
    have : ¬ i ≥ 0 := by omega
    exact ⟨p.nameParts, p.nameCommas, by simp [joinConjunctionsLoop, this], hs, id, le_refl _⟩
  | succ fuel ih =>
    unfold joinConjunctionsLoop
    by_cases h0 : i ≥ 0
    · obtain ⟨k, rfl⟩ := Int.eq_ofNat_of_zero_le h0
      have hk := hi h0
      obtain ⟨j, ps, cs, h1, h2, h3, h4, h5, h6⟩ :=
        joinConjunctionsInner_some conjunctionList conjunctionList_no_space k p hs (by omega)
      obtain ⟨ps2, cs2, h7, h8, _, h10⟩ :=
        ih (j - 1) { p with nameParts := ps, nameCommas := cs } h2 (by omega)
          (by intro _; simp only; omega)
      refine ⟨ps2, cs2, ?_, h8, ?_, le_trans h10 h5⟩
      · simp only [h0, if_true, h1, Option.some_bind, h7]
      · intro _; simp only at *; omega
    · exact ⟨p.nameParts, p.nameCommas, by simp [h0], hs, id, le_refl _⟩

theorem joinConjunctionsLoop_id (fuel : Nat) (i : Int) (p : ParsedName)
    (hf : i < (fuel : Int)) (hi : i + 2 ≤ (p.nameParts.length : Int))
    (hn : ∀ t ∈ p.nameParts, t ∉ conjunctionList) : joinConjunctionsLoop fuel i p = some p := by
  induction fuel generalizing i with
  | zero =>
    have : ¬ i ≥ 0 := by omega
    simp [joinConjunctionsLoop, this]
  | succ fuel ih =>
    unfold joinConjunctionsLoop
    by_cases h0 : i ≥ 0
    · obtain ⟨k, rfl⟩ := Int.eq_ofNat_of_zero_le h0
      have hk1 : k + 1 < p.nameParts.length := by omega
      have := joinConjunctionsInner_id conjunctionList k (k + 1) (by omega) p p.nameParts[k + 1]
        (List.getElem?_eq_getElem hk1) (hn _ (List.getElem_mem _))
      simp only [h0, if_true, this, Option.some_bind]
      exact ih _ (by omega) (by omega)
    · simp [h0]

theorem joinConjunctions_some (p : ParsedName) (hs : Synced p) :
    ∃ ps cs, joinConjunctions p = some { p with nameParts := ps, nameCommas := cs } ∧
      ps.length = cs.length ∧ (0 < p.nameParts.length → 0 < ps.length) ∧
      ps.length ≤ p.nameParts.length := by
  unfold joinConjunctions
  split
  · exact joinConjunctionsLoop_some _ _ p hs (by omega) (by omega)
  · exact ⟨p.nameParts, p.nameCommas, rfl, hs, id, le_refl _⟩

theorem joinConjunctions_id (p : ParsedName) (hn : ∀ t ∈ p.nameParts, t ∉ conjunctionList) :
    joinConjunctions p = some p := by
  unfold joinConjunctions
  split
  · exact joinConjunctionsLoop_id _ _ p (by omega) (by omega) hn
  · rfl

theorem extraSuffixesLoop_some (k : Nat) (ex : List (List Char)) (p : ParsedName)
    (hs : Synced p) (hk : k ≤ p.nameParts.length - 2) :
    ∃ ex2 ps cs, extraSuffixesLoop k (ex, p) =
        some (ex2, { p with nameParts := ps, nameCommas := cs }) ∧
      ps.length = cs.length ∧ ps.length ≤ p.nameParts.length := by
  unfold Synced at hs
  induction k generalizing ex p with
  | zero => exact ⟨ex, p.nameParts, p.nameCommas, rfl, hs, le_refl _⟩
  | succ k ih =>
    have hk1 : k + 2 < p.nameCommas.length := by omega
    have hk2 : k + 2 < p.nameParts.length := by omega
    unfold extraSuffixesLoop
    simp only []
    rw [goIndex_eq p.nameCommas _ (k + 2) (by omega), List.getElem?_eq_getElem hk1]
    simp only [Option.some_bind, Option.bind_eq_bind]
    split
    · rw [goIndex_eq p.nameParts _ (k + 2) (by omega), List.getElem?_eq_getElem hk2]
      simp only [Option.some_bind]
      rw [goSliceTo_eq p.nameParts _ (k + 2) (by omega) (by omega),
        goSliceFrom_eq p.nameParts _ (k + 3) (by omega) (by omega),
        goSliceTo_eq p.nameCommas _ (k + 2) (by omega) (by omega),
        goSliceFrom_eq p.nameCommas _ (k + 3) (by omega) (by omega)]
      simp only [Option.some_bind]
      obtain ⟨ex2, ps, cs, h1, h2, h3⟩ := ih (ex ++ [p.nameParts[k + 2]])
        { p with nameParts := List.take (k + 2) p.nameParts ++ List.drop (k + 3) p.nameParts,
                 nameCommas := List.take (k + 2) p.nameCommas ++ List.drop (k + 3) p.nameCommas }
        (by simp; omega) (by simp; omega)
      refine ⟨ex2, ps, cs, h1, h2, ?_⟩
      simp at h3; omega
    · exact ih ex p hs (by omega)

theorem findExtraSuffixes_some (p : ParsedName) (hs : Synced p) :
    ∃ ex ps cs, findExtraSuffixes p = some (ex, { p with nameParts := ps, nameCommas := cs }) ∧
      ps.length = cs.length ∧ ps.length ≤ p.nameParts.length := by
  unfold findExtraSuffixes
  split
  · exact extraSuffixesLoop_some _ [] p hs (le_refl _)
  · exact ⟨[], p.nameParts, p.nameCommas, rfl, hs, le_refl _⟩

theorem lastCommaIndex_range (l : List Bool) (acc i : Int)
    (hacc : acc = -1 ∨ (0 ≤ acc ∧ acc < i)) (hi : 0 ≤ i) :
    lastCommaIndex acc i l = -1 ∨
      (0 ≤ lastCommaIndex acc i l ∧ lastCommaIndex acc i l < i + l.length) := by
  induction l generalizing acc i with
  | nil =>
    rcases hacc with h | h
    · left; simp [lastCommaIndex, h]
    · right; simp [lastCommaIndex]; omega
  | cons v rest ih =>
    unfold lastCommaIndex
    have := ih (if v = true then i else acc) (i + 1)
      (by split
          · right; omega
          · rcases hacc with h | h
            · left; exact h
            · right; omega) (by omega)
    simp only [List.length_cons]
    push_cast
    omega

theorem findLastname_some (p : ParsedName) (hs : Synced p) (hl : 0 < p.nameParts.length) :
    ∃ l ps, findLastname p = some (l, { p with nameParts := ps, nameCommas := [] }) ∧
      ps.length + 1 = p.nameParts.length := by
  unfold Synced at hs
  unfold findLastname
  simp only []
  have hr := lastCommaIndex_range p.nameCommas (-1) 0 (Or.inl rfl) (le_refl _)
  generalize lastCommaIndex (-1) 0 p.nameCommas = r at hr
  have h0 : 0 ≤ (if r = -1 then (p.nameParts.length : Int) - 1 else r) := by
    split <;> omega
  have h1 : (if r = -1 then (p.nameParts.length : Int) - 1 else r) < p.nameParts.length := by
    split <;> omega
  generalize (if r = -1 then (p.nameParts.length : Int) - 1 else r) = ci at h0 h1
  obtain ⟨n, rfl⟩ := Int.eq_ofNat_of_zero_le h0
  have hn : n < p.nameParts.length := by omega
  rw [goIndex_eq p.nameParts _ n rfl, List.getElem?_eq_getElem hn,
    goSliceTo_eq p.nameParts _ n rfl (by omega),
    goSliceFrom_eq p.nameParts _ (n + 1) (by omega) (by omega),
    goSliceTo_eq p.nameCommas 0 0 rfl (by omega)]
  refine ⟨_, _, rfl, ?_⟩
  simp; omega

/-! The passes of `Parse` on synchronised sequences -/

theorem passSplit_synced (p : ParsedName) :
    ∃ q, passSplit p = some q ∧ Synced q := by
  refine ⟨splitName p, rfl, ?_⟩
  simp [Synced, splitName]

theorem passSuffix_synced (p : ParsedName) (hs : Synced p) :
    ∃ q, passSuffix p = some q ∧ Synced q := by
  unfold passSuffix
  split
  · obtain ⟨ps, cs, h1, h2, _⟩ := findParts_some suffixList p hs
    rw [findSuffixes, h1]
    exact ⟨_, rfl, h2⟩
  · exact ⟨p, rfl, hs⟩

theorem passTitle_synced (p : ParsedName) (hs : Synced p) :
    ∃ q, passTitle p = some q ∧ Synced q := by
  unfold passTitle
  split
  · obtain ⟨ps, cs, h1, h2, _⟩ := findParts_some titleList p hs
    rw [findTitles, h1]
    exact ⟨_, rfl, h2⟩
  · exact ⟨p, rfl, hs⟩

theorem passPrefix_synced (p : ParsedName) (hs : Synced p) :
    ∃ q, passPrefix p = some q ∧ Synced q := by
  unfold passPrefix
  split
  · obtain ⟨ps, cs, h1, h2, _⟩ := joinPrefixes_some p hs
    exact ⟨_, h1, h2⟩
  · exact ⟨p, rfl, hs⟩

theorem passConj_synced (p : ParsedName) (hs : Synced p) :
    ∃ q, passConj p = some q ∧ Synced q := by
  unfold passConj
  split
  · obtain ⟨ps, cs, h1, h2, _⟩ := joinConjunctions_some p hs
    exact ⟨_, h1, h2⟩
  · exact ⟨p, rfl, hs⟩

theorem passExtra_synced (p : ParsedName) (hs : Synced p) :
    ∃ q, passExtra p = some q ∧ Synced q := by
  unfold passExtra
  split
  · obtain ⟨ex, ps, cs, h1, h2, _⟩ := findExtraSuffixes_some p hs
    rw [h1]
    refine ⟨_, rfl, ?_⟩
    simp only []
    split
    · split <;> exact h2
    · exact h2
  · exact ⟨p, rfl, hs⟩

theorem passLast_some (p : ParsedName) (hs : Synced p) :
    ∃ q, passLast p = some q ∧ q.nameCommas = [] := by
  unfold passLast
  split
  · rename_i h
    obtain ⟨l, ps, h1, _⟩ := findLastname_some p hs h
    rw [h1]
    exact ⟨_, rfl, rfl⟩
  · rename_i h
    refine ⟨p, rfl, ?_⟩
    have : p.nameCommas.length = 0 := by unfold Synced at hs; omega
    exact List.length_eq_zero.1 this

theorem passFirst_some (p : ParsedName) (hc : p.nameCommas = []) :
    ∃ q, passFirst p = some q ∧ q.nameCommas = [] := by
  unfold passFirst
  split
  · rename_i h
    refine ⟨{ p with nameParts := p.nameParts.drop 1, First := p.nameParts[0] }, ?_, hc⟩
    unfold findFirstname
    rw [goIndex_eq p.nameParts 0 0 rfl, List.getElem?_eq_getElem h,
      goSliceFrom_eq p.nameParts 1 1 rfl (by omega)]
    rfl
  · exact ⟨p, rfl, hc⟩

theorem passMiddle_some (p : ParsedName) (hc : p.nameCommas = []) :
    ∃ q, passMiddle p = some q ∧ q.nameParts = [] ∧ q.nameCommas = [] := by
  unfold passMiddle
  split
  · refine ⟨{ p with nameParts := [], Middle := stringsJoin p.nameParts [' '] }, ?_, rfl, hc⟩
    unfold findMiddlename
    rw [goSliceTo_eq p.nameParts 0 0 rfl (by omega)]
    rfl
  · rename_i h
    refine ⟨p, rfl, ?_, hc⟩
    exact List.length_eq_zero.1 (by omega)

/-- The states of a run of `Parse`, one after each pass, with what holds of the
working sequences at each. -/
theorem parse_trace (p0 : ParsedName) :
    ∃ p1 p2 p3 p4 p5 p6 p7 p8 p9 p10,
      passNick p0 = some p1 ∧ passSplit p1 = some p2 ∧ passSuffix p2 = some p3 ∧
      passTitle p3 = some p4 ∧ passPrefix p4 = some p5 ∧ passConj p5 = some p6 ∧
      passExtra p6 = some p7 ∧ passLast p7 = some p8 ∧ passFirst p8 = some p9 ∧
      passMiddle p9 = some p10 ∧
      Synced p2 ∧ Synced p3 ∧ Synced p4 ∧ Synced p5 ∧ Synced p6 ∧ Synced p7 ∧
      p8.nameCommas = [] ∧ p9.nameCommas = [] ∧ p10.nameParts = [] ∧ p10.nameCommas = [] := by
  obtain ⟨p2, h2, s2⟩ := passSplit_synced
    { (findNicknames p0).2 with Nick := stringsJoin (findNicknames p0).1 [','] }
  obtain ⟨p3, h3, s3⟩ := passSuffix_synced p2 s2
  obtain ⟨p4, h4, s4⟩ := passTitle_synced p3 s3
  obtain ⟨p5, h5, s5⟩ := passPrefix_synced p4 s4
  obtain ⟨p6, h6, s6⟩ := passConj_synced p5 s5
  obtain ⟨p7, h7, s7⟩ := passExtra_synced p6 s6
  obtain ⟨p8, h8, s8⟩ := passLast_some p7 s7
  obtain ⟨p9, h9, s9⟩ := passFirst_some p8 s8
  obtain ⟨p10, h10, s10, s11⟩ := passMiddle_some p9 s9
  exact ⟨_, p2, p3, p4, p5, p6, p7, p8, p9, p10, rfl, h2, h3, h4, h5, h6, h7, h8, h9, h10,
    s2, s3, s4, s5, s6, s7, s8, s9, s10, s11⟩

/-- C3: `ParseFullname` returns a `ParsedName` for every input string: no index
and no slice bound of `splitName`, `findParts`, `joinPrefixes`,
`joinConjunctions`, `findExtraSuffixes`, `findLastname`, `findFirstname` or
`findMiddlename` is out of range. -/
theorem C3_parseFullname_total (fullname : List Char) :
    ∃ p, ParseFullname fullname = some p := by
  obtain ⟨p1, p2, p3, p4, p5, p6, p7, p8, p9, p10, h1, h2, h3, h4, h5, h6, h7, h8, h9, h10, _⟩ :=
    parse_trace { rawName := fullname }
  exact ⟨p10, by
    simp only [ParseFullname, Parse, passes, runPasses, h1, h2, h3, h4, h5, h6, h7, h8, h9, h10,
      Option.some_bind]⟩

/-- C9: when `Parse` finishes, `nameParts` and `nameCommas` are both empty, for
every input. -/
theorem C9_sequences_end_empty (fullname : List Char) :
    ∃ p, ParseFullname fullname = some p ∧ p.nameParts = [] ∧ p.nameCommas = [] := by
  obtain ⟨p1, p2, p3, p4, p5, p6, p7, p8, p9, p10, h1, h2, h3, h4, h5, h6, h7, h8, h9, h10,
    _, _, _, _, _, _, _, _, e1, e2⟩ := parse_trace { rawName := fullname }
  exact ⟨p10, by
    simp only [ParseFullname, Parse, passes, runPasses, h1, h2, h3, h4, h5, h6, h7, h8, h9, h10,
      Option.some_bind], e1, e2⟩

/-- C10, as the code has it: `len(nameParts) = len(nameCommas)` holds after
tokenization, after the suffix, title, prefix-joining, conjunction-joining and
extra-suffix passes, and after middle-name extraction; from last-name
extraction on `nameCommas` is empty. -/
theorem C10_lengths_equal_until_lastname (fullname : List Char) (n : Nat) :
    ∃ p, stateAfter n fullname = some p ∧
      (n ≤ 7 ∨ 10 ≤ n → p.nameParts.length = p.nameCommas.length) ∧
      (8 ≤ n → p.nameCommas = []) := by
  obtain ⟨p1, p2, p3, p4, p5, p6, p7, p8, p9, p10, h1, h2, h3, h4, h5, h6, h7, h8, h9, h10,
    s2, s3, s4, s5, s6, s7, c8, c9, e1, e2⟩ := parse_trace { rawName := fullname }
  have s1 : Synced p1 := by
    simp only [passNick, Option.some.injEq] at h1
    subst h1
    rfl
  unfold Synced at s1 s2 s3 s4 s5 s6 s7
  rcases Nat.lt_or_ge n 10 with hlt | hge
  · interval_cases n
    · exact ⟨_, rfl, fun _ => rfl, fun h => absurd h (by omega)⟩
    · exact ⟨p1, by simp only [stateAfter, passes, List.take, runPasses, h1, Option.some_bind],
        fun _ => s1, fun h => absurd h (by omega)⟩
    · exact ⟨p2, by simp only [stateAfter, passes, List.take, runPasses, h1, h2, Option.some_bind],
        fun _ => s2, fun h => absurd h (by omega)⟩
    · exact ⟨p3, by
        simp only [stateAfter, passes, List.take, runPasses, h1, h2, h3, Option.some_bind],
        fun _ => s3, fun h => absurd h (by omega)⟩
    · exact ⟨p4, by
        simp only [stateAfter, passes, List.take, runPasses, h1, h2, h3, h4, Option.some_bind],
        fun _ => s4, fun h => absurd h (by omega)⟩
    · exact ⟨p5, by
        simp only [stateAfter, passes, List.take, runPasses, h1, h2, h3, h4, h5,
          Option.some_bind],
        fun _ => s5, fun h => absurd h (by omega)⟩
    · exact ⟨p6, by
        simp only [stateAfter, passes, List.take, runPasses, h1, h2, h3, h4, h5, h6,
          Option.some_bind],
        fun _ => s6, fun h => absurd h (by omega)⟩
    · exact ⟨p7, by
        simp only [stateAfter, passes, List.take, runPasses, h1, h2, h3, h4, h5, h6, h7,
          Option.some_bind],
        fun _ => s7, fun h => absurd h (by omega)⟩
    · exact ⟨p8, by
        simp only [stateAfter, passes, List.take, runPasses, h1, h2, h3, h4, h5, h6, h7, h8,
          Option.some_bind],
        fun h => absurd h (by omega), fun _ => c8⟩
    · exact ⟨p9, by
        simp only [stateAfter, passes, List.take, runPasses, h1, h2, h3, h4, h5, h6, h7, h8, h9,
          Option.some_bind],
        fun h => absurd h (by omega), fun _ => c9⟩
  · refine ⟨p10, ?_, fun _ => by simp [e1, e2], fun _ => e2⟩
    have : passes.take n = passes := List.take_of_length_le (by simpa [passes] using hge)
    rw [stateAfter, this]
    simp only [passes, runPasses, h1, h2, h3, h4, h5, h6, h7, h8, h9, h10, Option.some_bind]

/-- The statement of `C10_lengths_equal_until_lastname` after the prefix-joining
pass of `"Juan Xavier"`. -/
theorem C10_lengths_equal_witness :
    ∃ p, stateAfter 5 "Juan Xavier".toList = some p ∧
      (5 ≤ 7 ∨ 10 ≤ 5 → p.nameParts.length = p.nameCommas.length) ∧
      (8 ≤ 5 → p.nameCommas = []) :=
  C10_lengths_equal_until_lastname "Juan Xavier".toList 5

/-- C10 as stated fails: after last-name extraction of `"Juan Xavier"`,
`nameParts` holds one token and `nameCommas` holds none. -/
theorem C10_counterexample :
    (stateAfter 8 "Juan Xavier".toList).map
      (fun p => (p.nameParts, p.nameCommas)) = some (["Juan".toList], []) := by
  decide

/-- C4: when tokenization yields exactly one token `t`, `ParseFullname` returns
`Last = t` and empty `Title`, `First`, `Middle` and `Suffix`. -/
theorem C4_single_token (fullname t : List Char)
    (h : (stateAfter 2 fullname).map (fun p => p.nameParts) = some [t]) :
    ∃ p, ParseFullname fullname = some p ∧ p.Last = t ∧ p.Title = [] ∧ p.First = [] ∧
      p.Middle = [] ∧ p.Suffix = [] := by
  simp only [stateAfter, passes, List.take, runPasses, passNick, passSplit, Option.some_bind,
    Option.map_some', Option.some.injEq] at h
  simp only [ParseFullname, Parse, passes, runPasses, passNick, passSplit, Option.some_bind]
  generalize hq : splitName _ = q at h ⊢
  have hc : ∃ b, q.nameCommas = [b] := by
    subst hq
    simp only [splitName] at h ⊢
    generalize stringsSplit ' ' _ = l at h ⊢
    match l, h with
    | [v], _ => exact ⟨_, rfl⟩
  have hT : q.Title = [] := by subst hq; rfl
  have hF : q.First = [] := by subst hq; rfl
  have hM : q.Middle = [] := by subst hq; rfl
  have hS : q.Suffix = [] := by subst hq; rfl
  obtain ⟨b, hb⟩ := hc
  have e3 : passSuffix q = some q := by simp [passSuffix, h]
  have e4 : passTitle q = some q := by simp [passTitle, h]
  have e5 : passPrefix q = some q := by simp [passPrefix, h]
  have e6 : passConj q = some q := by simp [passConj, h]
  have e7 : passExtra q = some q := by simp [passExtra, h]
  have e8 : passLast q = some { q with nameParts := [], nameCommas := [], Last := t } := by
    cases b <;>
      simp [passLast, findLastname, lastCommaIndex, goIndex, goSliceTo, goSliceFrom, h, hb]
  simp only [e3, e4, e5, e6, e7, e8, Option.some_bind]
  exact ⟨{ q with nameParts := [], nameCommas := [], Last := t },
    by simp [passFirst, passMiddle], rfl, hT, hF, hM, hS⟩

/-- The statement of `C4_single_token` on the title word `"Dr."`. -/
theorem C4_single_token_witness :
    ∃ p, ParseFullname "Dr.".toList = some p ∧ p.Last = "Dr.".toList ∧ p.Title = [] ∧
      p.First = [] ∧ p.Middle = [] ∧ p.Suffix = [] :=
  C4_single_token "Dr.".toList "Dr.".toList (by decide)

/-! Text without delimiters and text of space-separated tokens -/

theorem matchNickCore_none_of_head (s : List Char)
    (h : ∀ c ∈ s.head?, isOpener c = false) : matchNickCore s = none := by
  cases s with
  | nil => rfl
  | cons o rest =>
    have : isOpener o = false := h o (by simp)
    simp [matchNickCore, this]

theorem matchNickAt_none (s : List Char) (h : ∀ c ∈ s, isOpener c = false) :
    matchNickAt s = none := by
  cases s with
  | nil => rfl
  | cons w rest =>
    have h1 : matchNickCore (w :: rest) = none :=
      matchNickCore_none_of_head _ (by intro c hc; simp at hc; subst hc; exact h _ (by simp))
    have h2 : matchNickCore rest = none :=
      matchNickCore_none_of_head _ (by
        intro c hc
        exact h c (List.mem_cons_of_mem _ (List.mem_of_mem_head? hc)))
    simp [matchNickAt, h1, h2]

theorem findAllNickAux_nil (s : List Char) (k : Nat) (h : ∀ c ∈ s, isOpener c = false) :
    findAllNickAux k s = [] := by
  induction s generalizing k with
  | nil => cases k <;> rfl
  | cons c cs ih =>
    have hcs : ∀ c ∈ cs, isOpener c = false := fun d hd => h d (List.mem_cons_of_mem _ hd)
    cases k with
    | zero =>
      simp only [findAllNickAux, matchNickAt_none (c :: cs) h]
      exact ih 0 hcs
    | succ k =>
      simp only [findAllNickAux]
      exact ih k hcs

theorem findNicknames_no_opener (p : ParsedName) (h : ∀ c ∈ p.rawName, isOpener c = false) :
    findNicknames p = ([], p) := by
  simp [findNicknames, findAllNick, findAllNickAux_nil p.rawName 0 h]

theorem stringsJoin_nil (sep : List Char) : stringsJoin [] sep = [] := rfl

theorem stringsJoin_singleton (v sep : List Char) : stringsJoin [v] sep = v := by
  simp [stringsJoin, List.intercalate]

theorem stringsJoin_cons_cons (v w : List Char) (vs : List (List Char)) (sep : List Char) :
    stringsJoin (v :: w :: vs) sep = v ++ sep ++ stringsJoin (w :: vs) sep := by
  simp [stringsJoin, List.intercalate]

theorem stringsJoin_cons_prefix (w : List Char) (vs : List (List Char)) (sep : List Char) :
    ∃ r, stringsJoin (w :: vs) sep = w ++ r := by
  cases vs with
  | nil => exact ⟨[], by simp [stringsJoin_singleton]⟩
  | cons x xs => exact ⟨sep ++ stringsJoin (x :: xs) sep, by simp [stringsJoin_cons_cons]⟩

theorem stringsJoin_append (us vs : List (List Char)) (sep : List Char) (hu : us ≠ [])
    (hv : vs ≠ []) :
    stringsJoin (us ++ vs) sep = stringsJoin us sep ++ sep ++ stringsJoin vs sep := by
  induction us with
  | nil => exact absurd rfl hu
  | cons u rest ih =>
    cases rest with
    | nil =>
      cases vs with
      | nil => exact absurd rfl hv
      | cons v vs => simp [stringsJoin_cons_cons, stringsJoin_singleton]
    | cons u2 rest =>
      have := ih (by simp)
      simp only [List.cons_append] at this ⊢
      rw [stringsJoin_cons_cons, this, stringsJoin_cons_cons]
      simp

theorem collapseAux_token_append (v r : List Char) (h : ∀ c ∈ v, isSplitSpace c = false) :
    collapseAux false (v ++ r) = v ++ collapseAux false r := by
  induction v with
  | nil => rfl
  | cons c cs ih =>
    have hc : isSplitSpace c = false := h c (by simp)
    have := ih (fun d hd => h d (List.mem_cons_of_mem _ hd))
    simp [collapseAux, hc, this]

theorem collapseAux_token (v : List Char) (h : ∀ c ∈ v, isSplitSpace c = false) :
    collapseAux false v = v := by
  have := collapseAux_token_append v [] h
  simpa [collapseAux] using this

theorem collapseSpaces_join (vs : List (List Char)) (h : ∀ v ∈ vs, RawToken v) :
    collapseSpaces (stringsJoin vs [' ']) = stringsJoin vs [' '] := by
  unfold collapseSpaces
  induction vs with
  | nil => rfl
  | cons v rest ih =>
    have hv := h v (by simp)
    cases rest with
    | nil =>
      rw [stringsJoin_singleton]
      exact collapseAux_token v (fun c hc => (hv.2 c hc).2.1)
    | cons w ws =>
      have hw := h w (by simp)
      have ih2 := ih (fun x hx => h x (List.mem_cons_of_mem _ hx))
      rw [stringsJoin_cons_cons, List.append_assoc,
        collapseAux_token_append v _ (fun c hc => (hv.2 c hc).2.1)]
      obtain ⟨r, hr⟩ := stringsJoin_cons_prefix w ws [' ']
      obtain ⟨d, w2, rfl⟩ := List.exists_cons_of_ne_nil hw.1
      have hd : isSplitSpace d = false := (hw.2 d (by simp)).2.1
      have e : collapseAux false ([' '] ++ stringsJoin ((d :: w2) :: ws) [' ']) =
          ' ' :: collapseAux false (stringsJoin ((d :: w2) :: ws) [' ']) := by
        rw [hr]
        simp [collapseAux, hd]
      rw [e, ih2]
      simp

theorem trimSpace_id (s : List Char) (h1 : ∀ c ∈ s.head?, unicodeIsSpace c = false)
    (h2 : ∀ c ∈ s.getLast?, unicodeIsSpace c = false) : trimSpace s = s := by
  unfold trimSpace
  cases s with
  | nil => rfl
  | cons a l =>
    have ha : unicodeIsSpace a = false := h1 a (by simp)
    have e1 : List.dropWhile unicodeIsSpace (a :: l) = a :: l := by
      simp [List.dropWhile, ha]
    rw [e1]
    obtain ⟨z, hz⟩ : ∃ z, (a :: l).getLast? = some z := by
      cases hl : (a :: l).getLast? with
      | none => simp at hl
      | some z => exact ⟨z, rfl⟩
    have hz2 : unicodeIsSpace z = false := h2 z (by simp [hz])
    have e2 : (a :: l).reverse.head? = some z := by
      rw [List.head?_reverse]; exact hz
    cases hr : (a :: l).reverse with
    | nil => simp at hr
    | cons y ys =>
      rw [hr] at e2
      simp at e2
      subst e2
      have e3 : List.dropWhile unicodeIsSpace (y :: ys) = y :: ys := by
        simp [List.dropWhile, hz2]
      rw [e3, ← hr, List.reverse_reverse]

theorem trimSpace_token (v : List Char) (h : ∀ c ∈ v, unicodeIsSpace c = false) :
    trimSpace v = v :=
  trimSpace_id v (fun c hc => h c (List.mem_of_mem_head? hc))
    (fun c hc => h c (List.mem_of_mem_getLast? hc))

theorem stringsJoin_getLast? (vs : List (List Char)) (sep : List Char)
    (h : ∀ v ∈ vs, v ≠ []) (z : Char) (hz : z ∈ (stringsJoin vs sep).getLast?) :
    ∃ v ∈ vs, z ∈ v.getLast? := by
  induction vs with
  | nil => simp [stringsJoin_nil] at hz
  | cons v rest ih =>
    cases rest with
    | nil =>
      rw [stringsJoin_singleton] at hz
      exact ⟨v, by simp, hz⟩
    | cons w ws =>
      rw [stringsJoin_cons_cons] at hz
      obtain ⟨r, hr⟩ := stringsJoin_cons_prefix w ws sep
      have hw : w ≠ [] := h w (by simp)
      have hne : stringsJoin (w :: ws) sep ≠ [] := by
        rw [hr]; simp [hw]
      rw [List.getLast?_append_of_ne_nil _ hne] at hz
      obtain ⟨x, hx, hx2⟩ := ih (fun x hx => h x (List.mem_cons_of_mem _ hx)) hz
      exact ⟨x, List.mem_cons_of_mem _ hx, hx2⟩

theorem mem_stringsJoin (vs : List (List Char)) (sep : List Char) (c : Char)
    (hc : c ∈ stringsJoin vs sep) : c ∈ sep ∨ ∃ v ∈ vs, c ∈ v := by
  induction vs with
  | nil => simp [stringsJoin_nil] at hc
  | cons v rest ih =>
    cases rest with
    | nil =>
      rw [stringsJoin_singleton] at hc
      exact Or.inr ⟨v, by simp, hc⟩
    | cons w ws =>
      rw [stringsJoin_cons_cons] at hc
      rcases List.mem_append.1 hc with h | h
      · rcases List.mem_append.1 h with h | h
        · exact Or.inr ⟨v, by simp, h⟩
        · exact Or.inl h
      · rcases ih h with h | ⟨x, hx, hcx⟩
        · exact Or.inl h
        · exact Or.inr ⟨x, List.mem_cons_of_mem _ hx, hcx⟩

theorem trimSpace_join (vs : List (List Char)) (h : ∀ v ∈ vs, RawToken v) :
    trimSpace (stringsJoin vs [' ']) = stringsJoin vs [' '] := by
  apply trimSpace_id
  · intro c hc
    cases vs with
    | nil => simp [stringsJoin_nil] at hc
    | cons v rest =>
      obtain ⟨r, hr⟩ := stringsJoin_cons_prefix v rest [' ']
      have hv := h v (by simp)
      obtain ⟨d, v2, rfl⟩ := List.exists_cons_of_ne_nil hv.1
      rw [hr] at hc
      simp at hc
      subst hc
      exact (hv.2 _ (by simp)).1
  · intro c hc
    obtain ⟨v, hv, hc2⟩ := stringsJoin_getLast? vs [' '] (fun v hv => (h v hv).1) c hc
    exact ((h v hv).2 c (List.mem_of_mem_getLast? hc2)).1

theorem stringsSplit_ne_nil (sep : Char) (s : List Char) : stringsSplit sep s ≠ [] := by
  induction s with
  | nil => simp [stringsSplit]
  | cons c cs ih =>
    unfold stringsSplit
    split
    · simp
    · split <;> simp

theorem stringsSplit_cons_ne (sep c : Char) (cs : List Char) (h : c ≠ sep) :
    stringsSplit sep (c :: cs) =
      (c :: (stringsSplit sep cs).headD []) :: (stringsSplit sep cs).tail := by
  have hne := stringsSplit_ne_nil sep cs
  rw [stringsSplit]
  simp only [h, if_false]
  cases hs : stringsSplit sep cs with
  | nil => exact absurd hs hne
  | cons p ps => rfl

theorem stringsSplit_token (sep : Char) (v : List Char) (h : sep ∉ v) :
    stringsSplit sep v = [v] := by
  induction v with
  | nil => rfl
  | cons c cs ih =>
    have hc : c ≠ sep := fun e => h (by simp [e])
    rw [stringsSplit_cons_ne sep c cs hc, ih (fun e => h (List.mem_cons_of_mem _ e))]
    rfl

theorem stringsSplit_token_append (sep : Char) (v r : List Char) (h : sep ∉ v) :
    stringsSplit sep (v ++ sep :: r) = v :: stringsSplit sep r := by
  induction v with
  | nil => simp [stringsSplit]
  | cons c cs ih =>
    have hc : c ≠ sep := fun e => h (by simp [e])
    rw [List.cons_append, stringsSplit_cons_ne sep c _ hc,
      ih (fun e => h (List.mem_cons_of_mem _ e))]
    rfl

theorem stringsSplit_join (vs : List (List Char)) (hne : vs ≠ [])
    (h : ∀ v ∈ vs, ' ' ∉ v) : stringsSplit ' ' (stringsJoin vs [' ']) = vs := by
  induction vs with
  | nil => exact absurd rfl hne
  | cons v rest ih =>
    cases rest with
    | nil =>
      rw [stringsJoin_singleton]
      exact stringsSplit_token ' ' v (h v (by simp))
    | cons w ws =>
      rw [stringsJoin_cons_cons, List.append_assoc, List.singleton_append,
        stringsSplit_token_append ' ' v _ (h v (by simp)),
        ih (by simp) (fun x hx => h x (List.mem_cons_of_mem _ hx))]

theorem rawToken_no_space (v : List Char) (h : RawToken v) : ' ' ∉ v := by
  intro hm
  have := (h.2 _ hm).1
  revert this
  decide

theorem hasSuffix_append_self (t s : List Char) : hasSuffix (t ++ s) s = true := by
  simp [hasSuffix]

theorem trimSuffix_append_self (t s : List Char) : trimSuffix (t ++ s) s = t := by
  simp [trimSuffix, hasSuffix_append_self]

theorem hasSuffix_singleton_false (t : List Char) (c : Char) (h : c ∉ t) :
    hasSuffix t [c] = false := by
  unfold hasSuffix
  cases hr : t.reverse with
  | nil => simp
  | cons z zs =>
    have hz : z ∈ t := by
      rw [← List.mem_reverse, hr]; simp
    have : c ≠ z := fun e => h (e ▸ hz)
    simp [List.isPrefixOf, this]

theorem isPlainChar_spec (c : Char) (h : isPlainChar c = true) :
    unicodeIsSpace c = false ∧ isSplitSpace c = false ∧ c ≠ ',' ∧ isOpener c = false ∧
      isCloser c = false := by
  simp only [isPlainChar, Bool.not_eq_true', Bool.or_eq_false_iff, decide_eq_false_iff_not] at h
  exact ⟨h.1.1.1.1, h.1.1.1.2, h.1.1.2, h.1.2, h.2⟩

theorem splitToken_withComma (x : List Char × Bool) (h : ∀ c ∈ x.1, isPlainChar c = true) :
    splitToken (withComma x) = x := by
  obtain ⟨t, f⟩ := x
  cases f with
  | true =>
    simp [splitToken, withComma, hasSuffix_append_self, trimSuffix_append_self]
  | false =>
    have h1 : hasSuffix t [','] = false :=
      hasSuffix_singleton_false t ',' (fun hm => (isPlainChar_spec _ (h _ hm)).2.2.1 rfl)
    have h2 : trimSpace t = t := trimSpace_token t (fun c hc => (isPlainChar_spec _ (h c hc)).1)
    simp [splitToken, withComma, h1, h2]

theorem rawToken_withComma (x : List Char × Bool) (hne : x.1 ≠ [])
    (h : ∀ c ∈ x.1, isPlainChar c = true) : RawToken (withComma x) := by
  obtain ⟨t, f⟩ := x
  have hc : unicodeIsSpace ',' = false ∧ isSplitSpace ',' = false ∧ isOpener ',' = false := by
    decide
  have ht : ∀ c ∈ t, unicodeIsSpace c = false ∧ isSplitSpace c = false ∧ isOpener c = false :=
    fun c hm => by
      have := isPlainChar_spec c (h c hm)
      exact ⟨this.1, this.2.1, this.2.2.2.1⟩
  cases f with
  | true =>
    refine ⟨by simp [withComma], ?_⟩
    intro c hm
    simp only [withComma, if_true, List.mem_append, List.mem_singleton] at hm
    rcases hm with hm | rfl
    · exact ht c hm
    · exact hc
  | false => exact ⟨by simpa [withComma] using hne, by simpa [withComma] using ht⟩

/-- Tokenization of a text written as plain tokens, some followed by a comma,
with single spaces between them. -/
theorem splitName_join (p : ParsedName) (tf : List (List Char × Bool)) (hne : tf ≠ [])
    (hplain : ∀ x ∈ tf, x.1 ≠ [] ∧ ∀ c ∈ x.1, isPlainChar c = true)
    (hraw : p.rawName = stringsJoin (tf.map withComma) [' ']) :
    splitName p = { p with nameParts := tf.map Prod.fst, nameCommas := tf.map Prod.snd } := by
  have hR : ∀ v ∈ tf.map withComma, RawToken v := by
    intro v hv
    obtain ⟨x, hx, rfl⟩ := List.mem_map.1 hv
    exact rawToken_withComma x (hplain x hx).1 (hplain x hx).2
  have e1 := collapseSpaces_join _ hR
  have e2 := trimSpace_join _ hR
  have e3 := stringsSplit_join (tf.map withComma) (by simpa using hne)
    (fun v hv => rawToken_no_space v (hR v hv))
  have e4 : ∀ x ∈ tf, splitToken (withComma x) = x :=
    fun x hx => splitToken_withComma x (hplain x hx).2
  unfold splitName
  simp only [hraw, e1, e2, e3, List.map_map]
  congr 1
  · apply List.map_congr_left
    intro x hx
    simp [e4 x hx]
  · apply List.map_congr_left
    intro x hx
    simp [e4 x hx]

theorem findNicknames_join (p : ParsedName) (tf : List (List Char × Bool))
    (hplain : ∀ x ∈ tf, x.1 ≠ [] ∧ ∀ c ∈ x.1, isPlainChar c = true)
    (hraw : p.rawName = stringsJoin (tf.map withComma) [' ']) :
    findNicknames p = ([], p) := by
  apply findNicknames_no_opener
  rw [hraw]
  intro c hc
  rcases mem_stringsJoin _ _ c hc with h | ⟨v, hv, hcv⟩
  · simp at h
    subst h
    decide
  · obtain ⟨x, hx, rfl⟩ := List.mem_map.1 hv
    exact ((rawToken_withComma x (hplain x hx).1 (hplain x hx).2).2 c hcv).2.2

/-! The passes on tokens that match no lexicon -/

theorem passSuffix_id (p : ParsedName) (h : ∀ t ∈ p.nameParts, partToCheck t ∉ suffixList)
    (hS : p.Suffix = []) : passSuffix p = some p := by
  unfold passSuffix
  split
  · rw [findSuffixes, findParts_no_match suffixList p h]
    simp only [Option.map_some', stringsJoin_nil, Option.some.injEq]
    cases p
    simp only at hS
    subst hS
    rfl
  · rfl

theorem passTitle_id (p : ParsedName) (h : ∀ t ∈ p.nameParts, partToCheck t ∉ titleList)
    (hT : p.Title = []) : passTitle p = some p := by
  unfold passTitle
  split
  · rw [findTitles, findParts_no_match titleList p h]
    simp only [Option.map_some', stringsJoin_nil, Option.some.injEq]
    cases p
    simp only at hT
    subst hT
    rfl
  · rfl

theorem passPrefix_id (p : ParsedName) (h : ∀ t ∈ p.nameParts, t ∉ prefixList) :
    passPrefix p = some p := by
  unfold passPrefix
  split
  · exact joinPrefixes_id p h
  · rfl

theorem passConj_id (p : ParsedName) (h : ∀ t ∈ p.nameParts, t ∉ conjunctionList) :
    passConj p = some p := by
  unfold passConj
  split
  · exact joinConjunctions_id p h
  · rfl

theorem passExtra_id (p : ParsedName) (h : commasCount p.nameCommas ≤ 1) :
    passExtra p = some p := by
  unfold passExtra
  split
  · have : ¬ commasCount p.nameCommas > 1 := by omega
    simp [findExtraSuffixes, this]
  · rfl

theorem commasCount_one_flag (a b : Nat) (f : Bool) :
    commasCount (List.replicate a false ++ f :: List.replicate b false) ≤ 1 := by
  cases f <;> simp [commasCount, List.filter_append, List.filter_replicate]

theorem lastCommaIndex_append (l1 l2 : List Bool) (acc i : Int) :
    lastCommaIndex acc i (l1 ++ l2) =
      lastCommaIndex (lastCommaIndex acc i l1) (i + l1.length) l2 := by
  induction l1 generalizing acc i with
  | nil => simp [lastCommaIndex]
  | cons v rest ih =>
    have e : i + 1 + (rest.length : Int) = i + ((rest.length + 1 : Nat) : Int) := by
      push_cast; ring
    show lastCommaIndex (if v = true then i else acc) (i + 1) (rest ++ l2) = _
    rw [ih, e]
    rfl

theorem lastCommaIndex_replicate_false (n : Nat) (acc i : Int) :
    lastCommaIndex acc i (List.replicate n false) = acc := by
  induction n generalizing i with
  | zero => rfl
  | succ n ih => simp [List.replicate_succ, lastCommaIndex, ih]

theorem lastCommaIndex_one_flag (a b : Nat) (f : Bool) :
    lastCommaIndex (-1) 0 (List.replicate a false ++ f :: List.replicate b false) =
      if f = true then (a : Int) else -1 := by
  rw [lastCommaIndex_append, lastCommaIndex_replicate_false]
  simp [lastCommaIndex, lastCommaIndex_replicate_false]

/-- The three assignment passes on tokens `xs ++ t :: ys` of which at most `t`
carries a comma flag, `t` being the final token when it carries none. -/
theorem assign_one_flag (p : ParsedName) (xs ys : List (List Char)) (t : List Char) (f : Bool)
    (hparts : p.nameParts = xs ++ t :: ys)
    (hcommas : p.nameCommas = List.replicate xs.length false ++ f :: List.replicate ys.length false)
    (hf : f = true ∨ ys = []) (hF : p.First = []) (hM : p.Middle = []) :
    runPasses [passLast, passFirst, passMiddle] p =
      some { p with Last := t, First := (xs ++ ys).headD [],
                    Middle := stringsJoin (xs ++ ys).tail [' '],
                    nameParts := [], nameCommas := [] } := by
  have hci : (if lastCommaIndex (-1) 0 p.nameCommas = -1 then (p.nameParts.length : Int) - 1
      else lastCommaIndex (-1) 0 p.nameCommas) = (xs.length : Int) := by
    rw [hcommas, lastCommaIndex_one_flag, hparts]
    rcases hf with rfl | rfl
    · have : ¬ ((xs.length : Int) = -1) := by omega
      simp [this]
    · cases f
      · simp
      · have : ¬ ((xs.length : Int) = -1) := by omega
        simp [this]
  have e8 : passLast p = some { p with Last := t, nameParts := xs ++ ys, nameCommas := [] } := by
    unfold passLast
    have hl : p.nameParts.length > 0 := by rw [hparts]; simp
    simp only [hl, if_true]
    have hg : p.nameParts[xs.length]? = some t := by
      rw [hparts, List.getElem?_append_right (le_refl _)]; simp
    unfold findLastname
    simp only [hci]
    rw [goIndex_eq p.nameParts _ xs.length rfl, hg,
      goSliceTo_eq p.nameParts _ xs.length rfl (by rw [hparts]; simp),
      goSliceFrom_eq p.nameParts _ (xs.length + 1) (by omega) (by rw [hparts]; simp),
      goSliceTo_eq p.nameCommas 0 0 rfl (by omega)]
    simp [hparts]
  simp only [runPasses, e8, Option.some_bind]
  cases hr : xs ++ ys with
  | nil =>
    cases p
    simp only at hF hM
    subst hF hM
    simp [passFirst, passMiddle, stringsJoin_nil]
  | cons a rest =>
    have e9 : passFirst { p with Last := t, nameParts := a :: rest, nameCommas := [] } =
        some { p with Last := t, First := a, nameParts := rest, nameCommas := [] } := by
      simp [passFirst, findFirstname, goIndex, goSliceFrom]
    simp only [e9, Option.some_bind, List.headD_cons, List.tail_cons]
    cases rest with
    | nil =>
      cases p
      simp only at hM
      subst hM
      simp [passMiddle, stringsJoin_nil]
    | cons b rest2 =>
      simp [passMiddle, findMiddlename, goSliceTo]

theorem runPasses_cons (f : ParsedName → Option ParsedName)
    (fs : List (ParsedName → Option ParsedName)) (p : ParsedName) :
    runPasses (f :: fs) p = (f p).bind (runPasses fs) := rfl

/-- `ParseFullname` on plain tokens `xs ++ t :: ys` written with single spaces,
where at most `t` is followed by a comma and `t` is the final token when it is
not. -/
theorem parse_plain_tokens (xs ys : List (List Char)) (t : List Char) (f : Bool)
    (hf : f = true ∨ ys = []) (hp : ∀ x ∈ xs ++ t :: ys, PlainToken x) :
    ParseFullname (stringsJoin (xs ++ withComma (t, f) :: ys) [' ']) =
      some { Last := t, First := (xs ++ ys).headD [],
             Middle := stringsJoin (xs ++ ys).tail [' '],
             rawName := stringsJoin (xs ++ withComma (t, f) :: ys) [' '] } := by
  generalize hraw : stringsJoin (xs ++ withComma (t, f) :: ys) [' '] = raw
  let tf : List (List Char × Bool) :=
    xs.map (fun x => (x, false)) ++ (t, f) :: ys.map (fun x => (x, false))
  have htf1 : tf.map withComma = xs ++ withComma (t, f) :: ys := by
    simp [tf, withComma, Function.comp_def]
  have htf2 : tf.map Prod.fst = xs ++ t :: ys := by
    simp [tf, Function.comp_def]
  have htf3 : tf.map Prod.snd =
      List.replicate xs.length false ++ f :: List.replicate ys.length false := by
    simp [tf, Function.comp_def, List.map_const']
  have hplain : ∀ x ∈ tf, x.1 ≠ [] ∧ ∀ c ∈ x.1, isPlainChar c = true := by
    intro x hx
    have : x.1 ∈ xs ++ t :: ys := by
      rw [← htf2]; exact List.mem_map_of_mem _ hx
    exact ⟨(hp _ this).1, (hp _ this).2.1⟩
  let p0 : ParsedName := { rawName := raw }
  have hr0 : p0.rawName = stringsJoin (tf.map withComma) [' '] := by rw [htf1, hraw]
  have e1 : passNick p0 = some p0 := by
    simp only [passNick, findNicknames_join p0 tf hplain hr0, stringsJoin_nil]
  have e2 : passSplit p0 = some
      { p0 with
        nameParts := xs ++ t :: ys,
        nameCommas := List.replicate xs.length false ++ f :: List.replicate ys.length false } := by
    simp only [passSplit, splitName_join p0 tf (by simp [tf]) hplain hr0, htf2, htf3]
  simp only [ParseFullname, Parse, passes]
  rw [runPasses_cons, e1, Option.some_bind, runPasses_cons, e2, Option.some_bind,
    runPasses_cons, passSuffix_id _ (fun x hx => (hp x hx).2.2.1) rfl, Option.some_bind,
    runPasses_cons, passTitle_id _ (fun x hx => (hp x hx).2.2.2.1) rfl, Option.some_bind,
    runPasses_cons, passPrefix_id _ (fun x hx => (hp x hx).2.2.2.2.1), Option.some_bind,
    runPasses_cons, passConj_id _ (fun x hx => (hp x hx).2.2.2.2.2), Option.some_bind,
    runPasses_cons, passExtra_id _ (commasCount_one_flag _ _ _), Option.some_bind,
    assign_one_flag _ xs ys t f rfl rfl hf rfl rfl]

/-- C1: for plain tokens `t1 .. tn` (`n ≥ 1`) joined by single spaces,
`ParseFullname` returns `Last = tn`, `First = t1` when `n ≥ 2` and `""`
otherwise, `Middle = t2 .. t(n-1)` joined by single spaces, and empty `Title`,
`Suffix` and `Nick`. -/
theorem C1_plain_tokens (ts : List (List Char)) (hne : ts ≠ [])
    (hp : ∀ t ∈ ts, PlainToken t) :
    ParseFullname (stringsJoin ts [' ']) =
      some { Last := ts.getLast hne, First := ts.dropLast.headD [],
             Middle := stringsJoin ts.dropLast.tail [' '],
             rawName := stringsJoin ts [' '] } := by
  have h := parse_plain_tokens ts.dropLast [] (ts.getLast hne) false (Or.inr rfl)
    (by rw [List.dropLast_append_getLast hne]; exact hp)
  simp only [withComma, List.append_nil] at h
  rw [show (if false = true then ts.getLast hne ++ [','] else ts.getLast hne) = ts.getLast hne
    from rfl, List.dropLast_append_getLast hne] at h
  exact h

/-- The statement of `C1_plain_tokens` on `"Juan Q. Xavier"`. -/
theorem C1_plain_tokens_witness :
    ParseFullname (stringsJoin ["Juan".toList, "Q.".toList, "Xavier".toList] [' ']) =
      some { Last := "Xavier".toList, First := "Juan".toList, Middle := "Q.".toList,
             rawName := "Juan Q. Xavier".toList } :=
  C1_plain_tokens ["Juan".toList, "Q.".toList, "Xavier".toList] (by decide)
    (by unfold PlainToken; decide)

/-- C2: for plain tokens written with single spaces, of which exactly the token
`t` is followed by a comma, `ParseFullname` returns `Last = t`, `First` the
first of the other tokens, `Middle` the remaining ones joined by single spaces,
and empty `Title`, `Suffix` and `Nick`; with no token before `t`, the
comma-marked first token is `Last`. -/
theorem C2_comma_reordering (xs ys : List (List Char)) (t : List Char)
    (_hn : 2 ≤ (xs ++ t :: ys).length) (hp : ∀ x ∈ xs ++ t :: ys, PlainToken x) :
    ParseFullname (stringsJoin (xs ++ (t ++ [',']) :: ys) [' ']) =
      some { Last := t, First := (xs ++ ys).headD [],
             Middle := stringsJoin (xs ++ ys).tail [' '],
             rawName := stringsJoin (xs ++ (t ++ [',']) :: ys) [' '] } :=
  parse_plain_tokens xs ys t true (Or.inl rfl) hp

/-- The statement of `C2_comma_reordering` on `"Xavier, Juan Q."`; the
comma-marked first token is returned as `Last`. -/
theorem C2_comma_reordering_witness :
    ParseFullname (stringsJoin ([] ++ ("Xavier".toList ++ [',']) ::
        ["Juan".toList, "Q.".toList]) [' ']) =
      some { Last := "Xavier".toList, First := "Juan".toList, Middle := "Q.".toList,
             rawName := "Xavier, Juan Q.".toList } :=
  C2_comma_reordering [] ["Juan".toList, "Q.".toList] "Xavier".toList (by decide)
    (by unfold PlainToken; decide)

/-! The nickname pattern -/

theorem matchNickCore_span (s g : List Char) (k : Nat) (h : matchNickCore s = some (g, k)) :
    ∃ o c post, s = o :: (g ++ c :: post) ∧ isOpener o = true ∧ g ≠ [] ∧ isCloser c = true := by
  cases s with
  | nil => rw [matchNickCore] at h; exact absurd h (by simp)
  | cons o rest =>
    rw [matchNickCore] at h
    split at h
    · rename_i ho
      simp only at h
      split at h
      · exact absurd h (by simp)
      · rename_i c post hd
        split at h
        · rename_i hc
          simp only [Option.some.injEq, Prod.mk.injEq] at h
          refine ⟨o, c, post, ?_, ho, ?_, hc.2⟩
          · rw [← h.1, ← hd, List.takeWhile_append_dropWhile]
          · rw [← h.1]; exact hc.1
        · exact absurd h (by simp)
    · exact absurd h (by simp)

theorem matchNickAt_span (s g : List Char) (k : Nat) (h : matchNickAt s = some (g, k)) :
    HasNickSpan s := by
  cases s with
  | nil => simp [matchNickAt] at h
  | cons w rest =>
    simp only [matchNickAt] at h
    split at h
    · split at h
      · rename_i g2 n2 hm
        obtain ⟨o, c, post, e, ho, hg, hc⟩ := matchNickCore_span rest g2 n2 hm
        exact ⟨[w], o, g2, c, post, by rw [e]; rfl, ho, hg, hc⟩
      · obtain ⟨o, c, post, e, ho, hg, hc⟩ := matchNickCore_span _ g k h
        exact ⟨[], o, g, c, post, by rw [e]; rfl, ho, hg, hc⟩
    · obtain ⟨o, c, post, e, ho, hg, hc⟩ := matchNickCore_span _ g k h
      exact ⟨[], o, g, c, post, by rw [e]; rfl, ho, hg, hc⟩

theorem hasNickSpan_cons (c : Char) (s : List Char) (h : HasNickSpan s) :
    HasNickSpan (c :: s) := by
  obtain ⟨pre, o, mid, d, post, e, h1, h2, h3⟩ := h
  exact ⟨c :: pre, o, mid, d, post, by rw [e]; rfl, h1, h2, h3⟩

theorem findAllNickAux_nil_of_no_span (s : List Char) (k : Nat) (h : ¬ HasNickSpan s) :
    findAllNickAux k s = [] := by
  induction s generalizing k with
  | nil => cases k <;> rfl
  | cons c cs ih =>
    have hcs : ¬ HasNickSpan cs := fun hs => h (hasNickSpan_cons c cs hs)
    cases k with
    | succ k => simp only [findAllNickAux]; exact ih k hcs
    | zero =>
      cases hm : matchNickAt (c :: cs) with
      | none => simp only [findAllNickAux, hm]; exact ih 0 hcs
      | some r => exact absurd (matchNickAt_span _ r.1 r.2 hm) h

/-- C8, as the code has it: an input that holds no span made of an opening
delimiter, a non-empty run of characters and a closing delimiter (any of the
four, paired with the opener or not) yields no nickname, and `findNicknames`
leaves `rawName` as it is. -/
theorem C8_no_span_no_nickname (p : ParsedName) (h : ¬ HasNickSpan p.rawName) :
    findNicknames p = ([], p) := by
  have h0 : findAllNick p.rawName = [] := findAllNickAux_nil_of_no_span p.rawName 0 h
  unfold findNicknames
  simp only [h0, List.map_nil, List.foldl_nil]

theorem hasNickSpan_closer (s : List Char) (h : HasNickSpan s) :
    ∃ c ∈ s, isCloser c = true := by
  obtain ⟨pre, o, mid, c, post, e, _, _, hc⟩ := h
  exact ⟨c, by rw [e]; simp, hc⟩

/-- The statement of `C8_no_span_no_nickname` on `"Juan (Xavier"`, whose bracket
is never closed. -/
theorem C8_no_span_no_nickname_witness :
    ¬ HasNickSpan "Juan (Xavier".toList ∧
      findNicknames { rawName := "Juan (Xavier".toList } =
        ([], { rawName := "Juan (Xavier".toList }) :=
  have h : ¬ HasNickSpan "Juan (Xavier".toList := fun hs => by
    obtain ⟨c, hc, hc2⟩ := hasNickSpan_closer _ hs
    revert c
    decide
  ⟨h, C8_no_span_no_nickname { rawName := "Juan (Xavier".toList } h⟩

theorem hasPairedSpan_mem (s : List Char) (h : HasPairedSpan s) :
    ∃ o ∈ s, ∃ c ∈ s, delimitersPair o c = true := by
  obtain ⟨pre, o, mid, c, post, e, _, hp⟩ := h
  exact ⟨o, by rw [e]; simp, c, by rw [e]; simp, hp⟩

/-- C8 as stated fails on `"(a]"`: no opening delimiter of it is followed by
the closing delimiter that pairs with it, and yet `findNicknames` returns the
nickname `"a"` and empties `rawName`. -/
theorem C8_counterexample :
    ¬ HasPairedSpan "(a]".toList ∧
      findNicknames { rawName := "(a]".toList } = (["a".toList], { rawName := [] }) := by
  refine ⟨fun hs => ?_, by decide⟩
  obtain ⟨o, ho, c, hc, hp⟩ := hasPairedSpan_mem _ hs
  revert o c
  decide

/-! The passes after the nickname pass do not read `Nick` -/

theorem removePart_withNick (n : List Char) (p : ParsedName) (x : List Char) :
    removePart (withNick n p) x = (removePart p x).map (withNick n) := by
  simp only [removePart, withNick]
  split
  · cases goSliceTo p.nameParts (findIndexOf x p.nameParts) <;>
    cases goSliceFrom p.nameParts (findIndexOf x p.nameParts + 1) <;>
    cases goIndex p.nameCommas (findIndexOf x p.nameParts) <;>
    simp only [Option.bind_eq_bind, Option.none_bind, Option.some_bind, Option.map_none',
      Option.map_some']
    split
    · cases goSliceTo p.nameCommas (findIndexOf x p.nameParts + 1) <;>
      cases goSliceFrom p.nameCommas (findIndexOf x p.nameParts + 1 + 1) <;> rfl
    · cases goSliceTo p.nameCommas (findIndexOf x p.nameParts) <;>
      cases goSliceFrom p.nameCommas (findIndexOf x p.nameParts + 1) <;> rfl
  · rfl

theorem removeParts_withNick (n : List Char) (xs : List (List Char)) (p : ParsedName) :
    removeParts xs (withNick n p) = (removeParts xs p).map (withNick n) := by
  induction xs generalizing p with
  | nil => rfl
  | cons x rest ih =>
    simp only [removeParts, removePart_withNick]
    cases removePart p x with
    | none => rfl
    | some q => simp only [Option.map_some', Option.some_bind, ih]

theorem findParts_withNick (n : List Char) (list : List (List Char)) (p : ParsedName) :
    findParts list (withNick n p) =
      (findParts list p).map (fun r => (r.1, withNick n r.2)) := by
  simp only [findParts, removeParts_withNick]
  have : (withNick n p).nameParts = p.nameParts := rfl
  rw [this]
  cases removeParts (collectParts list p.nameParts) p <;> rfl

theorem joinPrefixesInner_withNick (n : List Char) (i : Int) (prefs : List (List Char))
    (p : ParsedName) :
    joinPrefixesInner i prefs (withNick n p) = (joinPrefixesInner i prefs p).map (withNick n) := by
  induction prefs generalizing p with
  | nil => rfl
  | cons a rest ih =>
    rw [joinPrefixesInner, joinPrefixesInner]
    have e1 : (withNick n p).nameParts = p.nameParts := rfl
    have e2 : (withNick n p).nameCommas = p.nameCommas := rfl
    rw [e1, e2]
    cases goIndex p.nameParts i with
    | none => rfl
    | some cur =>
      simp only [Option.bind_eq_bind, Option.some_bind]
      split
      · cases goIndex p.nameParts (i + 1) with
        | none => rfl
        | some nxt =>
          simp only [Option.some_bind]
          cases goSet p.nameParts i (cur ++ [' '] ++ nxt) with
          | none => rfl
          | some parts =>
            simp only [Option.some_bind]
            cases goSliceTo parts (i + 1) <;> cases goSliceFrom parts (i + 2) <;>
              cases goSliceTo p.nameCommas i <;> cases goSliceFrom p.nameCommas (i + 1) <;>
              simp only [Option.none_bind, Option.some_bind, Option.map_none']
            rename_i a b c d
            exact ih { p with nameParts := a ++ b, nameCommas := c ++ d }
      · exact ih p

theorem joinPrefixesLoop_withNick (n : List Char) (k : Nat) (p : ParsedName) :
    joinPrefixesLoop k (withNick n p) = (joinPrefixesLoop k p).map (withNick n) := by
  induction k generalizing p with
  | zero => rfl
  | succ k ih =>
    simp only [joinPrefixesLoop, joinPrefixesInner_withNick]
    cases joinPrefixesInner (↑k) prefixList p with
    | none => rfl
    | some q => simp only [Option.map_some', Option.some_bind, ih]

theorem joinConjunctionsInner_withNick (n : List Char) (conjs : List (List Char)) (i : Int)
    (p : ParsedName) :
    joinConjunctionsInner conjs i (withNick n p) =
      (joinConjunctionsInner conjs i p).map (fun r => (r.1, withNick n r.2)) := by
  induction conjs generalizing i p with
  | nil => rfl
  | cons a rest ih =>
    rw [joinConjunctionsInner, joinConjunctionsInner]
    have e1 : (withNick n p).nameParts = p.nameParts := rfl
    have e2 : (withNick n p).nameCommas = p.nameCommas := rfl
    rw [e1, e2]
    cases goIndex p.nameParts (i + 1) with
    | none => rfl
    | some mid =>
      simp only [Option.bind_eq_bind, Option.some_bind]
      split
      · cases goIndex p.nameParts i with
        | none => rfl
        | some cur =>
          simp only [Option.some_bind]
          cases goIndex p.nameParts (i + 2) with
          | none => rfl
          | some nxt =>
            simp only [Option.some_bind]
            cases goSet p.nameParts i (cur ++ [' '] ++ mid ++ [' '] ++ nxt) with
            | none => rfl
            | some parts =>
              simp only [Option.some_bind]
              cases goSliceTo parts (i + 1) <;> cases goSliceFrom parts (i + 3) <;>
                cases goSliceTo p.nameCommas i <;> cases goSliceFrom p.nameCommas (i + 2) <;>
                simp only [Option.none_bind, Option.some_bind, Option.map_none']
              rename_i a b c d
              exact ih (i - 1) { p with nameParts := a ++ b, nameCommas := c ++ d }
      · exact ih i p

theorem joinConjunctionsLoop_withNick (n : List Char) (fuel : Nat) (i : Int) (p : ParsedName) :
    joinConjunctionsLoop fuel i (withNick n p) =
      (joinConjunctionsLoop fuel i p).map (withNick n) := by
  induction fuel generalizing i p with
  | zero =>
    simp only [joinConjunctionsLoop]
    split <;> rfl
  | succ fuel ih =>
    simp only [joinConjunctionsLoop, joinConjunctionsInner_withNick]
    split
    · cases joinConjunctionsInner conjunctionList i p with
      | none => rfl
      | some r => simp only [Option.map_some', Option.some_bind, ih]
    · rfl

theorem extraSuffixesLoop_withNick (n : List Char) (k : Nat) (ex : List (List Char))
    (p : ParsedName) :
    extraSuffixesLoop k (ex, withNick n p) =
      (extraSuffixesLoop k (ex, p)).map (fun r => (r.1, withNick n r.2)) := by
  induction k generalizing ex p with
  | zero => rfl
  | succ k ih =>
    rw [extraSuffixesLoop, extraSuffixesLoop]
    have e1 : (withNick n p).nameParts = p.nameParts := rfl
    have e2 : (withNick n p).nameCommas = p.nameCommas := rfl
    simp only [e1, e2]
    cases goIndex p.nameCommas ((k : Int) + 2) with
    | none => rfl
    | some flag =>
      simp only [Option.bind_eq_bind, Option.some_bind]
      split
      · cases goIndex p.nameParts ((k : Int) + 2) <;>
          cases goSliceTo p.nameParts ((k : Int) + 2) <;>
          cases goSliceFrom p.nameParts ((k : Int) + 2 + 1) <;>
          cases goSliceTo p.nameCommas ((k : Int) + 2) <;>
          cases goSliceFrom p.nameCommas ((k : Int) + 2 + 1) <;>
          simp only [Option.none_bind, Option.some_bind, Option.map_none']
        rename_i part a b c d
        exact ih (ex ++ [part]) { p with nameParts := a ++ b, nameCommas := c ++ d }
      · exact ih ex p

theorem passSplit_withNick (n : List Char) (p : ParsedName) :
    passSplit (withNick n p) = (passSplit p).map (withNick n) := rfl

theorem passSuffix_withNick (n : List Char) (p : ParsedName) :
    passSuffix (withNick n p) = (passSuffix p).map (withNick n) := by
  simp only [passSuffix, findSuffixes, findParts_withNick]
  have e1 : (withNick n p).nameParts = p.nameParts := rfl
  rw [e1]
  split
  · cases findParts suffixList p <;> rfl
  · rfl

theorem passTitle_withNick (n : List Char) (p : ParsedName) :
    passTitle (withNick n p) = (passTitle p).map (withNick n) := by
  simp only [passTitle, findTitles, findParts_withNick]
  have e1 : (withNick n p).nameParts = p.nameParts := rfl
  rw [e1]
  split
  · cases findParts titleList p <;> rfl
  · rfl

theorem passPrefix_withNick (n : List Char) (p : ParsedName) :
    passPrefix (withNick n p) = (passPrefix p).map (withNick n) := by
  simp only [passPrefix, joinPrefixes, joinPrefixesLoop_withNick]
  have e1 : (withNick n p).nameParts = p.nameParts := rfl
  rw [e1]
  split <;> rfl

theorem passConj_withNick (n : List Char) (p : ParsedName) :
    passConj (withNick n p) = (passConj p).map (withNick n) := by
  simp only [passConj, joinConjunctions, joinConjunctionsLoop_withNick]
  have e1 : (withNick n p).nameParts = p.nameParts := rfl
  rw [e1]
  split
  · split <;> rfl
  · rfl

theorem passExtra_withNick (n : List Char) (p : ParsedName) :
    passExtra (withNick n p) = (passExtra p).map (withNick n) := by
  simp only [passExtra, findExtraSuffixes, extraSuffixesLoop_withNick]
  have e1 : (withNick n p).nameParts = p.nameParts := rfl
  have e2 : (withNick n p).nameCommas = p.nameCommas := rfl
  rw [e1, e2]
  split
  · split
    · cases extraSuffixesLoop (p.nameParts.length - 2) ([], p) with
      | none => rfl
      | some r =>
        simp only [Option.map_some']
        have e3 : (withNick n r.2).Suffix = r.2.Suffix := rfl
        rw [e3]
        split
        · split <;> rfl
        · rfl
    · rfl
  · rfl

theorem passLast_withNick (n : List Char) (p : ParsedName) :
    passLast (withNick n p) = (passLast p).map (withNick n) := by
  simp only [passLast, findLastname]
  have e1 : (withNick n p).nameParts = p.nameParts := rfl
  have e2 : (withNick n p).nameCommas = p.nameCommas := rfl
  rw [e1, e2]
  split
  · generalize (if lastCommaIndex (-1) 0 p.nameCommas = -1 then (p.nameParts.length : Int) - 1
      else lastCommaIndex (-1) 0 p.nameCommas) = ci
    cases goIndex p.nameParts ci <;> cases goSliceTo p.nameParts ci <;>
      cases goSliceFrom p.nameParts (ci + 1) <;> cases goSliceTo p.nameCommas 0 <;> rfl
  · rfl

theorem passFirst_withNick (n : List Char) (p : ParsedName) :
    passFirst (withNick n p) = (passFirst p).map (withNick n) := by
  simp only [passFirst, findFirstname]
  have e1 : (withNick n p).nameParts = p.nameParts := rfl
  rw [e1]
  split
  · cases goIndex p.nameParts 0 <;> cases goSliceFrom p.nameParts 1 <;> rfl
  · rfl

theorem passMiddle_withNick (n : List Char) (p : ParsedName) :
    passMiddle (withNick n p) = (passMiddle p).map (withNick n) := by
  simp only [passMiddle, findMiddlename]
  have e1 : (withNick n p).nameParts = p.nameParts := rfl
  rw [e1]
  split
  · cases goSliceTo p.nameParts 0 <;> rfl
  · rfl

/-- The passes after the nickname pass commute with setting `Nick`. -/
theorem runPasses_tail_withNick (n : List Char) (p : ParsedName) :
    runPasses passes.tail (withNick n p) = (runPasses passes.tail p).map (withNick n) := by
  simp only [passes, List.tail_cons, runPasses]
  rw [passSplit_withNick]
  cases passSplit p with
  | none => rfl
  | some p2 =>
    simp only [Option.map_some', Option.some_bind]
    rw [passSuffix_withNick]
    cases passSuffix p2 with
    | none => rfl
    | some p3 =>
      simp only [Option.map_some', Option.some_bind]
      rw [passTitle_withNick]
      cases passTitle p3 with
      | none => rfl
      | some p4 =>
        simp only [Option.map_some', Option.some_bind]
        rw [passPrefix_withNick]
        cases passPrefix p4 with
        | none => rfl
        | some p5 =>
          simp only [Option.map_some', Option.some_bind]
          rw [passConj_withNick]
          cases passConj p5 with
          | none => rfl
          | some p6 =>
            simp only [Option.map_some', Option.some_bind]
            rw [passExtra_withNick]
            cases passExtra p6 with
            | none => rfl
            | some p7 =>
              simp only [Option.map_some', Option.some_bind]
              rw [passLast_withNick]
              cases passLast p7 with
              | none => rfl
              | some p8 =>
                simp only [Option.map_some', Option.some_bind]
                rw [passFirst_withNick]
                cases passFirst p8 with
                | none => rfl
                | some p9 =>
                  simp only [Option.map_some', Option.some_bind]
                  rw [passMiddle_withNick]
                  cases passMiddle p9 <;> rfl

/-! A single bracketed nickname at the end of the text -/

theorem findAllNickAux_skip_all (l : List Char) (k : Nat) (h : l.length ≤ k) :
    findAllNickAux k l = [] := by
  induction l generalizing k with
  | nil => cases k <;> rfl
  | cons c cs ih =>
    cases k with
    | zero => simp at h
    | succ k =>
      simp only [findAllNickAux]
      exact ih k (by simpa using h)

theorem removeAllAux_skip_all (old l : List Char) (k : Nat) (h : l.length ≤ k) :
    removeAllAux old k l = [] := by
  induction l generalizing k with
  | nil => cases k <;> rfl
  | cons c cs ih =>
    cases k with
    | zero => simp at h
    | succ k =>
      simp only [removeAllAux]
      exact ih k (by simpa using h)

theorem takeWhile_append_stop (f : Char → Bool) (n r : List Char) (d : Char)
    (hn : ∀ c ∈ n, f c = true) (hd : f d = false) :
    (n ++ d :: r).takeWhile f = n ∧ (n ++ d :: r).dropWhile f = d :: r := by
  induction n with
  | nil => simp [List.takeWhile, List.dropWhile, hd]
  | cons a rest ih =>
    have ha : f a = true := hn a (by simp)
    have := ih (fun c hc => hn c (List.mem_cons_of_mem _ hc))
    simp [List.takeWhile, List.dropWhile, ha, this]

theorem isNickChar_of_no_delimiter (c : Char) (h : isOpener c = false ∧ isCloser c = false) :
    isNickChar c = true := by
  obtain ⟨h1, h2⟩ := h
  simp only [isOpener, Bool.or_eq_false_iff, decide_eq_false_iff_not] at h1
  simp only [isCloser, Bool.or_eq_false_iff, decide_eq_false_iff_not] at h2
  simp [isNickChar, h1.2, h2.1.1.1, h2.1.1.2, h2.1.2, h2.2]

theorem matchNickAt_bracketed (n : List Char) (hn : n ≠ [])
    (hn2 : ∀ c ∈ n, isOpener c = false ∧ isCloser c = false) :
    matchNickAt (' ' :: '(' :: (n ++ [')'])) = some (n, n.length + 3) := by
  have h := takeWhile_append_stop isNickChar n [] ')'
    (fun c hc => isNickChar_of_no_delimiter c (hn2 c hc)) (by decide)
  have hcore : matchNickCore ('(' :: (n ++ [')'])) = some (n, n.length + 2) := by
    rw [matchNickCore]
    have ho : isOpener '(' = true := by decide
    have hc : isCloser ')' = true := by decide
    simp only [ho, if_true, h.1, h.2, hc, and_true, hn, ne_eq, not_false_eq_true]
  have hw : isReSpace ' ' = true := by decide
  simp only [matchNickAt, hw, if_true, hcore]

theorem findAllNickAux_append_bracketed (s n : List Char)
    (hs : ∀ c ∈ s, isOpener c = false) (hn : n ≠ [])
    (hn2 : ∀ c ∈ n, isOpener c = false ∧ isCloser c = false) :
    findAllNickAux 0 (s ++ ' ' :: '(' :: (n ++ [')'])) = [(' ' :: '(' :: (n ++ [')']), n)] := by
  induction s with
  | nil =>
    simp only [List.nil_append, findAllNickAux, matchNickAt_bracketed n hn hn2]
    rw [findAllNickAux_skip_all _ _ (by simp)]
    have : (' ' :: '(' :: (n ++ [')'])).take (n.length + 3) = ' ' :: '(' :: (n ++ [')']) :=
      List.take_of_length_le (by simp)
    rw [this]
  | cons c cs ih =>
    have hc : isOpener c = false := hs c (by simp)
    have h1 : matchNickCore (c :: (cs ++ ' ' :: '(' :: (n ++ [')']))) = none :=
      matchNickCore_none_of_head _ (by intro d hd; simp at hd; subst hd; exact hc)
    have h2 : matchNickCore (cs ++ ' ' :: '(' :: (n ++ [')'])) = none := by
      apply matchNickCore_none_of_head
      intro d hd
      cases cs with
      | nil => simp at hd; subst hd; decide
      | cons e es => simp at hd; subst hd; exact hs _ (by simp)
    have h3 : matchNickAt (c :: (cs ++ ' ' :: '(' :: (n ++ [')']))) = none := by
      simp [matchNickAt, h1, h2]
    rw [List.cons_append, findAllNickAux, h3]
    exact ih (fun d hd => hs d (List.mem_cons_of_mem _ hd))

theorem isPrefixOf_self (l : List Char) : l.isPrefixOf l = true := by
  induction l with
  | nil => rfl
  | cons a rest ih => simp [List.isPrefixOf, ih]

theorem removeAllAux_append_bracketed (s n : List Char) (hs : '(' ∉ s) :
    removeAllAux (' ' :: '(' :: (n ++ [')'])) 0 (s ++ ' ' :: '(' :: (n ++ [')'])) = s := by
  induction s with
  | nil =>
    rw [List.nil_append, removeAllAux, isPrefixOf_self, if_pos rfl]
    exact removeAllAux_skip_all _ _ _ (by simp)
  | cons c cs ih =>
    have hcs : '(' ∉ cs := fun h => hs (List.mem_cons_of_mem _ h)
    have hnp : (' ' :: '(' :: (n ++ [')'])).isPrefixOf
        (c :: (cs ++ ' ' :: '(' :: (n ++ [')']))) = false := by
      cases cs with
      | nil => simp [List.isPrefixOf]
      | cons e es =>
        have : '(' ≠ e := fun h => hs (by rw [h]; simp)
        simp [List.isPrefixOf, this]
    rw [List.cons_append, removeAllAux, hnp, if_neg (by simp), ih hcs]

theorem passNick_no_opener (s : List Char) (hs : ∀ c ∈ s, isOpener c = false) :
    passNick { rawName := s } = some { rawName := s } := by
  simp only [passNick, findNicknames_no_opener { rawName := s } hs, stringsJoin_nil]

theorem passNick_bracketed (s n : List Char)
    (hs : ∀ c ∈ s, isOpener c = false ∧ isCloser c = false) (hn : n ≠ [])
    (hn2 : ∀ c ∈ n, isOpener c = false ∧ isCloser c = false) :
    passNick { rawName := s ++ [' ', '('] ++ n ++ [')'] } =
      some (withNick n { rawName := s }) := by
  have e : s ++ [' ', '('] ++ n ++ [')'] = s ++ ' ' :: '(' :: (n ++ [')']) := by simp
  have hop : '(' ∉ s := fun h => by
    have := (hs _ h).1
    revert this
    decide
  have h1 := findAllNickAux_append_bracketed s n (fun c hc => (hs c hc).1) hn hn2
  have h2 := removeAllAux_append_bracketed s n hop
  simp only [passNick, findNicknames, findAllNick, e, h1, List.map_cons, List.map_nil,
    List.foldl_cons, List.foldl_nil, stringsRemoveAll, stringsJoin_singleton, withNick]
  rw [if_neg (by simp), h2]

/-- C7: for `s` and a non-empty `n` free of the characters `'`, `"`, `(`, `)`,
`[`, `]`, `ParseFullname (s ++ " (" ++ n ++ ")")` returns `Nick = n` and every
other field as `ParseFullname s` returns it. -/
theorem C7_nickname_transparent (s n : List Char)
    (hs : ∀ c ∈ s, isOpener c = false ∧ isCloser c = false) (hn : n ≠ [])
    (hn2 : ∀ c ∈ n, isOpener c = false ∧ isCloser c = false) :
    ∃ p, ParseFullname s = some p ∧
      ParseFullname (s ++ [' ', '('] ++ n ++ [')']) = some { p with Nick := n } := by
  obtain ⟨p1, p2, p3, p4, p5, p6, p7, p8, p9, p10, h1, h2, h3, h4, h5, h6, h7, h8, h9, h10, _⟩ :=
    parse_trace { rawName := s }
  have e0 : ParseFullname s = some p10 := by
    simp only [ParseFullname, Parse, passes, runPasses, h1, h2, h3, h4, h5, h6, h7, h8, h9, h10,
      Option.some_bind]
  have e1 := passNick_no_opener s (fun c hc => (hs c hc).1)
  have et : runPasses passes.tail { rawName := s } = some p10 := by
    have : ParseFullname s = (passNick { rawName := s }).bind (runPasses passes.tail) := rfl
    rw [this, e1] at e0
    exact e0
  refine ⟨p10, e0, ?_⟩
  have : ParseFullname (s ++ [' ', '('] ++ n ++ [')']) =
      (passNick { rawName := s ++ [' ', '('] ++ n ++ [')'] }).bind (runPasses passes.tail) := rfl
  rw [this, passNick_bracketed s n hs hn hn2, Option.some_bind, runPasses_tail_withNick, et]
  rfl

/-- The statement of `C7_nickname_transparent` on `"Dr. Juan Xavier (Doc Vega)"`. -/
theorem C7_nickname_transparent_witness :
    ∃ p, ParseFullname "Dr. Juan Xavier".toList = some p ∧
      ParseFullname ("Dr. Juan Xavier".toList ++ [' ', '('] ++ "Doc Vega".toList ++ [')']) =
        some { p with Nick := "Doc Vega".toList } :=
  C7_nickname_transparent "Dr. Juan Xavier".toList "Doc Vega".toList (by decide) (by decide)
    (by decide)

/-! The lexicon passes on a title followed by `Juan Xavier` -/

theorem titleList_chars : ∀ t ∈ titleList, ∀ c ∈ t,
    c = ' ' ∨ (97 ≤ c.toNat ∧ c.toNat ≤ 122) := by decide!

theorem titleList_ne_nil : ∀ t ∈ titleList, t ≠ [] := by decide!

theorem char_ne_of_toNat_ne (c d : Char) (h : c.toNat ≠ d.toNat) : c ≠ d :=
  fun e => h (e ▸ rfl)

theorem isPlainChar_of_toNat (c : Char)
    (h : (65 ≤ c.toNat ∧ c.toNat ≤ 90) ∨ (97 ≤ c.toNat ∧ c.toNat ≤ 122) ∨ c.toNat = 0x130 ∨
      c.toNat = 0x212A) : isPlainChar c = true := by
  have h1 : c ≠ ',' := char_ne_of_toNat_ne c ',' (by
    have : (',' : Char).toNat = 44 := rfl
    omega)
  have h2 : c ≠ Char.ofNat 39 := char_ne_of_toNat_ne c _ (by
    have : (Char.ofNat 39).toNat = 39 := rfl
    omega)
  have h3 : c ≠ Char.ofNat 34 := char_ne_of_toNat_ne c _ (by
    have : (Char.ofNat 34).toNat = 34 := rfl
    omega)
  have h4 : c ≠ '(' := char_ne_of_toNat_ne c _ (by
    have : ('(' : Char).toNat = 40 := rfl
    omega)
  have h5 : c ≠ ')' := char_ne_of_toNat_ne c _ (by
    have : (')' : Char).toNat = 41 := rfl
    omega)
  have h6 : c ≠ '[' := char_ne_of_toNat_ne c _ (by
    have : ('[' : Char).toNat = 91 := rfl
    omega)
  have h7 : c ≠ ']' := char_ne_of_toNat_ne c _ (by
    have : (']' : Char).toNat = 93 := rfl
    omega)
  simp only [isPlainChar, unicodeIsSpace, isSplitSpace, isReSpace, isOpener, isCloser, h1, h2, h3,
    h4, h5, h6, h7, decide_False, Bool.or_false, Bool.not_eq_true', Bool.or_eq_false_iff,
    decide_eq_false_iff_not, Bool.and_eq_false_iff, Bool.decide_and, not_and, not_le]
  omega

theorem isPlainChar_of_lower_letter (c : Char)
    (h : 97 ≤ (toLowerRune c).toNat ∧ (toLowerRune c).toNat ≤ 122) : isPlainChar c = true := by
  apply isPlainChar_of_toNat
  have hA : ('A' : Char).toNat = 65 := rfl
  have hZ : ('Z' : Char).toNat = 90 := rfl
  unfold toLowerRune at h
  rw [hA, hZ] at h
  split at h
  · left; assumption
  · split at h
    · right; right; left; assumption
    · split at h
      · right; right; right; assumption
      · right; left; exact h

theorem partToCheck_title_form (t u dot : List Char) (ht : t ∈ titleList)
    (hu : toLower u = t) (hdot : dot = [] ∨ dot = ['.']) : partToCheck (u ++ dot) = t := by
  have hdotlow : toLower dot = dot := by
    rcases hdot with rfl | rfl
    · rfl
    · decide
  have e : toLower (u ++ dot) = t ++ dot := by
    simp only [toLower, List.map_append] at hu hdotlow ⊢
    rw [hu, hdotlow]
  unfold partToCheck
  rw [e]
  rcases hdot with rfl | rfl
  · rw [List.append_nil]
    have hnd : '.' ∉ t := by
      intro hm
      have := titleList_chars t ht '.' hm
      revert this
      decide
    simp [trimSuffix, hasSuffix_singleton_false t '.' hnd]
  · exact trimSuffix_append_self t ['.']

theorem filter_eq_map_const_of_count (l : List (List Char)) (t x : List Char)
    (h : l.count t = 1) :
    (l.filter (fun suf => decide (suf = t))).map (fun _ => x) = [x] := by
  have e : l.filter (fun suf => decide (suf = t)) = l.filter (fun suf => suf == t) := by
    apply List.filter_congr
    intro y _
    by_cases hy : y = t
    · subst hy; simp
    · simp [hy]
  rw [e, List.map_const', ← List.countP_eq_length_filter]
  have : List.countP (fun suf => suf == t) l = 1 := h
  rw [this]
  rfl

/-- C5, as the code has it: for every entry `t` of `titleList` that holds no
space, is no entry of `suffixList` and is listed once, in any letter case `u`
and with or without one trailing period, `ParseFullname` of the written form
followed by `" Juan Xavier"` returns the written form as `Title`, `First =
"Juan"`, `Last = "Xavier"` and empty `Middle`, `Suffix` and `Nick`. -/
theorem C5_single_word_titles (t u dot : List Char) (ht : t ∈ titleList) (hsp : ' ' ∉ t)
    (hsuf : t ∉ suffixList) (hone : titleList.count t = 1) (hu : toLower u = t)
    (hdot : dot = [] ∨ dot = ['.']) :
    ParseFullname (u ++ dot ++ " Juan Xavier".toList) =
      some { Title := u ++ dot, First := "Juan".toList, Last := "Xavier".toList,
             rawName := u ++ dot ++ " Juan Xavier".toList } := by
  have hpc := partToCheck_title_form t u dot ht hu hdot
  have hune : u ≠ [] := by
    intro h
    subst h
    exact titleList_ne_nil t ht hu.symm
  have hxne : u ++ dot ≠ [] := by simp [hune]
  have huplain : ∀ c ∈ u, isPlainChar c = true := by
    intro c hc
    apply isPlainChar_of_lower_letter
    have hm : toLowerRune c ∈ t := by
      rw [← hu]; exact List.mem_map_of_mem _ hc
    rcases titleList_chars t ht _ hm with h | h
    · exact absurd (h ▸ hm) hsp
    · exact h
  have hxplain : ∀ c ∈ u ++ dot, isPlainChar c = true := by
    intro c hc
    rcases List.mem_append.1 hc with h | h
    · exact huplain c h
    · rcases hdot with rfl | rfl
      · simp at h
      · simp at h; subst h; decide
  generalize hx : u ++ dot = x at hpc hxne hxplain ⊢
  generalize hraw : x ++ " Juan Xavier".toList = raw
  let tf : List (List Char × Bool) :=
    [(x, false), ("Juan".toList, false), ("Xavier".toList, false)]
  have hplain : ∀ y ∈ tf, y.1 ≠ [] ∧ ∀ c ∈ y.1, isPlainChar c = true := by
    intro y hy
    simp only [tf, List.mem_cons, List.mem_singleton, List.not_mem_nil, or_false] at hy
    rcases hy with rfl | rfl | rfl
    · exact ⟨hxne, hxplain⟩
    · decide
    · decide
  let p0 : ParsedName := { rawName := raw }
  have hr0 : p0.rawName = stringsJoin (tf.map withComma) [' '] := by
    show raw = _
    rw [← hraw]
    simp only [tf, List.map_cons, List.map_nil, withComma, stringsJoin_cons_cons,
      stringsJoin_singleton]
    simp
  have e1 : passNick p0 = some p0 := by
    simp only [passNick, findNicknames_join p0 tf hplain hr0, stringsJoin_nil]
  have e2 : passSplit p0 = some
      { p0 with
        nameParts := [x, "Juan".toList, "Xavier".toList],
        nameCommas := [false, false, false] } := by
    simp only [passSplit, splitName_join p0 tf (by simp [tf]) hplain hr0]
    rfl
  have hJ1 : ∀ y ∈ ["Juan".toList, "Xavier".toList], partToCheck y ∉ suffixList := by decide
  have hJ2 : ∀ y ∈ ["Juan".toList, "Xavier".toList], partToCheck y ∉ titleList := by decide
  have hJ3 : ∀ y ∈ ["Juan".toList, "Xavier".toList], y ∉ prefixList := by decide
  have hJ4 : ∀ y ∈ ["Juan".toList, "Xavier".toList], y ∉ conjunctionList := by decide
  have e3 : ∀ y ∈ [x, "Juan".toList, "Xavier".toList], partToCheck y ∉ suffixList := by
    intro y hy
    rcases List.mem_cons.1 hy with rfl | hy
    · rw [hpc]; exact hsuf
    · exact hJ1 y hy
  have hcol : collectParts titleList [x, "Juan".toList, "Xavier".toList] = [x] := by
    rw [collectParts, if_neg hxne, hpc, filter_eq_map_const_of_count titleList t x hone,
      collectParts_nil_of_no_match titleList _ hJ2]
    rfl
  have hrm : removeParts [x]
      { p0 with
        nameParts := [x, "Juan".toList, "Xavier".toList],
        nameCommas := [false, false, false] } = some
      { p0 with
        nameParts := ["Juan".toList, "Xavier".toList],
        nameCommas := [false, false] } := by
    simp [removeParts, removePart, findIndexOf, goSliceTo, goSliceFrom, goIndex]
  have hfp : findParts titleList
      { p0 with
        nameParts := [x, "Juan".toList, "Xavier".toList],
        nameCommas := [false, false, false] } = some ([x],
      { p0 with
        nameParts := ["Juan".toList, "Xavier".toList],
        nameCommas := [false, false] }) := by
    show (removeParts (collectParts titleList [x, "Juan".toList, "Xavier".toList]) _).map _ = _
    rw [hcol, hrm]
    rfl
  have e4 : passTitle
      { p0 with
        nameParts := [x, "Juan".toList, "Xavier".toList],
        nameCommas := [false, false, false] } = some
      { p0 with
        Title := x,
        nameParts := ["Juan".toList, "Xavier".toList],
        nameCommas := [false, false] } := by
    rw [passTitle, if_pos (by simp), findTitles, hfp]
    simp only [Option.map_some', stringsJoin_singleton]
  simp only [ParseFullname, Parse, passes]
  rw [runPasses_cons, e1, Option.some_bind, runPasses_cons, e2, Option.some_bind,
    runPasses_cons, passSuffix_id _ e3 rfl, Option.some_bind,
    runPasses_cons, e4, Option.some_bind,
    runPasses_cons, passPrefix_id _ hJ3, Option.some_bind,
    runPasses_cons, passConj_id _ hJ4, Option.some_bind,
    runPasses_cons, passExtra_id _ (by simp [commasCount]), Option.some_bind,
    assign_one_flag _ ["Juan".toList] [] "Xavier".toList false rfl rfl (Or.inr rfl) rfl rfl]
  rfl

/-- The statement of `C5_single_word_titles` on `"Dr. Juan Xavier"`. -/
theorem C5_single_word_titles_witness :
    ParseFullname ("Dr".toList ++ ['.'] ++ " Juan Xavier".toList) =
      some { Title := "Dr".toList ++ ['.'], First := "Juan".toList, Last := "Xavier".toList,
             rawName := "Dr".toList ++ ['.'] ++ " Juan Xavier".toList } :=
  C5_single_word_titles "dr".toList "Dr".toList ['.'] (by decide) (by decide) (by decide)
    (by decide) (by decide) (Or.inr rfl)

/-- C5 as stated fails on the entry `"air cdre"` of `titleList`: its two words
are two tokens, neither is a title, and `Title` stays empty. -/
theorem C5_counterexample :
    "air cdre".toList ∈ titleList ∧
      ParseFullname "air cdre Juan Xavier".toList =
        some { First := "air".toList, Middle := "cdre Juan".toList, Last := "Xavier".toList,
               rawName := "air cdre Juan Xavier".toList } := by
  decide

/-- The entries of `suffixList` that do not end with a period are recognised as
suffixes after `"Juan Xavier"`. -/
theorem suffix_entries_without_period : ∀ s ∈ suffixList, hasSuffix s ['.'] = false →
    ParseFullname ("Juan Xavier ".toList ++ s) =
      some { First := "Juan".toList, Last := "Xavier".toList, Suffix := s,
             rawName := "Juan Xavier ".toList ++ s } := by
  decide!

/-- C6 fails on the entry `"j.d."` of `suffixList`: the token loses its trailing
period before the comparison and the entry keeps its own, so `"j.d."` is not
taken as a suffix and becomes `Last`. -/
theorem C6_dotted_entry_not_matched :
    "j.d.".toList ∈ suffixList ∧
      ParseFullname "Juan Xavier j.d.".toList =
        some { First := "Juan".toList, Middle := "Xavier".toList, Last := "j.d.".toList,
               rawName := "Juan Xavier j.d.".toList } := by
  decide

/-! Whitespace collapsing and tokenization -/

theorem noSpaceRun_cons (c : Char) (l : List Char) :
    noSpaceRun (c :: l) =
      ((l.head?.all fun d => !(isSplitSpace c && isSplitSpace d)) && noSpaceRun l) := by
  cases l with
  | nil => rfl
  | cons d r => simp [noSpaceRun]

theorem collapseAux_of_noSpaceRun (s : List Char) (h : noSpaceRun s = true) :
    collapseAux false s = s := by
  induction s with
  | nil => rfl
  | cons c cs ih =>
    cases cs with
    | nil =>
      rw [collapseAux]
      split <;> rfl
    | cons d r =>
      simp only [noSpaceRun, Bool.and_eq_true, Bool.not_eq_true', Bool.and_eq_false_iff] at h
      have ih2 := ih h.2
      rw [collapseAux]
      split
      · rename_i hc
        have hd : isSplitSpace d = false := by
          rcases h.1 with h1 | h1
          · rw [hc] at h1; exact absurd h1 (by simp)
          · exact h1
        simp only [hd, Bool.false_eq_true, if_false, ih2]
      · rw [ih2]

theorem collapseAux_noSpaceRun (s : List Char) :
    noSpaceRun (collapseAux false s) = true ∧
      (noSpaceRun (collapseAux true s) = true ∧
        ∀ d ∈ (collapseAux true s).head?, isSplitSpace d = false) := by
  induction s with
  | nil => exact ⟨rfl, rfl, by simp [collapseAux]⟩
  | cons c cs ih =>
    obtain ⟨ihf, iht, ihh⟩ := ih
    have hall : ∀ (o : Option Char), Option.all (fun _ => true) o = true := by
      intro o; cases o <;> rfl
    constructor
    · cases cs with
      | nil =>
        rw [collapseAux]
        split <;> rfl
      | cons d r =>
        rw [collapseAux]
        split
        · rename_i hc
          split
          · rw [noSpaceRun_cons, iht, Bool.and_true]
            cases hh : (collapseAux true (d :: r)).head? with
            | none => rfl
            | some e =>
              have := ihh e (by simp [hh])
              simp [this]
          · rename_i hd
            rw [noSpaceRun_cons, ihf, Bool.and_true]
            have e : collapseAux false (d :: r) = d :: collapseAux false r := by
              cases r with
              | nil => rw [collapseAux]; simp [hd, collapseAux]
              | cons e2 r2 => rw [collapseAux]; simp [hd]
            rw [e]
            simp [hd]
        · rename_i hc
          rw [noSpaceRun_cons, ihf, Bool.and_true]
          simp [hc, hall]
    · rw [collapseAux]
      split
      · exact ⟨iht, ihh⟩
      · rename_i hc
        refine ⟨?_, ?_⟩
        · rw [noSpaceRun_cons, ihf, Bool.and_true]
          simp [hc, hall]
        · intro d hd
          simp at hd
          subst hd
          simpa using hc

/-- C12: whitespace collapsing is idempotent: replacing every run of two or
more characters of the class `[\s\p{Zs}]` by one space and doing so again gives
what doing it once gives. -/
theorem C12_collapse_idempotent (s : List Char) :
    collapseSpaces (collapseSpaces s) = collapseSpaces s := by
  unfold collapseSpaces
  exact collapseAux_of_noSpaceRun _ (collapseAux_noSpaceRun s).1

theorem stringsSplit_no_sep (sep : Char) (s : List Char) :
    ∀ v ∈ stringsSplit sep s, sep ∉ v := by
  induction s with
  | nil => simp [stringsSplit]
  | cons c cs ih =>
    by_cases hc : c = sep
    · subst hc
      intro v hv
      simp only [stringsSplit, if_true, List.mem_cons] at hv
      rcases hv with rfl | hv
      · simp
      · exact ih v hv
    · rw [stringsSplit_cons_ne sep c cs hc]
      have hne := stringsSplit_ne_nil sep cs
      intro v hv
      cases hs : stringsSplit sep cs with
      | nil => exact absurd hs hne
      | cons p ps =>
        rw [hs] at hv ih
        simp only [List.headD_cons, List.tail_cons, List.mem_cons] at hv
        rcases hv with rfl | hv
        · intro hm
          rcases List.mem_cons.1 hm with h | h
          · exact hc h.symm
          · exact ih p (by simp) h
        · exact ih v (by simp [hv])

theorem mem_of_mem_trimSpace (c : Char) (v : List Char) (h : c ∈ trimSpace v) : c ∈ v := by
  unfold trimSpace at h
  rw [List.mem_reverse] at h
  have h1 := (List.dropWhile_sublist unicodeIsSpace).subset h
  rw [List.mem_reverse] at h1
  exact (List.dropWhile_sublist unicodeIsSpace).subset h1

theorem mem_of_mem_trimSuffix (c : Char) (v s : List Char) (h : c ∈ trimSuffix v s) :
    c ∈ v := by
  unfold trimSuffix at h
  split at h
  · exact List.mem_of_mem_take h
  · exact h

theorem mem_of_mem_splitToken (c : Char) (v : List Char) (h : c ∈ (splitToken v).1) :
    c ∈ v := by
  unfold splitToken at h
  split at h
  · exact mem_of_mem_trimSuffix c v _ h
  · exact mem_of_mem_trimSpace c v h

/-- C19, as the code has it: no token in `nameParts` after `splitName` holds the
space character U+0020, the one character on which `splitName` splits. -/
theorem C19_tokens_hold_no_space (p : ParsedName) :
    ∀ t ∈ (splitName p).nameParts, ' ' ∉ t := by
  intro t ht hm
  simp only [splitName, List.mem_map] at ht
  obtain ⟨v, hv, rfl⟩ := ht
  exact stringsSplit_no_sep ' ' _ v hv (mem_of_mem_splitToken ' ' v hm)

/-- The statement of `C19_tokens_hold_no_space` on `"Juan  Xavier"`, at the
token `Xavier`. -/
theorem C19_tokens_hold_no_space_witness :
    "Xavier".toList ∈ (splitName { rawName := "Juan  Xavier".toList }).nameParts ∧
      ' ' ∉ "Xavier".toList :=
  ⟨by decide,
    C19_tokens_hold_no_space { rawName := "Juan  Xavier".toList } "Xavier".toList (by decide)⟩

/-- C19 as stated fails on `"Juan\tXavier"`: one tab is no run of two or more
whitespace characters and no space, so both names stay in one token, which
holds the tab. -/
theorem C19_counterexample :
    (splitName { rawName := "Juan\tXavier".toList }).nameParts = ["Juan\tXavier".toList] ∧
      isSplitSpace '\t' = true ∧ '\t' ∈ "Juan\tXavier".toList := by
  decide

/-! Removal of every occurrence of the values of a list -/

theorem count_diff_eq {α : Type} [BEq α] [LawfulBEq α] (a : α) (l C : List α) :
    (l.diff C).count a = l.count a - C.count a := by
  induction C generalizing l with
  | nil => simp
  | cons b rest ih =>
    rw [List.diff_cons, ih, List.count_erase, List.count_cons]
    by_cases h : b = a
    · subst h; simp; omega
    · have : (b == a) = false := by simpa using h
      simp [this]

theorem sublist_eq_of_count {α : Type} [BEq α] [LawfulBEq α] (r f : List α)
    (hs : List.Sublist r f) (hc : ∀ a, r.count a = f.count a) : r = f := by
  induction hs with
  | slnil => rfl
  | cons a hs _ =>
    rename_i r2 f2
    have h1 := hs.count_le a
    have h2 := hc a
    rw [List.count_cons_self] at h2
    omega
  | cons₂ a hs ih =>
    rename_i r2 f2
    congr 1
    apply ih
    intro b
    have := hc b
    rw [List.count_cons, List.count_cons] at this
    omega

theorem diff_eq_filter {α : Type} [BEq α] [LawfulBEq α] (l C : List α) (P : α → Bool)
    (hC : ∀ a ∈ C, P a = true)
    (hcount : ∀ a ∈ l, P a = true → l.count a ≤ C.count a) :
    l.diff C = l.filter (fun a => !P a) := by
  have hcnt : ∀ a, (l.diff C).count a = (l.filter (fun a => !P a)).count a := by
    intro a
    rw [count_diff_eq]
    by_cases hP : P a = true
    · have h0 : (l.filter (fun a => !P a)).count a = 0 := by
        rw [List.count_eq_zero]
        intro hm
        have := (List.mem_filter.1 hm).2
        simp [hP] at this
      rw [h0]
      by_cases hm : a ∈ l
      · have := hcount a hm hP
        omega
      · have : l.count a = 0 := List.count_eq_zero.2 hm
        omega
    · have hPf : P a = false := by simpa using hP
      have h0 : C.count a = 0 := by
        rw [List.count_eq_zero]
        intro hm
        exact hP (hC a hm)
      rw [h0, List.count_filter (by simp [hPf])]
      omega
  have hsub : List.Sublist (l.diff C) (l.filter (fun a => !P a)) := by
    have h1 : List.Sublist ((l.diff C).filter (fun a => !P a)) (l.filter (fun a => !P a)) :=
      (List.diff_sublist l C).filter _
    have h2 : (l.diff C).filter (fun a => !P a) = l.diff C := by
      rw [List.filter_eq_self]
      intro a ha
      by_cases hP : P a = true
      · have h0 : (l.diff C).count a = 0 := by
          rw [hcnt, List.count_eq_zero]
          intro hm
          have := (List.mem_filter.1 hm).2
          simp [hP] at this
        exact absurd ha (List.count_eq_zero.1 h0)
      · simpa using hP
    rw [h2] at h1
    exact h1
  exact sublist_eq_of_count _ _ hsub hcnt

/-! The lexicon matcher -/

theorem filter_map_const_eq_replicate (l : List (List Char)) (t x : List Char) :
    (l.filter (fun suf => decide (suf = t))).map (fun _ => x) = List.replicate (l.count t) x := by
  have e : l.filter (fun suf => decide (suf = t)) = l.filter (fun suf => suf == t) := by
    apply List.filter_congr
    intro y _
    by_cases hy : y = t
    · subst hy; simp
    · simp [hy]
  rw [e, List.map_const', ← List.countP_eq_length_filter]
  rfl

/-- The number of times the first loop of `findParts` appends the token `t`. -/
theorem collectParts_cons (list : List (List Char)) (t : List Char) (rest : List (List Char)) :
    collectParts list (t :: rest) =
      List.replicate (if t = [] then 0 else list.count (partToCheck t)) t ++
        collectParts list rest := by
  rw [collectParts]
  split
  · simp
  · rw [filter_map_const_eq_replicate]

theorem matchesList_iff (list : List (List Char)) (t : List Char) :
    matchesList list t = true ↔ 0 < (if t = [] then 0 else list.count (partToCheck t)) := by
  unfold matchesList
  by_cases h : t = []
  · simp [h]
  · simp [h, List.count_pos_iff]

theorem collectParts_matches (list : List (List Char)) (parts : List (List Char)) :
    ∀ x ∈ collectParts list parts, matchesList list x = true := by
  induction parts with
  | nil => simp [collectParts]
  | cons t rest ih =>
    intro x hx
    rw [collectParts_cons] at hx
    rcases List.mem_append.1 hx with h | h
    · obtain ⟨hn, rfl⟩ := List.mem_replicate.1 h
      rw [matchesList_iff]
      omega
    · exact ih x h

theorem count_le_count_collectParts (list : List (List Char)) (parts : List (List Char))
    (a : List Char) (ha : matchesList list a = true) :
    parts.count a ≤ (collectParts list parts).count a := by
  induction parts with
  | nil => simp
  | cons t rest ih =>
    rw [collectParts_cons, List.count_append, List.count_cons, List.count_replicate]
    by_cases h : t = a
    · subst h
      have := (matchesList_iff list t).1 ha
      simp
      omega
    · have : (t == a) = false := by simpa using h
      simp [this]
      exact ih

theorem count_le_one_of_nodup (l : List (List Char)) (hn : l.Nodup) (a : List Char) :
    l.count a ≤ 1 := by
  induction l with
  | nil => simp
  | cons b rest ih =>
    rw [List.nodup_cons] at hn
    rw [List.count_cons]
    by_cases h : b = a
    · subst h
      have : rest.count b = 0 := List.count_eq_zero.2 hn.1
      simp [this]
    · have : (b == a) = false := by simpa using h
      simp [this, ih hn.2]

theorem collectParts_of_nodup (list : List (List Char)) (hn : list.Nodup)
    (parts : List (List Char)) :
    collectParts list parts = parts.filter (matchesList list) := by
  induction parts with
  | nil => rfl
  | cons t rest ih =>
    rw [collectParts_cons, ih, List.filter_cons]
    by_cases ht : t = []
    · simp [ht, matchesList]
    · by_cases hm : partToCheck t ∈ list
      · have h1 := count_le_one_of_nodup list hn (partToCheck t)
        have h2 : 0 < list.count (partToCheck t) := List.count_pos_iff.2 hm
        have : list.count (partToCheck t) = 1 := by omega
        simp [ht, hm, matchesList, this]
      · have : list.count (partToCheck t) = 0 := List.count_eq_zero.2 hm
        simp [ht, hm, matchesList, this]

/-- On `suffixList`, which lists no entry twice, `findParts` returns the
matching tokens once per occurrence and in order. -/
theorem collectParts_suffixList (parts : List (List Char)) :
    collectParts suffixList parts = parts.filter (matchesList suffixList) :=
  collectParts_of_nodup suffixList (by decide) parts

/-- C13 fails on `titleList`, which lists `"frau"` twice: the token `"Frau"`
occurs once in `nameParts`, and `findParts` returns it twice, so `Title` is
`"Frau, Frau"`. -/
theorem C13_title_listed_twice_returned_twice :
    (findParts titleList
        { nameParts := ["Frau".toList, "Juan".toList, "Xavier".toList],
          nameCommas := [false, false, false] }).map Prod.fst =
      some ["Frau".toList, "Frau".toList] ∧
    ["Frau".toList, "Juan".toList, "Xavier".toList].filter (matchesList titleList) =
      ["Frau".toList] ∧
    (ParseFullname "Frau Juan Xavier".toList).map (fun p => p.Title) =
      some "Frau, Frau".toList := by
  decide!

/-! One removal of `findParts`, on the token and on its flag -/

theorem findIndexOf_append_cons (x : List Char) (A B : List (List Char)) (h : x ∉ A) :
    findIndexOf x (A ++ x :: B) = (A.length : Int) := by
  induction A with
  | nil => simp [findIndexOf]
  | cons a rest ih =>
    have h1 : x ≠ a := fun e => h (by simp [e])
    have h2 : x ∉ rest := fun e => h (List.mem_cons_of_mem _ e)
    have := ih h2
    rw [List.cons_append, findIndexOf, if_neg h1]
    simp only [this, List.length_cons]
    have : ¬ ((rest.length : Int) < 0) := by omega
    simp only [this, if_false]
    push_cast
    ring

theorem split_at_length {β : Type} (l : List β) (n m : Nat) (h : l.length = n + 1 + m) :
    ∃ CA f CB, l = CA ++ f :: CB ∧ CA.length = n ∧ CB.length = m := by
  induction n generalizing l with
  | zero =>
    cases l with
    | nil => simp only [List.length_nil] at h; omega
    | cons f CB => exact ⟨[], f, CB, rfl, rfl, by simp at h; omega⟩
  | succ n ih =>
    cases l with
    | nil => simp only [List.length_nil] at h; omega
    | cons a rest =>
      obtain ⟨CA, f, CB, e, h1, h2⟩ := ih rest (by simp at h; omega)
      exact ⟨a :: CA, f, CB, by rw [e]; rfl, by simp [h1], h2⟩

/-- One round of the second loop of `findParts`: the first occurrence of `x`
leaves `nameParts`; its flag leaves `nameCommas`, unless the flag is set and
another token follows, in which case the flag of that token leaves instead. -/
theorem removePart_decomp (p : ParsedName) (x : List Char) (A B : List (List Char))
    (CA CB : List Bool) (f : Bool) (hp : p.nameParts = A ++ x :: B) (hx : x ∉ A)
    (hc : p.nameCommas = CA ++ f :: CB) (hA : CA.length = A.length)
    (hB : CB.length = B.length) :
    removePart p x = some
      { p with
        nameParts := A ++ B,
        nameCommas := if f = true ∧ B ≠ [] then CA ++ f :: CB.tail else CA ++ CB } := by
  unfold removePart
  simp only [hp, hc, findIndexOf_append_cons x A B hx]
  have hgt : ((A.length : Int) > -1) := by omega
  simp only [hgt, if_true]
  rw [goSliceTo_eq (A ++ x :: B) _ A.length rfl (by simp),
    goSliceFrom_eq (A ++ x :: B) _ (A.length + 1) (by omega) (by simp),
    goIndex_eq (CA ++ f :: CB) _ A.length rfl]
  have e1 : (CA ++ f :: CB)[A.length]? = some f := by
    rw [← hA, List.getElem?_append_right (le_refl _)]; simp
  have e2 : List.take A.length (A ++ x :: B) = A := by simp
  have e3 : List.drop (A.length + 1) (A ++ x :: B) = B := by
    rw [List.drop_append]; rfl
  simp only [e1, e2, e3, Option.some_bind, Option.bind_eq_bind]
  have hlenC : ∀ g : Bool, (CA ++ g :: CB).length = A.length + 1 + B.length := by
    intro g; simp [hA, hB]; omega
  have e4 : ∀ g : Bool, List.take A.length (CA ++ g :: CB) = CA := by
    intro g; rw [← hA]; simp
  have e5 : ∀ g : Bool, List.drop (A.length + 1) (CA ++ g :: CB) = CB := by
    intro g; rw [← hA, List.drop_append]; rfl
  have e6 : ∀ g : Bool, List.take (A.length + 1) (CA ++ g :: CB) = CA ++ [g] := by
    intro g; rw [← hA, List.take_append]; rfl
  have e7 : ∀ g : Bool, List.drop (A.length + 2) (CA ++ g :: CB) = CB.tail := by
    intro g
    rw [← hA, show CA.length + 2 = CA.length + (1 + 1) from rfl, List.drop_append]
    cases CB <;> rfl
  cases f with
  | false =>
    simp only [Bool.false_eq_true, false_and, if_false]
    rw [goSliceTo_eq (CA ++ false :: CB) _ A.length rfl (by rw [hlenC]; omega),
      goSliceFrom_eq (CA ++ false :: CB) _ (A.length + 1) (by omega) (by rw [hlenC]; omega),
      e4, e5]
    rfl
  | true =>
    by_cases hBn : B = []
    · have hlen : (A.length : Int) = ((CA ++ true :: CB).length : Int) - 1 := by
        rw [hlenC, hBn]; simp
      simp only [hlen, ne_eq, not_true_eq_false, and_false, if_false, hBn]
      rw [← hlen,
        goSliceTo_eq (CA ++ true :: CB) _ A.length rfl (by rw [hlenC]; omega),
        goSliceFrom_eq (CA ++ true :: CB) _ (A.length + 1) (by omega) (by rw [hlenC]; omega),
        e4, e5]
      rfl
    · have hBl : 0 < B.length := List.length_pos.2 hBn
      have hlen : (A.length : Int) ≠ ((CA ++ true :: CB).length : Int) - 1 := by
        rw [hlenC]; push_cast; omega
      simp only [hlen, ne_eq, not_false_eq_true, and_self, if_true, hBn]
      rw [goSliceTo_eq (CA ++ true :: CB) _ (A.length + 1) (by omega) (by rw [hlenC]; omega),
        goSliceFrom_eq (CA ++ true :: CB) _ (A.length + 2) (by omega) (by rw [hlenC]; omega),
        e6, e7]
      simp

theorem removePart_absent (p : ParsedName) (x : List Char) (hx : x ∉ p.nameParts) :
    removePart p x = some p := by
  simp [removePart, findIndexOf_neg_of_not_mem x p.nameParts hx]

theorem removePart_erase (p : ParsedName) (x : List Char) (hs : Synced p) :
    ∃ cs, removePart p x = some { p with nameParts := p.nameParts.erase x, nameCommas := cs } ∧
      (p.nameParts.erase x).length = cs.length := by
  unfold Synced at hs
  by_cases hx : x ∈ p.nameParts
  · obtain ⟨A, B, hp, hA⟩ := List.eq_append_cons_of_mem hx
    obtain ⟨CA, f, CB, hc, h1, h2⟩ := split_at_length p.nameCommas A.length B.length (by
      rw [← hs, hp]; simp; omega)
    refine ⟨if f = true ∧ B ≠ [] then CA ++ f :: CB.tail else CA ++ CB, ?_, ?_⟩
    · rw [removePart_decomp p x A B CA CB f hp hA hc h1 h2, hp,
        List.erase_append_right _ hA, List.erase_cons_head]
    · rw [hp, List.erase_append_right _ hA, List.erase_cons_head]
      split
      · rename_i hf
        have : 0 < B.length := List.length_pos.2 hf.2
        simp; omega
      · simp; omega
  · exact ⟨p.nameCommas, by rw [removePart_absent p x hx, List.erase_of_not_mem hx], by
      rw [List.erase_of_not_mem hx]; exact hs⟩

theorem removeParts_diff (xs : List (List Char)) (p : ParsedName) (hs : Synced p) :
    ∃ cs, removeParts xs p = some { p with nameParts := p.nameParts.diff xs, nameCommas := cs } ∧
      (p.nameParts.diff xs).length = cs.length := by
  induction xs generalizing p with
  | nil => exact ⟨p.nameCommas, rfl, hs⟩
  | cons x rest ih =>
    obtain ⟨cs, h1, h2⟩ := removePart_erase p x hs
    obtain ⟨cs2, h3, h4⟩ := ih { p with nameParts := p.nameParts.erase x, nameCommas := cs } h2
    refine ⟨cs2, ?_, ?_⟩
    · rw [removeParts, h1, Option.some_bind, h3, List.diff_cons]
    · rw [List.diff_cons]; exact h4

/-- The token sequence after `findParts`, with the list it returns. -/
theorem findParts_filter (list : List (List Char)) (p : ParsedName) (hs : Synced p) :
    ∃ cs, findParts list p = some (collectParts list p.nameParts,
        { p with
          nameParts := p.nameParts.filter (fun t => !matchesList list t),
          nameCommas := cs }) ∧
      (p.nameParts.filter (fun t => !matchesList list t)).length = cs.length := by
  obtain ⟨cs, h1, h2⟩ := removeParts_diff (collectParts list p.nameParts) p hs
  have e := diff_eq_filter p.nameParts (collectParts list p.nameParts) (matchesList list)
    (collectParts_matches list p.nameParts)
    (fun a _ ha => count_le_count_collectParts list p.nameParts a ha)
  rw [e] at h1 h2
  exact ⟨cs, by rw [findParts, h1]; rfl, h2⟩

/-- C14: after `findParts`, `nameParts` is the sub-sequence of the tokens that
do not match the list, in their order, whichever the list (`suffixList` or
`titleList`) and whatever tokens are repeated or empty. -/
theorem C14_findParts_keeps_unmatched (list : List (List Char)) (p : ParsedName)
    (hs : Synced p) :
    ∃ found q, findParts list p = some (found, q) ∧
      q.nameParts = p.nameParts.filter (fun t => !matchesList list t) := by
  obtain ⟨cs, h, _⟩ := findParts_filter list p hs
  exact ⟨_, _, h, rfl⟩

/-- The statement of `C14_findParts_keeps_unmatched` on the suffix pass over
tokens with a repeated suffix and an empty token. -/
theorem C14_findParts_keeps_unmatched_witness :
    ∃ found q, findParts suffixList
        { nameParts := ["Jr.".toList, "Juan".toList, [], "Jr.".toList, "Xavier".toList],
          nameCommas := [false, false, false, true, false] } = some (found, q) ∧
      q.nameParts =
        ["Jr.".toList, "Juan".toList, [], "Jr.".toList, "Xavier".toList].filter
          (fun t => !matchesList suffixList t) :=
  C14_findParts_keeps_unmatched suffixList
    { nameParts := ["Jr.".toList, "Juan".toList, [], "Jr.".toList, "Xavier".toList],
      nameCommas := [false, false, false, true, false] } rfl

/-! The flags through `findParts` -/

theorem keepPairs_append_congr (list : List (List Char)) (P L M : List (List Char × Bool))
    (h : ∀ c, keepPairs list c L = keepPairs list c M) (c : Bool) :
    keepPairs list c (P ++ L) = keepPairs list c (P ++ M) := by
  induction P generalizing c with
  | nil => exact h c
  | cons z rest ih =>
    obtain ⟨t, f⟩ := z
    simp only [List.cons_append, keepPairs]
    split
    · exact ih _
    · exact congrArg _ (ih false)

theorem keepPairs_drop_unflagged (list : List (List Char)) (x : List Char)
    (hx : matchesList list x = true) (Q : List (List Char × Bool)) (c : Bool) :
    keepPairs list c ((x, false) :: Q) = keepPairs list c Q := by
  simp only [keepPairs, hx, if_true, Bool.or_false]

theorem keepPairs_drop_flagged (list : List (List Char)) (x : List Char)
    (hx : matchesList list x = true) (b : List Char) (fb : Bool)
    (R : List (List Char × Bool)) (c : Bool) :
    keepPairs list c ((x, true) :: (b, fb) :: R) = keepPairs list c ((b, true) :: R) := by
  simp only [keepPairs, hx, if_true, Bool.or_true, Bool.true_or]

theorem keepPairs_drop_last (list : List (List Char)) (x : List Char)
    (hx : matchesList list x = true) (f c : Bool) :
    keepPairs list c [(x, f)] = keepPairs list c [] := by
  simp only [keepPairs, hx, if_true]

theorem keepPairs_of_no_match (list : List (List Char)) (l : List (List Char × Bool))
    (h : ∀ z ∈ l, matchesList list z.1 = false) : keepPairs list false l = l := by
  induction l with
  | nil => rfl
  | cons z rest ih =>
    obtain ⟨t, f⟩ := z
    have ht : matchesList list t = false := h (t, f) (List.mem_cons_self _ _)
    simp only [keepPairs, ht, Bool.false_or]
    rw [ih (fun z hz => h z (List.mem_cons_of_mem _ hz))]
    simp

theorem keepPairs_eq_filter_iff (list : List (List Char)) (l : List (List Char × Bool))
    (c : Bool) :
    keepPairs list c l = l.filter (fun z => !matchesList list z.1) ↔
      flagsStay list c l = true := by
  induction l generalizing c with
  | nil => simp [keepPairs, flagsStay]
  | cons z rest ih =>
    obtain ⟨t, f⟩ := z
    by_cases ht : matchesList list t = true
    · simp only [keepPairs, flagsStay, ht, if_true, List.filter_cons, Bool.not_true]
      exact ih _
    · have ht2 : matchesList list t = false := by simpa using ht
      simp only [keepPairs, flagsStay, ht2, List.filter_cons, Bool.not_false, if_true,
        List.cons.injEq, Prod.mk.injEq, true_and, Bool.and_eq_true, ih false]
      simp only [Bool.false_eq_true, if_false, List.cons.injEq, Prod.mk.injEq, true_and,
        Bool.and_eq_true, ih false]
      constructor
      · rintro ⟨h1, h2⟩
        refine ⟨?_, h2⟩
        cases c <;> cases f <;> simp_all
      · rintro ⟨h1, h2⟩
        refine ⟨?_, h2⟩
        cases c <;> cases f <;> simp_all

theorem removePart_keepPairs (list : List (List Char)) (p : ParsedName) (x : List Char)
    (hs : Synced p) (hx : matchesList list x = true) :
    ∃ ps cs, removePart p x = some { p with nameParts := ps, nameCommas := cs } ∧
      ps.length = cs.length ∧
      ∀ c, keepPairs list c (ps.zip cs) = keepPairs list c (p.nameParts.zip p.nameCommas) := by
  unfold Synced at hs
  by_cases hm : x ∈ p.nameParts
  · obtain ⟨A, B, hp, hA⟩ := List.eq_append_cons_of_mem hm
    obtain ⟨CA, f, CB, hc, h1, h2⟩ := split_at_length p.nameCommas A.length B.length (by
      rw [← hs, hp]; simp; omega)
    have hz : p.nameParts.zip p.nameCommas = A.zip CA ++ (x, f) :: B.zip CB := by
      rw [hp, hc, List.zip_append h1.symm, List.zip_cons_cons]
    have hrm := removePart_decomp p x A B CA CB f hp hA hc h1 h2
    cases f with
    | false =>
      refine ⟨A ++ B, CA ++ CB, ?_, by simp [h1, h2], ?_⟩
      · rw [hrm]; simp
      · intro c
        rw [hz, List.zip_append h1.symm]
        exact keepPairs_append_congr list _ _ _
          (fun d => (keepPairs_drop_unflagged list x hx _ d).symm) c
    | true =>
      cases B with
      | nil =>
        have hCB : CB = [] := List.length_eq_zero.1 (by simpa using h2)
        subst hCB
        refine ⟨A ++ [], CA ++ [], ?_, by simp [h1], ?_⟩
        · rw [hrm]; simp
        · intro c
          rw [hz, List.zip_append h1.symm]
          exact keepPairs_append_congr list _ _ _
            (fun d => (keepPairs_drop_last list x hx true d).symm) c
      | cons b B2 =>
        cases CB with
        | nil => simp at h2
        | cons fb CB2 =>
          refine ⟨A ++ b :: B2, CA ++ true :: CB2, ?_, ?_, ?_⟩
          · rw [hrm]; simp
          · simp only [List.length_append, List.length_cons] at h2 ⊢
            omega
          · intro c
            rw [hz, List.zip_append h1.symm, List.zip_cons_cons, List.zip_cons_cons]
            exact keepPairs_append_congr list _ _ _
              (fun d => (keepPairs_drop_flagged list x hx b fb _ d).symm) c
  · exact ⟨p.nameParts, p.nameCommas, removePart_absent p x hm, hs, fun _ => rfl⟩

theorem removeParts_keepPairs (list : List (List Char)) (xs : List (List Char))
    (p : ParsedName) (hs : Synced p) (hx : ∀ x ∈ xs, matchesList list x = true) :
    ∃ ps cs, removeParts xs p = some { p with nameParts := ps, nameCommas := cs } ∧
      ps.length = cs.length ∧
      ∀ c, keepPairs list c (ps.zip cs) = keepPairs list c (p.nameParts.zip p.nameCommas) := by
  induction xs generalizing p with
  | nil => exact ⟨p.nameParts, p.nameCommas, rfl, hs, fun _ => rfl⟩
  | cons x rest ih =>
    obtain ⟨ps, cs, h1, h2, h3⟩ := removePart_keepPairs list p x hs (hx x (by simp))
    obtain ⟨ps2, cs2, h4, h5, h6⟩ := ih { p with nameParts := ps, nameCommas := cs } h2
      (fun y hy => hx y (List.mem_cons_of_mem _ hy))
    refine ⟨ps2, cs2, ?_, h5, fun c => ?_⟩
    · rw [removeParts, h1, Option.some_bind, h4]
    · rw [h6 c]
      exact h3 c

theorem findParts_keepPairs (list : List (List Char)) (p : ParsedName) (hs : Synced p) :
    ∃ q, findParts list p = some (collectParts list p.nameParts, q) ∧
      q.nameParts.zip q.nameCommas = keepPairs list false (p.nameParts.zip p.nameCommas) := by
  obtain ⟨ps, cs, h1, _, h3⟩ := removeParts_keepPairs list (collectParts list p.nameParts) p hs
    (collectParts_matches list p.nameParts)
  obtain ⟨cs2, h4, _⟩ := findParts_filter list p hs
  have h5 : findParts list p = some (collectParts list p.nameParts,
      { p with nameParts := ps, nameCommas := cs }) := by
    rw [findParts, h1]; rfl
  have hps : ps = p.nameParts.filter (fun t => !matchesList list t) := by
    rw [h5] at h4
    simp only [Option.some.injEq, Prod.mk.injEq, true_and] at h4
    exact congrArg ParsedName.nameParts h4
  refine ⟨_, h5, ?_⟩
  show ps.zip cs = _
  rw [← h3 false]
  refine (keepPairs_of_no_match list _ ?_).symm
  intro z hz
  have hz1 : z.1 ∈ ps := (List.of_mem_zip (show (z.1, z.2) ∈ ps.zip cs from hz)).1
  rw [hps] at hz1
  simpa using (List.mem_filter.1 hz1).2

/-- C15, as amended: on synchronised sequences `findParts` returns, and the
(token, flag) pairs it leaves are those of `keepPairs`: the non-matching tokens
in their order, each with its own flag or the flag of a token of the unbroken
run of removed tokens just before it.  So the pairs after the pass are the
pairs of the surviving tokens before it exactly when no surviving token with
flag `false` comes directly after such a run that holds a flag (`flagsStay`). -/
theorem C15_flags_after_findParts (list : List (List Char)) (p : ParsedName)
    (hs : Synced p) :
    ∃ found q, findParts list p = some (found, q) ∧
      q.nameParts.zip q.nameCommas = keepPairs list false (p.nameParts.zip p.nameCommas) ∧
      (q.nameParts.zip q.nameCommas =
          (p.nameParts.zip p.nameCommas).filter (fun z => !matchesList list z.1) ↔
        flagsStay list false (p.nameParts.zip p.nameCommas) = true) := by
  obtain ⟨q, h1, h2⟩ := findParts_keepPairs list p hs
  refine ⟨_, q, h1, h2, ?_⟩
  rw [h2]
  exact keepPairs_eq_filter_iff list _ false

/-- The statement of `C15_flags_after_findParts` on the suffix pass over the
tokens of `"Juan Xavier III, Jr."`: the flagged `III` is removed, no surviving
token follows it, and the pairs of `Juan` and `Xavier` are kept. -/
theorem C15_flags_after_findParts_witness :
    keepPairs suffixList false
        (["Juan".toList, "Xavier".toList, "III".toList, "Jr.".toList].zip
          [false, false, true, false]) =
      [("Juan".toList, false), ("Xavier".toList, false)] ∧
    flagsStay suffixList false
        (["Juan".toList, "Xavier".toList, "III".toList, "Jr.".toList].zip
          [false, false, true, false]) = true ∧
    ∃ found q, findParts suffixList
        { nameParts := ["Juan".toList, "Xavier".toList, "III".toList, "Jr.".toList],
          nameCommas := [false, false, true, false] } = some (found, q) ∧
      q.nameParts.zip q.nameCommas = keepPairs suffixList false
        (["Juan".toList, "Xavier".toList, "III".toList, "Jr.".toList].zip
          [false, false, true, false]) ∧
      (q.nameParts.zip q.nameCommas =
          (["Juan".toList, "Xavier".toList, "III".toList, "Jr.".toList].zip
            [false, false, true, false]).filter (fun z => !matchesList suffixList z.1) ↔
        flagsStay suffixList false
          (["Juan".toList, "Xavier".toList, "III".toList, "Jr.".toList].zip
            [false, false, true, false]) = true) :=
  ⟨by decide, by decide, C15_flags_after_findParts suffixList
    { nameParts := ["Juan".toList, "Xavier".toList, "III".toList, "Jr.".toList],
      nameCommas := [false, false, true, false] } rfl⟩

/-- C15 as stated fails on the suffix pass over `"Jr., Juan Xavier"`: `"Juan"`
was not followed by a comma, and after the pass it carries the flag of the
removed `"Jr."`. -/
theorem C15_counterexample :
    (findParts suffixList
        { nameParts := ["Jr.".toList, "Juan".toList, "Xavier".toList],
          nameCommas := [true, false, false] }).map
      (fun r => r.2.nameParts.zip r.2.nameCommas) =
      some [("Juan".toList, true), ("Xavier".toList, false)] ∧
    (["Jr.".toList, "Juan".toList, "Xavier".toList].zip [true, false, false]).filter
        (fun z => !matchesList suffixList z.1) =
      [("Juan".toList, false), ("Xavier".toList, false)] := by
  decide

/-! The extra-suffix loop -/

theorem extraSuffixesLoop_spec (mid : List (List Char × Bool)) :
    ∀ (hd : List (List Char)) (hc : List Bool) (R : List (List Char)) (D : List Bool)
      (ex : List (List Char)) (p : ParsedName),
      p.nameParts = hd ++ (mid.map Prod.fst ++ R) →
      p.nameCommas = hc ++ (mid.map Prod.snd ++ D) →
      hd.length = 2 → hc.length = 2 →
      extraSuffixesLoop mid.length (ex, p) = some
        (ex ++ ((mid.filter (fun z => z.2)).reverse.map Prod.fst),
         { p with
           nameParts := hd ++ ((mid.filter (fun z => !z.2)).map Prod.fst ++ R),
           nameCommas := hc ++ ((mid.filter (fun z => !z.2)).map Prod.snd ++ D) }) := by
  induction mid using List.reverseRecOn with
  | nil =>
    intro hd hc R D ex p hp hcm _ _
    simp only [List.map_nil, List.nil_append, List.filter_nil, List.reverse_nil,
      List.append_nil, List.length_nil, extraSuffixesLoop] at hp hcm ⊢
    rw [← hp, ← hcm]
  | append_singleton m z ih =>
    intro hd hc R D ex p hp hcm h1 h2
    obtain ⟨t, f⟩ := z
    have hlen : (m ++ [(t, f)]).length = m.length + 1 := by simp
    rw [hlen, extraSuffixesLoop]
    simp only [List.map_append, List.map_cons, List.map_nil, List.append_assoc,
      List.singleton_append] at hp hcm
    have hi : hd.length + (m.map Prod.fst).length = m.length + 2 := by simp [h1]; omega
    have hic : hc.length + (m.map Prod.snd).length = m.length + 2 := by simp [h2]; omega
    have eP : p.nameParts = (hd ++ m.map Prod.fst) ++ t :: R := by rw [hp]; simp
    have eC : p.nameCommas = (hc ++ m.map Prod.snd) ++ f :: D := by rw [hcm]; simp
    have hlP : (hd ++ m.map Prod.fst).length = m.length + 2 := by simp [h1]; omega
    have hlC : (hc ++ m.map Prod.snd).length = m.length + 2 := by simp [h2]; omega
    have g1 : p.nameCommas[m.length + 2]? = some f := by
      rw [eC, ← hlC, List.getElem?_append_right (le_refl _)]; simp
    have g2 : p.nameParts[m.length + 2]? = some t := by
      rw [eP, ← hlP, List.getElem?_append_right (le_refl _)]; simp
    rw [goIndex_eq p.nameCommas _ (m.length + 2) (by omega), g1]
    simp only [Option.some_bind, Option.bind_eq_bind]
    cases f with
    | true =>
      simp only [if_true]
      rw [goIndex_eq p.nameParts _ (m.length + 2) (by omega), g2]
      simp only [Option.some_bind]
      rw [goSliceTo_eq p.nameParts _ (m.length + 2) (by omega) (by rw [eP]; simp; omega),
        goSliceFrom_eq p.nameParts _ (m.length + 3) (by omega) (by rw [eP]; simp; omega),
        goSliceTo_eq p.nameCommas _ (m.length + 2) (by omega) (by rw [eC]; simp; omega),
        goSliceFrom_eq p.nameCommas _ (m.length + 3) (by omega) (by rw [eC]; simp; omega)]
      simp only [Option.some_bind]
      have t1 : List.take (m.length + 2) p.nameParts = hd ++ m.map Prod.fst := by
        rw [eP]; exact List.take_left' hlP
      have t2 : List.drop (m.length + 3) p.nameParts = R := by
        rw [eP, show m.length + 3 = (hd ++ m.map Prod.fst).length + 1 by omega,
          List.drop_append]; rfl
      have t3 : List.take (m.length + 2) p.nameCommas = hc ++ m.map Prod.snd := by
        rw [eC]; exact List.take_left' hlC
      have t4 : List.drop (m.length + 3) p.nameCommas = D := by
        rw [eC, show m.length + 3 = (hc ++ m.map Prod.snd).length + 1 by omega,
          List.drop_append]; rfl
      rw [t1, t2, t3, t4]
      have := ih hd hc R D (ex ++ [t])
        { p with
          nameParts := hd ++ m.map Prod.fst ++ R,
          nameCommas := hc ++ m.map Prod.snd ++ D } (by simp) (by simp) h1 h2
      rw [this]
      simp [List.filter_append]
    | false =>
      simp only [Bool.false_eq_true, if_false]
      have := ih hd hc (t :: R) (false :: D) ex p (by rw [hp]) (by rw [hcm]) h1 h2
      rw [this]
      simp [List.filter_append]

theorem commasCount_le_length (l : List Bool) : commasCount l ≤ l.length := by
  unfold commasCount
  exact List.length_filter_le _ _

/-- What `findExtraSuffixes` returns and leaves, on synchronised sequences. -/
theorem findExtraSuffixes_exact (p : ParsedName) (hs : Synced p) :
    findExtraSuffixes p = some
      (if 2 ≤ commasCount p.nameCommas then
        ((((p.nameParts.zip p.nameCommas).drop 2).filter (fun z => z.2)).reverse.map Prod.fst,
         { p with
           nameParts := p.nameParts.take 2 ++
             (((p.nameParts.zip p.nameCommas).drop 2).filter (fun z => !z.2)).map Prod.fst,
           nameCommas := p.nameCommas.take 2 ++
             (((p.nameParts.zip p.nameCommas).drop 2).filter (fun z => !z.2)).map Prod.snd })
       else ([], p)) := by
  unfold Synced at hs
  unfold findExtraSuffixes
  by_cases hc : 2 ≤ commasCount p.nameCommas
  · have hgt : commasCount p.nameCommas > 1 := hc
    have hlen := commasCount_le_length p.nameCommas
    simp only [hgt, hc, if_true]
    have hz : (p.nameParts.zip p.nameCommas).drop 2 =
        (p.nameParts.drop 2).zip (p.nameCommas.drop 2) := by
      unfold List.zip
      exact List.drop_zipWith
    have hl2 : ((p.nameParts.zip p.nameCommas).drop 2).length = p.nameParts.length - 2 := by
      simp; omega
    have hf : ((p.nameParts.zip p.nameCommas).drop 2).map Prod.fst = p.nameParts.drop 2 := by
      rw [hz, List.map_fst_zip]; simp; omega
    have hsn : ((p.nameParts.zip p.nameCommas).drop 2).map Prod.snd = p.nameCommas.drop 2 := by
      rw [hz, List.map_snd_zip]; simp; omega
    have := extraSuffixesLoop_spec ((p.nameParts.zip p.nameCommas).drop 2)
      (p.nameParts.take 2) (p.nameCommas.take 2) [] [] [] p
      (by rw [hf]; simp) (by rw [hsn]; simp) (by simp; omega) (by simp; omega)
    rw [hl2] at this
    rw [this]
    simp
  · have hgt : ¬ commasCount p.nameCommas > 1 := by omega
    simp only [hgt, hc, if_false]

/-- C18: on synchronised sequences with at least two flags set,
`findExtraSuffixes` returns the tokens at the indices from 2 on whose flag is
set, from the highest index down, and leaves the other entries of both
sequences in their order, the first two untouched; with fewer than two flags
set it returns the empty list and changes nothing. -/
theorem C18_extra_suffixes (p : ParsedName) (hs : Synced p) :
    findExtraSuffixes p = some
      (if 2 ≤ commasCount p.nameCommas then
        ((((p.nameParts.zip p.nameCommas).drop 2).filter (fun z => z.2)).reverse.map Prod.fst,
         { p with
           nameParts := p.nameParts.take 2 ++
             (((p.nameParts.zip p.nameCommas).drop 2).filter (fun z => !z.2)).map Prod.fst,
           nameCommas := p.nameCommas.take 2 ++
             (((p.nameParts.zip p.nameCommas).drop 2).filter (fun z => !z.2)).map Prod.snd })
       else ([], p)) := by
  have h := findExtraSuffixes_exact p hs
  by_cases hc : 2 ≤ commasCount p.nameCommas
  · rw [if_pos hc] at h ⊢
    exact h
  · rw [if_neg hc] at h ⊢
    exact h

/-- The statement of `C18_extra_suffixes` on the tokens of
`"Vega, Juan Xavier Jr., Genius,"`. -/
theorem C18_extra_suffixes_witness :
    findExtraSuffixes
        { nameParts := ["Vega".toList, "Juan".toList, "Xavier".toList, "Jr.".toList,
            "Genius".toList],
          nameCommas := [true, false, false, true, true] } = some
      (["Genius".toList, "Jr.".toList],
       { nameParts := ["Vega".toList, "Juan".toList, "Xavier".toList],
         nameCommas := [true, false, false] }) :=
  C18_extra_suffixes
    { nameParts := ["Vega".toList, "Juan".toList, "Xavier".toList, "Jr.".toList,
        "Genius".toList],
      nameCommas := [true, false, false, true, true] } rfl

/-! Regrouping of tokens -/

theorem stringsJoin_cons_ne_nil (v : List Char) (vs : List (List Char)) (sep : List Char)
    (h : vs ≠ []) : stringsJoin (v :: vs) sep = v ++ sep ++ stringsJoin vs sep := by
  obtain ⟨w, ws, rfl⟩ := List.exists_cons_of_ne_nil h
  exact stringsJoin_cons_cons v w ws sep

theorem stringsJoin_merge (A B : List (List Char)) (x y sep : List Char) :
    stringsJoin (A ++ (x ++ sep ++ y) :: B) sep = stringsJoin (A ++ x :: y :: B) sep := by
  induction A with
  | nil =>
    cases B with
    | nil => simp [stringsJoin_singleton, stringsJoin_cons_cons]
    | cons b rest =>
      simp [stringsJoin_cons_cons]
  | cons a rest ih =>
    rw [List.cons_append, List.cons_append, stringsJoin_cons_ne_nil _ _ _ (by simp),
      stringsJoin_cons_ne_nil _ _ _ (by simp), ih]

theorem Regroup.join_eq {a b : List (List Char)} (h : Regroup a b) :
    stringsJoin b [' '] = stringsJoin a [' '] := by
  induction h with
  | refl => rfl
  | merge A B x y _ ih => rw [stringsJoin_merge, ih]

theorem Regroup.trans {a b c : List (List Char)} (h1 : Regroup a b) (h2 : Regroup b c) :
    Regroup a c := by
  induction h2 with
  | refl => exact h1
  | merge A B x y _ ih => exact Regroup.merge _ A B x y ih

theorem Regroup.cons (t : List Char) {a b : List (List Char)} (h : Regroup a b) :
    Regroup (t :: a) (t :: b) := by
  induction h with
  | refl => exact Regroup.refl _
  | merge A B x y _ ih => exact Regroup.merge _ (t :: A) B x y ih

theorem TokenJoin.merge {toks : List (List Char)} {x y : List Char}
    (hx : TokenJoin toks x) (hy : TokenJoin toks y) : TokenJoin toks (x ++ [' '] ++ y) := by
  obtain ⟨s1, n1, m1, rfl⟩ := hx
  obtain ⟨s2, n2, m2, rfl⟩ := hy
  refine ⟨s1 ++ s2, by simp [n1], ?_, (stringsJoin_append s1 s2 [' '] n1 n2).symm⟩
  intro z hz
  rcases List.mem_append.1 hz with h | h
  · exact m1 z h
  · exact m2 z h

theorem Regroup.tokens {toks a b : List (List Char)} (h : Regroup a b)
    (ha : ∀ x ∈ a, TokenJoin toks x) : ∀ x ∈ b, TokenJoin toks x := by
  induction h with
  | refl => exact ha
  | merge A B x y _ ih =>
    intro z hz
    rcases List.mem_append.1 hz with h | h
    · exact ih z (by simp [h])
    · rcases List.mem_cons.1 h with rfl | h
      · exact TokenJoin.merge (ih x (by simp)) (ih y (by simp))
      · exact ih z (by simp [h])

theorem Regroup.eq_nil_iff {a b : List (List Char)} (h : Regroup a b) : b = [] ↔ a = [] := by
  induction h with
  | refl => rfl
  | merge A B x y _ ih =>
    constructor
    · intro h; simp at h
    · intro h
      have := ih.2 h
      simp at this

/-! Prefix joining -/

theorem mergeStep_ne_nil (t : List Char) (acc : List (List Char)) : mergeStep t acc ≠ [] := by
  unfold mergeStep
  split
  · split <;> simp
  · simp

theorem mergeStep_cons_of_not_mem (t : List Char) (acc : List (List Char))
    (h : t ∉ prefixList) : mergeStep t acc = t :: acc := by
  simp [mergeStep, h]

theorem mergeStep_cons_of_mem (t r : List Char) (rs : List (List Char)) (h : t ∈ prefixList) :
    mergeStep t (r :: rs) = (t ++ [' '] ++ r) :: rs := by
  simp [mergeStep, h]

theorem regroup_mergeStep (t : List Char) (acc : List (List Char)) :
    Regroup (t :: acc) (mergeStep t acc) := by
  unfold mergeStep
  split
  · cases acc with
    | nil => exact Regroup.refl _
    | cons r rs => exact Regroup.merge _ [] rs t r (Regroup.refl _)
  · exact Regroup.refl _

theorem regroup_mergePrefixes (parts : List (List Char)) :
    Regroup parts (mergePrefixes parts) := by
  induction parts with
  | nil => exact Regroup.refl _
  | cons t rest ih =>
    exact (Regroup.cons t ih).trans (regroup_mergeStep t (mergePrefixes rest))

theorem joinPrefixesInner_merge (prefs : List (List Char)) (hp : ∀ x ∈ prefs, ' ' ∉ x)
    (p : ParsedName) (A B : List (List Char)) (t r : List Char) (CA CB : List Bool) (c : Bool)
    (hparts : p.nameParts = A ++ t :: r :: B) (hcommas : p.nameCommas = CA ++ c :: CB)
    (hA : CA.length = A.length) (ht : t ∈ prefs) :
    joinPrefixesInner (A.length : Int) prefs p = some
      { p with nameParts := A ++ (t ++ [' '] ++ r) :: B, nameCommas := CA ++ CB } := by
  induction prefs with
  | nil => simp at ht
  | cons a rest ih =>
    have g0 : p.nameParts[A.length]? = some t := by
      rw [hparts, List.getElem?_append_right (le_refl _)]; simp
    rw [joinPrefixesInner, goIndex_eq p.nameParts _ A.length rfl, g0]
    simp only [Option.some_bind, Option.bind_eq_bind]
    by_cases h : a = t
    · subst h
      simp only [if_true]
      have g1 : p.nameParts[A.length + 1]? = some r := by
        rw [hparts, List.getElem?_append_right (by omega)]; simp
      have hlen : p.nameParts.length = A.length + 2 + B.length := by
        rw [hparts]; simp; omega
      have hlenc : p.nameCommas.length = A.length + 1 + CB.length := by
        rw [hcommas]; simp; omega
      rw [goIndex_eq p.nameParts _ (A.length + 1) (by omega), g1]
      simp only [Option.some_bind]
      rw [goSet_eq p.nameParts _ A.length _ rfl (by omega)]
      simp only [Option.some_bind]
      have hset : p.nameParts.set A.length (a ++ [' '] ++ r) =
          (A ++ [a ++ [' '] ++ r]) ++ r :: B := by
        rw [hparts]; simp
      rw [hset,
        goSliceTo_eq _ _ (A.length + 1) (by omega) (by simp),
        goSliceFrom_eq _ _ (A.length + 2) (by omega) (by simp),
        goSliceTo_eq p.nameCommas _ A.length rfl (by omega),
        goSliceFrom_eq p.nameCommas _ (A.length + 1) (by omega) (by omega)]
      simp only [Option.some_bind]
      have t1 : List.take (A.length + 1) ((A ++ [a ++ [' '] ++ r]) ++ r :: B) =
          A ++ [a ++ [' '] ++ r] := List.take_left' (by simp)
      have t2 : List.drop (A.length + 2) ((A ++ [a ++ [' '] ++ r]) ++ r :: B) = B := by
        rw [show A.length + 2 = (A ++ [a ++ [' '] ++ r]).length + 1 by simp,
          List.drop_append]; rfl
      have t3 : List.take A.length p.nameCommas = CA := by
        rw [hcommas]; exact List.take_left' hA
      have t4 : List.drop (A.length + 1) p.nameCommas = CB := by
        rw [hcommas, ← hA, List.drop_append]; rfl
      rw [t1, t2, t3, t4]
      have hm : a ++ [' '] ++ r ∉ rest := by
        intro hm
        have := hp _ (List.mem_cons_of_mem _ hm)
        simp at this
      have g2 : (A ++ [a ++ [' '] ++ r] ++ B)[A.length]? = some (a ++ [' '] ++ r) := by
        rw [List.append_assoc, List.getElem?_append_right (le_refl _)]; simp
      rw [joinPrefixesInner_id rest A.length _ (a ++ [' '] ++ r) g2 hm]
      simp
    · simp only [h, if_false]
      have ht2 : t ∈ rest := by
        rcases List.mem_cons.1 ht with h2 | h2
        · exact absurd h2.symm h
        · exact h2
      exact ih (fun x hx => hp x (List.mem_cons_of_mem _ hx)) ht2

theorem joinPrefixesLoop_spec (xs : List (List Char)) :
    ∀ (ys : List (List Char)) (p : ParsedName), p.nameParts = xs ++ ys → ys ≠ [] →
      Synced p →
      ∃ cs, joinPrefixesLoop xs.length p = some
          { p with nameParts := xs.foldr mergeStep ys, nameCommas := cs } ∧
        (xs.foldr mergeStep ys).length = cs.length := by
  induction xs using List.reverseRecOn with
  | nil =>
    intro ys p hp _ hs
    refine ⟨p.nameCommas, ?_, ?_⟩
    · simp only [List.length_nil, joinPrefixesLoop, List.foldr_nil]
      rw [List.nil_append] at hp
      rw [← hp]
    · simp only [List.foldr_nil]
      rw [List.nil_append] at hp
      rw [← hp]; exact hs
  | append_singleton m t ih =>
    intro ys p hp hys hs
    unfold Synced at hs
    obtain ⟨r, B, rfl⟩ := List.exists_cons_of_ne_nil hys
    have hp2 : p.nameParts = m ++ t :: r :: B := by rw [hp]; simp
    have hlen : (m ++ [t]).length = m.length + 1 := by simp
    rw [hlen, joinPrefixesLoop, List.foldr_append, List.foldr_cons, List.foldr_nil]
    by_cases ht : t ∈ prefixList
    · obtain ⟨CA, c, CB, hc, h1, h2⟩ :=
        split_at_length p.nameCommas m.length (B.length + 1) (by rw [← hs, hp2]; simp; omega)
      rw [joinPrefixesInner_merge prefixList prefixList_no_space p m B t r CA CB c hp2 hc h1 ht,
        Option.some_bind, mergeStep_cons_of_mem t r B ht]
      obtain ⟨cs, e1, e2⟩ := ih ((t ++ [' '] ++ r) :: B)
        { p with nameParts := m ++ (t ++ [' '] ++ r) :: B, nameCommas := CA ++ CB }
        rfl (by simp) (by simp [Synced, h1, h2])
      exact ⟨cs, e1, e2⟩
    · have g0 : p.nameParts[m.length]? = some t := by
        rw [hp2, List.getElem?_append_right (le_refl _)]; simp
      rw [joinPrefixesInner_id prefixList m.length p t g0 ht, Option.some_bind,
        mergeStep_cons_of_not_mem t _ ht]
      exact ih (t :: r :: B) p hp2 (by simp) hs

/-- The token sequence after `joinPrefixes`. -/
theorem joinPrefixes_spec (p : ParsedName) (hs : Synced p) :
    ∃ cs, joinPrefixes p = some
        { p with nameParts := mergePrefixes p.nameParts, nameCommas := cs } ∧
      (mergePrefixes p.nameParts).length = cs.length := by
  unfold joinPrefixes
  split
  · rename_i hl
    have hne : p.nameParts ≠ [] := by
      intro h; rw [h] at hl; simp at hl
    have hd := List.dropLast_append_getLast hne
    obtain ⟨cs, e1, e2⟩ := joinPrefixesLoop_spec p.nameParts.dropLast
      [p.nameParts.getLast hne] p hd.symm (by simp) hs
    have e3 : p.nameParts.dropLast.foldr mergeStep [p.nameParts.getLast hne] =
        mergePrefixes p.nameParts := by
      have e4 : mergeStep (p.nameParts.getLast hne) [] = [p.nameParts.getLast hne] := by
        unfold mergeStep; split <;> rfl
      conv_rhs => rw [mergePrefixes, ← hd, List.foldr_append, List.foldr_cons, List.foldr_nil, e4]
    rw [List.length_dropLast] at e1
    rw [e3] at e1 e2
    exact ⟨cs, e1, e2⟩
  · rename_i hl
    have hm : mergePrefixes p.nameParts = p.nameParts := by
      cases hp : p.nameParts with
      | nil => rfl
      | cons a rest =>
        cases rest with
        | nil => unfold mergePrefixes mergeStep; simp
        | cons b r => rw [hp] at hl; simp at hl
    exact ⟨p.nameCommas, by rw [hm], by rw [hm]; exact hs⟩

theorem mergePrefixes_cons (t : List Char) (rest : List (List Char)) :
    mergePrefixes (t :: rest) = mergeStep t (mergePrefixes rest) := rfl

theorem mergePrefixes_dropLast (parts : List (List Char)) :
    ∀ x ∈ (mergePrefixes parts).dropLast, x ∉ prefixList := by
  induction parts with
  | nil => simp [mergePrefixes]
  | cons t rest ih =>
    rw [mergePrefixes_cons]
    generalize mergePrefixes rest = acc at ih
    intro x hx
    by_cases ht : t ∈ prefixList
    · cases acc with
      | nil => simp [mergeStep, ht] at hx
      | cons r rs =>
        rw [mergeStep_cons_of_mem t r rs ht] at hx
        cases rs with
        | nil => simp at hx
        | cons r2 rs2 =>
          rw [List.dropLast_cons_of_ne_nil (by simp)] at hx
          rcases List.mem_cons.1 hx with rfl | h
          · intro hm
            have := prefixList_no_space _ hm
            simp at this
          · exact ih x (by rw [List.dropLast_cons_of_ne_nil (by simp)]; simp [h])
    · rw [mergeStep_cons_of_not_mem t acc ht] at hx
      cases acc with
      | nil => simp at hx
      | cons r rs =>
        rw [List.dropLast_cons_of_ne_nil (by simp)] at hx
        rcases List.mem_cons.1 hx with rfl | h
        · exact ht
        · exact ih x h

theorem mergeStep_append (t : List Char) (X Y : List (List Char)) (hX : X ≠ []) :
    mergeStep t (X ++ Y) = mergeStep t X ++ Y := by
  obtain ⟨r, rs, rfl⟩ := List.exists_cons_of_ne_nil hX
  unfold mergeStep
  split <;> simp

theorem foldr_mergeStep_append (L X Y : List (List Char)) (hX : X ≠ []) :
    L.foldr mergeStep (X ++ Y) = L.foldr mergeStep X ++ Y ∧ L.foldr mergeStep X ≠ [] := by
  induction L with
  | nil => exact ⟨rfl, hX⟩
  | cons t rest ih =>
    simp only [List.foldr_cons]
    rw [ih.1, mergeStep_append t _ Y ih.2]
    exact ⟨rfl, mergeStep_ne_nil _ _⟩

theorem foldr_mergeStep_run (ps : List (List Char)) (t : List Char) (R : List (List Char))
    (hps : ∀ x ∈ ps, x ∈ prefixList) :
    ps.foldr mergeStep (t :: R) = stringsJoin (ps ++ [t]) [' '] :: R := by
  induction ps with
  | nil => simp [stringsJoin_singleton]
  | cons a rest ih =>
    rw [List.foldr_cons, ih (fun x hx => hps x (List.mem_cons_of_mem _ hx)),
      mergeStep_cons_of_mem _ _ _ (hps a (by simp)), List.cons_append,
      stringsJoin_cons_ne_nil a (rest ++ [t]) [' '] (by simp)]

/-- A maximal run of particles and the token after it become one token. -/
theorem mergePrefixes_run (A ps B : List (List Char)) (t : List Char)
    (hps : ∀ x ∈ ps, x ∈ prefixList) (hleft : ∀ a ∈ A.getLast?, a ∉ prefixList)
    (hright : t ∉ prefixList ∨ B = []) :
    mergePrefixes (A ++ ps ++ t :: B) =
      mergePrefixes A ++ stringsJoin (ps ++ [t]) [' '] :: mergePrefixes B := by
  have e1 : mergeStep t (mergePrefixes B) = t :: mergePrefixes B := by
    rcases hright with h | h
    · exact mergeStep_cons_of_not_mem t _ h
    · subst h
      unfold mergePrefixes mergeStep
      split <;> rfl
  have e2 : mergePrefixes (A ++ ps ++ t :: B) =
      A.foldr mergeStep (stringsJoin (ps ++ [t]) [' '] :: mergePrefixes B) := by
    unfold mergePrefixes
    rw [List.append_assoc, List.foldr_append, List.foldr_append, List.foldr_cons]
    have : mergeStep t (List.foldr mergeStep [] B) = t :: mergePrefixes B := e1
    rw [this, foldr_mergeStep_run ps t _ hps]
    rfl
  rw [e2]
  rcases List.eq_nil_or_concat A with rfl | ⟨A2, a, rfl⟩
  · rfl
  · have ha : a ∉ prefixList := hleft a (by simp)
    unfold mergePrefixes
    rw [List.concat_eq_append, List.foldr_append, List.foldr_append, List.foldr_cons,
      List.foldr_cons, List.foldr_nil, List.foldr_nil, mergeStep_cons_of_not_mem a _ ha,
      mergeStep_cons_of_not_mem a _ ha]
    exact (foldr_mergeStep_append A2 [a] _ (by simp)).1

/-- C16: on synchronised sequences (every state the parser hands to this
pass), `joinPrefixes` returns; afterwards the tokens are those of
`mergePrefixes`, no token other than the last one is an entry of `prefixList`,
and a maximal run of particles followed by another token is one token with that
token, joined by single spaces. -/
theorem C16_prefixes_joined (p : ParsedName) (hs : Synced p) :
    ∃ q, joinPrefixes p = some q ∧ q.nameParts = mergePrefixes p.nameParts ∧
      (∀ x ∈ q.nameParts.dropLast, x ∉ prefixList) ∧
      (∀ (A ps B : List (List Char)) (t : List Char), p.nameParts = A ++ ps ++ t :: B →
        (∀ x ∈ ps, x ∈ prefixList) → (∀ a ∈ A.getLast?, a ∉ prefixList) →
        (t ∉ prefixList ∨ B = []) →
        q.nameParts = mergePrefixes A ++ stringsJoin (ps ++ [t]) [' '] :: mergePrefixes B) := by
  obtain ⟨cs, h, _⟩ := joinPrefixes_spec p hs
  refine ⟨_, h, rfl, mergePrefixes_dropLast p.nameParts, ?_⟩
  intro A ps B t hp hps hleft hright
  show mergePrefixes p.nameParts = _
  rw [hp]
  exact mergePrefixes_run A ps B t hps hleft hright

/-- The statement of `C16_prefixes_joined` on the tokens `van`, `der`, `Berg`. -/
theorem C16_prefixes_joined_witness :
    ∃ q, joinPrefixes
        { nameParts := ["van".toList, "der".toList, "Berg".toList],
          nameCommas := [false, false, false] } = some q ∧
      q.nameParts = ["van der Berg".toList] ∧
      (∀ x ∈ q.nameParts.dropLast, x ∉ prefixList) := by
  obtain ⟨q, h1, _, h3, h4⟩ := C16_prefixes_joined
    { nameParts := ["van".toList, "der".toList, "Berg".toList],
      nameCommas := [false, false, false] } rfl
  refine ⟨q, h1, ?_, h3⟩
  have := h4 [] ["van".toList, "der".toList] [] "Berg".toList rfl (by decide) (by simp)
    (Or.inr rfl)
  rw [this]
  decide

/-! Conjunction joining -/

theorem joinConjunctionsInner_merge (conjs : List (List Char)) (hp : ∀ x ∈ conjs, ' ' ∉ x)
    (p : ParsedName) (A B : List (List Char)) (a c b : List Char) (CA CB : List Bool)
    (c1 c2 : Bool) (hparts : p.nameParts = A ++ a :: c :: b :: B)
    (hcommas : p.nameCommas = CA ++ c1 :: c2 :: CB) (hA : CA.length = A.length)
    (hc : c ∈ conjs) :
    joinConjunctionsInner conjs (A.length : Int) p = some
      ((A.length : Int) - 1,
       { p with
         nameParts := A ++ (a ++ [' '] ++ c ++ [' '] ++ b) :: B,
         nameCommas := CA ++ CB }) := by
  induction conjs with
  | nil => simp at hc
  | cons d rest ih =>
    have g1 : p.nameParts[A.length + 1]? = some c := by
      rw [hparts, List.getElem?_append_right (by omega)]; simp
    rw [joinConjunctionsInner, goIndex_eq p.nameParts _ (A.length + 1) (by omega), g1]
    simp only [Option.some_bind, Option.bind_eq_bind]
    by_cases h : d = c
    · subst h
      simp only [if_true]
      have g0 : p.nameParts[A.length]? = some a := by
        rw [hparts, List.getElem?_append_right (le_refl _)]; simp
      have g2 : p.nameParts[A.length + 2]? = some b := by
        rw [hparts, List.getElem?_append_right (by omega)]; simp
      have hlen : p.nameParts.length = A.length + 3 + B.length := by
        rw [hparts]; simp; omega
      have hlenc : p.nameCommas.length = A.length + 2 + CB.length := by
        rw [hcommas]; simp; omega
      rw [goIndex_eq p.nameParts _ A.length rfl, g0]
      simp only [Option.some_bind]
      rw [goIndex_eq p.nameParts _ (A.length + 2) (by omega), g2]
      simp only [Option.some_bind]
      rw [goSet_eq p.nameParts _ A.length _ rfl (by omega)]
      simp only [Option.some_bind]
      have hset : p.nameParts.set A.length (a ++ [' '] ++ d ++ [' '] ++ b) =
          (A ++ [a ++ [' '] ++ d ++ [' '] ++ b]) ++ d :: b :: B := by
        rw [hparts]; simp
      rw [hset,
        goSliceTo_eq _ _ (A.length + 1) (by omega) (by simp),
        goSliceFrom_eq _ _ (A.length + 3) (by omega) (by simp),
        goSliceTo_eq p.nameCommas _ A.length rfl (by omega),
        goSliceFrom_eq p.nameCommas _ (A.length + 2) (by omega) (by omega)]
      simp only [Option.some_bind]
      have t1 : List.take (A.length + 1) ((A ++ [a ++ [' '] ++ d ++ [' '] ++ b]) ++ d :: b :: B) =
          A ++ [a ++ [' '] ++ d ++ [' '] ++ b] := List.take_left' (by simp)
      have t2 : List.drop (A.length + 3) ((A ++ [a ++ [' '] ++ d ++ [' '] ++ b]) ++ d :: b :: B) =
          B := by
        rw [show A.length + 3 = (A ++ [a ++ [' '] ++ d ++ [' '] ++ b]).length + 2 by simp,
          List.drop_append]; rfl
      have t3 : List.take A.length p.nameCommas = CA := by
        rw [hcommas]; exact List.take_left' hA
      have t4 : List.drop (A.length + 2) p.nameCommas = CB := by
        rw [hcommas, ← hA, List.drop_append]; rfl
      rw [t1, t2, t3, t4]
      have hm : a ++ [' '] ++ d ++ [' '] ++ b ∉ rest := by
        intro hm
        have := hp _ (List.mem_cons_of_mem _ hm)
        simp at this
      have g3 : (A ++ [a ++ [' '] ++ d ++ [' '] ++ b] ++ B)[A.length]? =
          some (a ++ [' '] ++ d ++ [' '] ++ b) := by
        rw [List.append_assoc, List.getElem?_append_right (le_refl _)]; simp
      rw [joinConjunctionsInner_id rest _ A.length (by omega) _
        (a ++ [' '] ++ d ++ [' '] ++ b) g3 hm]
      simp
    · simp only [h, if_false]
      have hc2 : c ∈ rest := by
        rcases List.mem_cons.1 hc with h2 | h2
        · exact absurd h2.symm h
        · exact h2
      exact ih (fun x hx => hp x (List.mem_cons_of_mem _ hx)) hc2

theorem split_three {β : Type} (l : List β) (k : Nat) (h : k + 3 ≤ l.length) :
    ∃ A a c b B, l = A ++ a :: c :: b :: B ∧ A.length = k := by
  induction k generalizing l with
  | zero =>
    match l, h with
    | a :: c :: b :: B, _ => exact ⟨[], a, c, b, B, rfl, rfl⟩
  | succ k ih =>
    cases l with
    | nil => simp at h
    | cons x rest =>
      obtain ⟨A, a, c, b, B, e, hA⟩ := ih rest (by simp at h; omega)
      exact ⟨x :: A, a, c, b, B, by rw [e]; rfl, by simp [hA]⟩

theorem mem_dropLast_of_mem_tail_dropLast {β : Type} (l : List β) (x : β)
    (h : x ∈ (l.drop 1).dropLast) : x ∈ l.dropLast := by
  cases l with
  | nil => simp at h
  | cons a rest =>
    cases rest with
    | nil => simp at h
    | cons b r =>
      rw [List.dropLast_cons_of_ne_nil (by simp)]
      exact List.mem_cons_of_mem _ h

theorem joinConjunctionsLoop_spec (fuel : Nat) :
    ∀ (i : Int) (p : ParsedName), Synced p → i < (fuel : Int) → -2 ≤ i →
      (0 ≤ i → i + 3 ≤ (p.nameParts.length : Int)) →
      (∀ x ∈ (p.nameParts.drop (i + 2).toNat).dropLast, x ∉ conjunctionList) →
      ∃ ps cs, joinConjunctionsLoop fuel i p =
          some { p with nameParts := ps, nameCommas := cs } ∧
        ps.length = cs.length ∧ Regroup p.nameParts ps ∧
        (∀ x ∈ (ps.drop 1).dropLast, x ∉ conjunctionList) := by
  induction fuel with
  | zero =>
    intro i p hs hf hlo _ hinv
    have hneg : ¬ i ≥ 0 := by omega
    refine ⟨p.nameParts, p.nameCommas, by simp [joinConjunctionsLoop, hneg], hs,
      Regroup.refl _, ?_⟩
    have hi : i = -1 ∨ i = -2 := by omega
    rcases hi with rfl | rfl
    · exact hinv
    · intro x hx
      exact hinv x (mem_dropLast_of_mem_tail_dropLast _ x hx)
  | succ fuel ih =>
    intro i p hs hf hlo hlen hinv
    unfold joinConjunctionsLoop
    by_cases h0 : i ≥ 0
    · obtain ⟨k, rfl⟩ := Int.eq_ofNat_of_zero_le h0
      have hk : k + 3 ≤ p.nameParts.length := by
        have := hlen h0
        omega
      obtain ⟨A, a, c, b, B, hparts, hA⟩ := split_three p.nameParts k hk
      have hdrop : p.nameParts.drop (k + 2) = b :: B := by
        rw [hparts, show k + 2 = A.length + 2 by omega, List.drop_append]; rfl
      have hinv2 : ∀ x ∈ (b :: B).dropLast, x ∉ conjunctionList := by
        have e : ((k : Int) + 2).toNat = k + 2 := by omega
        rw [e, hdrop] at hinv
        exact hinv
      simp only [h0, if_true]
      by_cases hc : c ∈ conjunctionList
      · obtain ⟨CA, c1, CB2, hcom, h1, h2⟩ :=
          split_at_length p.nameCommas A.length (B.length + 2) (by
            unfold Synced at hs
            rw [← hs, hparts]; simp; omega)
        obtain ⟨c2, CB, rfl⟩ : ∃ c2 CB, CB2 = c2 :: CB := by
          cases CB2 with
          | nil => simp at h2
          | cons c2 CB => exact ⟨c2, CB, rfl⟩
        have hm := joinConjunctionsInner_merge conjunctionList conjunctionList_no_space p A B
          a c b CA CB c1 c2 hparts hcom h1 hc
        rw [hA] at hm
        rw [hm, Option.some_bind]
        have hB : CB.length = B.length + 1 := by simp at h2; omega
        obtain ⟨ps, cs, e1, e2, e3, e4⟩ := ih ((k : Int) - 1 - 1)
          { p with
            nameParts := A ++ (a ++ [' '] ++ c ++ [' '] ++ b) :: B,
            nameCommas := CA ++ CB }
          (by simp [Synced, h1, hB]) (by omega) (by omega)
          (by intro _; simp only [List.length_append, List.length_cons]; push_cast; omega)
          (by
            have e : ((k : Int) - 1 - 1 + 2).toNat = A.length := by omega
            simp only [e, List.drop_left]
            intro x hx
            cases B with
            | nil => simp at hx
            | cons b2 B2 =>
              rw [List.dropLast_cons_of_ne_nil (by simp)] at hx
              rcases List.mem_cons.1 hx with rfl | h
              · intro hm2
                have := conjunctionList_no_space _ hm2
                simp at this
              · exact hinv2 x (by
                  rw [List.dropLast_cons_of_ne_nil (by simp)]
                  exact List.mem_cons_of_mem _ h))
        refine ⟨ps, cs, e1, e2, ?_, e4⟩
        refine Regroup.trans ?_ e3
        rw [hparts]
        exact Regroup.merge _ A B (a ++ [' '] ++ c) b
          (Regroup.merge _ A (b :: B) a c (Regroup.refl _))
      · have g1 : p.nameParts[k + 1]? = some c := by
          rw [hparts, ← hA, List.getElem?_append_right (by omega)]; simp
        rw [joinConjunctionsInner_id conjunctionList k (k + 1) (by omega) p c g1 hc,
          Option.some_bind]
        exact ih ((k : Int) - 1) p hs (by omega) (by omega) (by intro _; omega) (by
          have e : ((k : Int) - 1 + 2).toNat = A.length + 1 := by omega
          rw [e, hparts, List.drop_append]
          intro x hx
          simp only [List.drop_succ_cons, List.drop_zero] at hx
          rw [List.dropLast_cons_of_ne_nil (by simp)] at hx
          rcases List.mem_cons.1 hx with rfl | h
          · exact hc
          · exact hinv2 x h)
    · refine ⟨p.nameParts, p.nameCommas, by simp [h0], hs, Regroup.refl _, ?_⟩
      have hi : i = -1 ∨ i = -2 := by omega
      rcases hi with rfl | rfl
      · exact hinv
      · intro x hx
        exact hinv x (mem_dropLast_of_mem_tail_dropLast _ x hx)

/-- The token sequence after `joinConjunctions`. -/
theorem joinConjunctions_spec (p : ParsedName) (hs : Synced p) :
    ∃ ps cs, joinConjunctions p = some { p with nameParts := ps, nameCommas := cs } ∧
      ps.length = cs.length ∧ Regroup p.nameParts ps ∧
      (∀ x ∈ (ps.drop 1).dropLast, x ∉ conjunctionList) := by
  unfold joinConjunctions
  split
  · rename_i hl
    apply joinConjunctionsLoop_spec _ _ p hs (by omega) (by omega) (by omega)
    have e : ((p.nameParts.length : Int) - 3 + 2).toNat = p.nameParts.length - 1 := by omega
    rw [e]
    intro x hx
    have : ((p.nameParts.drop (p.nameParts.length - 1)).dropLast).length = 0 := by
      simp; omega
    rw [List.length_eq_zero.1 this] at hx
    simp at hx
  · rename_i hl
    refine ⟨p.nameParts, p.nameCommas, rfl, hs, Regroup.refl _, ?_⟩
    intro x hx
    have : ((p.nameParts.drop 1).dropLast).length = 0 := by
      simp; omega
    rw [List.length_eq_zero.1 this] at hx
    simp at hx

/-- C17: on synchronised sequences (every state the parser hands to this
pass), `joinConjunctions` returns, and afterwards no token strictly between the
first and the last position is an entry of `conjunctionList`. -/
theorem C17_no_interior_conjunction (p : ParsedName) (hs : Synced p) :
    ∃ q, joinConjunctions p = some q ∧
      ∀ x ∈ (q.nameParts.drop 1).dropLast, x ∉ conjunctionList := by
  obtain ⟨ps, cs, h, _, _, hint⟩ := joinConjunctions_spec p hs
  exact ⟨_, h, hint⟩

/-- The statement of `C17_no_interior_conjunction` on the tokens `Juan`, `et`,
`Glova`, `Q.`, which become `Juan et Glova` and `Q.`. -/
theorem C17_no_interior_conjunction_witness :
    joinConjunctions
        { nameParts := ["Juan".toList, "et".toList, "Glova".toList, "Q.".toList],
          nameCommas := [false, false, false, false] } =
      some { nameParts := ["Juan et Glova".toList, "Q.".toList],
             nameCommas := [false, false] } ∧
    ∃ q, joinConjunctions
        { nameParts := ["Juan".toList, "et".toList, "Glova".toList, "Q.".toList],
          nameCommas := [false, false, false, false] } = some q ∧
      ∀ x ∈ (q.nameParts.drop 1).dropLast, x ∉ conjunctionList :=
  ⟨by decide, C17_no_interior_conjunction
    { nameParts := ["Juan".toList, "et".toList, "Glova".toList, "Q.".toList],
      nameCommas := [false, false, false, false] } rfl⟩

/-- C20: on synchronised sequences (every state the parser hands to these
passes), `strings.Join(nameParts, " ")` is the same string before and after
`joinPrefixes`, and the same string before and after `joinConjunctions`. -/
theorem C20_joins_keep_text (p : ParsedName) (hs : Synced p) :
    (∃ q, joinPrefixes p = some q ∧
      stringsJoin q.nameParts [' '] = stringsJoin p.nameParts [' ']) ∧
    (∃ q, joinConjunctions p = some q ∧
      stringsJoin q.nameParts [' '] = stringsJoin p.nameParts [' ']) := by
  constructor
  · obtain ⟨cs, h, _⟩ := joinPrefixes_spec p hs
    exact ⟨_, h, (regroup_mergePrefixes p.nameParts).join_eq⟩
  · obtain ⟨ps, cs, h, _, hr, _⟩ := joinConjunctions_spec p hs
    exact ⟨_, h, hr.join_eq⟩

/-- The statement of `C20_joins_keep_text` on the tokens `de`, `la`, `Vega`,
`y`, `Xavier`. -/
theorem C20_joins_keep_text_witness :
    (∃ q, joinPrefixes
        { nameParts := ["de".toList, "la".toList, "Vega".toList, "y".toList, "Xavier".toList],
          nameCommas := [false, false, false, false, false] } = some q ∧
      stringsJoin q.nameParts [' '] =
        stringsJoin ["de".toList, "la".toList, "Vega".toList, "y".toList, "Xavier".toList]
          [' ']) ∧
    (∃ q, joinConjunctions
        { nameParts := ["de".toList, "la".toList, "Vega".toList, "y".toList, "Xavier".toList],
          nameCommas := [false, false, false, false, false] } = some q ∧
      stringsJoin q.nameParts [' '] =
        stringsJoin ["de".toList, "la".toList, "Vega".toList, "y".toList, "Xavier".toList]
          [' ']) :=
  C20_joins_keep_text
    { nameParts := ["de".toList, "la".toList, "Vega".toList, "y".toList, "Xavier".toList],
      nameCommas := [false, false, false, false, false] } rfl

/-! No token is invented -/

theorem tokenJoin_of_mem (toks : List (List Char)) (x : List Char) (h : x ∈ toks) :
    TokenJoin toks x :=
  ⟨[x], by simp, by simpa using h, (stringsJoin_singleton x [' ']).symm⟩

theorem entriesOfTokens_nil (toks : List (List Char)) : EntriesOfTokens toks [] :=
  ⟨[], by simp, rfl⟩

theorem findLastname_mem (p : ParsedName) (hs : Synced p) (hl : 0 < p.nameParts.length) :
    ∃ l ps, findLastname p = some (l, { p with nameParts := ps, nameCommas := [] }) ∧
      l ∈ p.nameParts ∧ ∀ x ∈ ps, x ∈ p.nameParts := by
  unfold Synced at hs
  unfold findLastname
  simp only []
  have hr := lastCommaIndex_range p.nameCommas (-1) 0 (Or.inl rfl) (le_refl _)
  generalize lastCommaIndex (-1) 0 p.nameCommas = r at hr
  have h0 : 0 ≤ (if r = -1 then (p.nameParts.length : Int) - 1 else r) := by
    split <;> omega
  have h1 : (if r = -1 then (p.nameParts.length : Int) - 1 else r) < p.nameParts.length := by
    split <;> omega
  generalize (if r = -1 then (p.nameParts.length : Int) - 1 else r) = ci at h0 h1
  obtain ⟨n, rfl⟩ := Int.eq_ofNat_of_zero_le h0
  have hn : n < p.nameParts.length := by omega
  rw [goIndex_eq p.nameParts _ n rfl, List.getElem?_eq_getElem hn,
    goSliceTo_eq p.nameParts _ n rfl (by omega),
    goSliceFrom_eq p.nameParts _ (n + 1) (by omega) (by omega),
    goSliceTo_eq p.nameCommas 0 0 rfl (by omega)]
  refine ⟨p.nameParts[n], List.take n p.nameParts ++ List.drop (n + 1) p.nameParts, rfl,
    List.getElem_mem _, ?_⟩
  intro x hx
  rcases List.mem_append.1 hx with h | h
  · exact List.mem_of_mem_take h
  · exact List.mem_of_mem_drop h

theorem passSuffix_inv (toks : List (List Char)) (p : ParsedName) (hs : Synced p)
    (hi : TokensInv toks p) : ∃ q, passSuffix p = some q ∧ Synced q ∧ TokensInv toks q := by
  obtain ⟨h1, h2, h3, h4, h5, h6⟩ := hi
  unfold passSuffix
  split
  · obtain ⟨cs, e, hlen⟩ := findParts_filter suffixList p hs
    rw [findSuffixes, e]
    refine ⟨_, rfl, hlen, ?_, h2, ?_, h4, h5, h6⟩
    · intro x hx
      exact h1 x (List.mem_of_mem_filter hx)
    · exact ⟨collectParts suffixList p.nameParts,
        fun e he => h1 e (mem_of_mem_collectParts _ _ e he), rfl⟩
  · exact ⟨p, rfl, hs, h1, h2, h3, h4, h5, h6⟩

theorem passTitle_inv (toks : List (List Char)) (p : ParsedName) (hs : Synced p)
    (hi : TokensInv toks p) : ∃ q, passTitle p = some q ∧ Synced q ∧ TokensInv toks q := by
  obtain ⟨h1, h2, h3, h4, h5, h6⟩ := hi
  unfold passTitle
  split
  · obtain ⟨cs, e, hlen⟩ := findParts_filter titleList p hs
    rw [findTitles, e]
    refine ⟨_, rfl, hlen, ?_, ?_, h3, h4, h5, h6⟩
    · intro x hx
      exact h1 x (List.mem_of_mem_filter hx)
    · exact ⟨collectParts titleList p.nameParts,
        fun e he => h1 e (mem_of_mem_collectParts _ _ e he), rfl⟩
  · exact ⟨p, rfl, hs, h1, h2, h3, h4, h5, h6⟩

theorem passPrefix_inv (toks : List (List Char)) (p : ParsedName) (hs : Synced p)
    (hi : TokensInv toks p) : ∃ q, passPrefix p = some q ∧ Synced q ∧ TokensInv toks q := by
  obtain ⟨h1, h2, h3, h4, h5, h6⟩ := hi
  unfold passPrefix
  split
  · obtain ⟨cs, e, hlen⟩ := joinPrefixes_spec p hs
    rw [e]
    exact ⟨_, rfl, hlen, (regroup_mergePrefixes p.nameParts).tokens h1, h2, h3, h4, h5, h6⟩
  · exact ⟨p, rfl, hs, h1, h2, h3, h4, h5, h6⟩

theorem passConj_inv (toks : List (List Char)) (p : ParsedName) (hs : Synced p)
    (hi : TokensInv toks p) : ∃ q, passConj p = some q ∧ Synced q ∧ TokensInv toks q := by
  obtain ⟨h1, h2, h3, h4, h5, h6⟩ := hi
  unfold passConj
  split
  · obtain ⟨ps, cs, e, hlen, hr, _⟩ := joinConjunctions_spec p hs
    rw [e]
    exact ⟨_, rfl, hlen, hr.tokens h1, h2, h3, h4, h5, h6⟩
  · exact ⟨p, rfl, hs, h1, h2, h3, h4, h5, h6⟩

theorem entriesOfTokens_append (toks es2 : List (List Char)) (v : List Char)
    (hv : EntriesOfTokens toks v) (hne : v ≠ []) (h2 : ∀ e ∈ es2, TokenJoin toks e)
    (hes2 : es2 ≠ []) :
    EntriesOfTokens toks (v ++ [',', ' '] ++ stringsJoin es2 [',', ' ']) := by
  obtain ⟨es, h1, rfl⟩ := hv
  have hes : es ≠ [] := by
    intro h
    rw [h] at hne
    exact hne rfl
  refine ⟨es ++ es2, ?_, (stringsJoin_append es es2 [',', ' '] hes hes2).symm⟩
  intro e he
  rcases List.mem_append.1 he with h | h
  · exact h1 e h
  · exact h2 e h

theorem passExtra_inv (toks : List (List Char)) (p : ParsedName) (hs : Synced p)
    (hi : TokensInv toks p) : ∃ q, passExtra p = some q ∧ Synced q ∧ TokensInv toks q := by
  obtain ⟨h1, h2, h3, h4, h5, h6⟩ := hi
  unfold passExtra
  split
  · obtain ⟨ex, ps, cs, e, hlen, _⟩ := findExtraSuffixes_some p hs
    have hx := findExtraSuffixes_exact p hs
    rw [e] at hx
    have hmem : (∀ x ∈ ex, x ∈ p.nameParts) ∧ (∀ x ∈ ps, x ∈ p.nameParts) := by
      by_cases hc : 2 ≤ commasCount p.nameCommas
      · rw [if_pos hc] at hx
        simp only [Option.some.injEq, Prod.mk.injEq] at hx
        obtain ⟨hx1, hx2⟩ := hx
        have hps : ps = p.nameParts.take 2 ++
            (((p.nameParts.zip p.nameCommas).drop 2).filter (fun z => !z.2)).map Prod.fst :=
          congrArg ParsedName.nameParts hx2
        constructor
        · intro x hxm
          rw [hx1] at hxm
          obtain ⟨z, hz, rfl⟩ := List.mem_map.1 hxm
          rw [List.mem_reverse] at hz
          exact (List.of_mem_zip (List.mem_of_mem_drop (List.mem_of_mem_filter hz))).1
        · intro x hxm
          rw [hps] at hxm
          rcases List.mem_append.1 hxm with h | h
          · exact List.mem_of_mem_take h
          · obtain ⟨z, hz, rfl⟩ := List.mem_map.1 h
            exact (List.of_mem_zip (List.mem_of_mem_drop (List.mem_of_mem_filter hz))).1
      · rw [if_neg hc] at hx
        simp only [Option.some.injEq, Prod.mk.injEq] at hx
        obtain ⟨hx1, hx2⟩ := hx
        have hps : ps = p.nameParts := congrArg ParsedName.nameParts hx2
        constructor
        · intro x hxm; rw [hx1] at hxm; simp at hxm
        · intro x hxm; rw [hps] at hxm; exact hxm
    rw [e]
    refine ⟨_, rfl, ?_, ?_⟩
    · simp only [Option.map_some']
      split
      · split <;> exact hlen
      · exact hlen
    · simp only [Option.map_some']
      have hps : ∀ x ∈ ps, TokenJoin toks x := fun x hxm => h1 x (hmem.2 x hxm)
      have hex : ∀ x ∈ ex, TokenJoin toks x := fun x hxm => h1 x (hmem.1 x hxm)
      split
      · rename_i hpos
        have hexne : ex ≠ [] := by
          intro h0; rw [h0] at hpos; simp at hpos
        split
        · rename_i hsuf
          exact ⟨hps, h2, entriesOfTokens_append toks ex p.Suffix h3 hsuf hex hexne, h4, h5, h6⟩
        · exact ⟨hps, h2, ⟨ex, hex, rfl⟩, h4, h5, h6⟩
      · exact ⟨hps, h2, h3, h4, h5, h6⟩
  · exact ⟨p, rfl, hs, h1, h2, h3, h4, h5, h6⟩

theorem passLast_inv (toks : List (List Char)) (p : ParsedName) (hs : Synced p)
    (hi : TokensInv toks p) : ∃ q, passLast p = some q ∧ TokensInv toks q := by
  obtain ⟨h1, h2, h3, h4, h5, h6⟩ := hi
  unfold passLast
  split
  · rename_i hl
    obtain ⟨l, ps, e, hm, hps⟩ := findLastname_mem p hs hl
    rw [e]
    exact ⟨_, rfl, fun x hx => h1 x (hps x hx), h2, h3, h4, Or.inr (h1 l hm), h6⟩
  · exact ⟨p, rfl, h1, h2, h3, h4, h5, h6⟩

theorem passFirst_inv (toks : List (List Char)) (p : ParsedName)
    (hi : TokensInv toks p) : ∃ q, passFirst p = some q ∧ TokensInv toks q := by
  obtain ⟨h1, h2, h3, h4, h5, h6⟩ := hi
  unfold passFirst
  split
  · rename_i hl
    unfold findFirstname
    rw [goIndex_eq p.nameParts 0 0 rfl, List.getElem?_eq_getElem hl,
      goSliceFrom_eq p.nameParts 1 1 rfl (by omega)]
    exact ⟨_, rfl, fun x hx => h1 x (List.mem_of_mem_drop hx), h2, h3,
      Or.inr (h1 _ (List.getElem_mem _)), h5, h6⟩
  · exact ⟨p, rfl, h1, h2, h3, h4, h5, h6⟩

theorem passMiddle_inv (toks : List (List Char)) (p : ParsedName)
    (hi : TokensInv toks p) : ∃ q, passMiddle p = some q ∧ TokensInv toks q := by
  obtain ⟨h1, h2, h3, h4, h5, h6⟩ := hi
  unfold passMiddle
  split
  · unfold findMiddlename
    rw [goSliceTo_eq p.nameParts 0 0 rfl (by omega)]
    exact ⟨_, rfl, by intro x hx; simp at hx, h2, h3, h4, h5, ⟨p.nameParts, h1, rfl⟩⟩
  · exact ⟨p, rfl, h1, h2, h3, h4, h5, h6⟩

/-- C11, as amended: no output token is invented.  With `t` the state after
tokenization, `First` and `Last` are empty (absent) or the single-space join of
one or more tokens of `t`, `Middle` is a single-space join of such values, and
`Title` and `Suffix` are `", "`-joins of such values: the entries the parser
collected, which need not be the pieces between the `", "` of the field. -/
theorem C11_no_token_invented (fullname : List Char) :
    ∃ t p, stateAfter 2 fullname = some t ∧ ParseFullname fullname = some p ∧
      (p.First = [] ∨ TokenJoin t.nameParts p.First) ∧
      (p.Last = [] ∨ TokenJoin t.nameParts p.Last) ∧
      (∃ vals, (∀ v ∈ vals, TokenJoin t.nameParts v) ∧ p.Middle = stringsJoin vals [' ']) ∧
      EntriesOfTokens t.nameParts p.Title ∧ EntriesOfTokens t.nameParts p.Suffix := by
  obtain ⟨p1, hp1⟩ : ∃ p1, passNick { rawName := fullname } = some p1 := ⟨_, rfl⟩
  have hf1 : p1.Title = [] ∧ p1.Suffix = [] ∧ p1.First = [] ∧ p1.Last = [] ∧ p1.Middle = [] := by
    simp only [passNick, Option.some.injEq] at hp1
    subst hp1
    exact ⟨rfl, rfl, rfl, rfl, rfl⟩
  obtain ⟨p2, hp2, s2⟩ := passSplit_synced p1
  have hf2 : p2.Title = [] ∧ p2.Suffix = [] ∧ p2.First = [] ∧ p2.Last = [] ∧ p2.Middle = [] := by
    simp only [passSplit, Option.some.injEq] at hp2
    subst hp2
    exact hf1
  have i2 : TokensInv p2.nameParts p2 := by
    refine ⟨fun x hx => tokenJoin_of_mem _ x hx, ?_, ?_, Or.inl hf2.2.2.1,
      Or.inl hf2.2.2.2.1, ⟨[], by simp, ?_⟩⟩
    · rw [hf2.1]; exact entriesOfTokens_nil _
    · rw [hf2.2.1]; exact entriesOfTokens_nil _
    · rw [hf2.2.2.2.2]; rfl
  obtain ⟨p3, hp3, s3, i3⟩ := passSuffix_inv p2.nameParts p2 s2 i2
  obtain ⟨p4, hp4, s4, i4⟩ := passTitle_inv p2.nameParts p3 s3 i3
  obtain ⟨p5, hp5, s5, i5⟩ := passPrefix_inv p2.nameParts p4 s4 i4
  obtain ⟨p6, hp6, s6, i6⟩ := passConj_inv p2.nameParts p5 s5 i5
  obtain ⟨p7, hp7, s7, i7⟩ := passExtra_inv p2.nameParts p6 s6 i6
  obtain ⟨p8, hp8, i8⟩ := passLast_inv p2.nameParts p7 s7 i7
  obtain ⟨p9, hp9, i9⟩ := passFirst_inv p2.nameParts p8 i8
  obtain ⟨p10, hp10, i10⟩ := passMiddle_inv p2.nameParts p9 i9
  refine ⟨p2, p10, ?_, ?_, i10.2.2.2.1, i10.2.2.2.2.1, i10.2.2.2.2.2, i10.2.1, i10.2.2.1⟩
  · simp only [stateAfter, passes, List.take, runPasses, hp1, hp2, Option.some_bind]
  · simp only [ParseFullname, Parse, passes, runPasses, hp1, hp2, hp3, hp4, hp5, hp6, hp7, hp8,
      hp9, hp10, Option.some_bind]

theorem not_tokenJoin_single (toks : List (List Char)) (c : Char) (h1 : [c] ∉ toks)
    (h2 : [] ∉ toks) : ¬ TokenJoin toks [c] := by
  rintro ⟨sub, hne, hmem, e⟩
  cases sub with
  | nil => exact hne rfl
  | cons s rest =>
    cases rest with
    | nil =>
      rw [stringsJoin_singleton] at e
      exact h1 (e ▸ hmem s (List.mem_cons_self _ _))
    | cons s2 r =>
      rw [stringsJoin_cons_cons] at e
      cases s with
      | nil => exact h2 (hmem [] (List.mem_cons_self _ _))
      | cons d ds =>
        have hl := congrArg List.length e
        simp only [List.length_cons, List.length_nil, List.length_append] at hl
        omega

/-- C11, counterexample to the claim as written: on `"Juan Xavier, a,, and b,"`
the tokens are `Juan`, `Xavier`, `a,`, `and`, `b`, and `Suffix` is
`"a, and b"`: the piece `a` before its `", "` is neither one of the tokens nor a
single-space join of tokens. -/
theorem C11_counterexample :
    (stateAfter 2 "Juan Xavier, a,, and b,".toList).map (fun p => p.nameParts) =
        some ["Juan".toList, "Xavier".toList, "a,".toList, "and".toList, "b".toList] ∧
      (ParseFullname "Juan Xavier, a,, and b,".toList).map (fun p => p.Suffix) =
        some ("a".toList ++ [',', ' '] ++ "and b".toList) ∧
      ¬ TokenJoin ["Juan".toList, "Xavier".toList, "a,".toList, "and".toList, "b".toList]
        "a".toList := by
  refine ⟨by decide, by decide, ?_⟩
  exact not_tokenJoin_single _ 'a' (by decide) (by decide)

end FullnameParser
